import Mathlib

/-!
# floppy8 : the sample-to-sector decoder of `extract.c`

A shallow embedding of the decoding core of `extract.c` (CRC-16, the format
detector `sample_to_us` / `determine_format`, the sector registry
`Disk`/`disk_add`, the FM and MFM byte fetchers, the mark handlers, the two
track scanners `fm_decode` / `mfm_decode`, the driver `process` and the status
line of `human_show`) together with theorems about it.

Conventions of the embedding.

* C `unsigned int`, `unsigned short` and `uint8_t` values are natural numbers;
  a reduction `% 2 ^ w` is written wherever the C code truncates (the `uint8_t`
  temporaries and the `unsigned short` register of `crc16`, the `uint8_t` result
  of the byte fetchers).  Index arithmetic of the scanners never wraps, because
  `process` loads at most `MAX_SAMPLES = 200000` samples.
* A C buffer is a `List Nat`; reading index `k` is `buf.getD k 0`.  `fm_decode`
  reads only inside its buffer (`fm_decode_reads`).  `mfm_decode` can read
  behind its zero pad, where the source finds bytes it never wrote:
  `mfm_decode_mem` takes those bytes as an argument, `process` passes them on,
  and `mfm_decode` is the case in which all of them are 0.
* The global variables `Last_track`, `Last_side`, `Last_sector`, `Last_size`
  and `Disk` are threaded explicitly as a value of type `Globals`.
* Lines printed through `error` (and the `invalid params` line of `disk_add`)
  are returned as a list of `Msg`; output printed only under `Verbose` is not
  modelled.
-/

namespace Floppy8

/-! ## Constants -/

/-- Constant `TWO_US`, defined as `75`. -/
def TWO_US : Nat := 75
/-- Constant `ONE_US`, defined as `(TWO_US/2)`. -/
def ONE_US : Nat := TWO_US / 2
/-- Constant `THREE_US`, defined as `(TWO_US+ONE_US)`. -/
def THREE_US : Nat := TWO_US + ONE_US
/-- Constant `FOUR_US`, defined as `(TWO_US*2)`. -/
def FOUR_US : Nat := TWO_US * 2
/-- Constant `HALF_US`, defined as `(ONE_US/2)`. -/
def HALF_US : Nat := ONE_US / 2
/-- Constant `TWOP5_US`, defined as `(TWO_US+HALF_US)`. -/
def TWOP5_US : Nat := TWO_US + HALF_US
/-- Constant `THREEP5_US`, defined as `(THREE_US+HALF_US)`. -/
def THREEP5_US : Nat := THREE_US + HALF_US
/-- Constant `FM_SPLIT`, defined as `THREE_US`. -/
def FM_SPLIT : Nat := THREE_US
/-- Constant `MFM_SPLIT_LO`, defined as `TWOP5_US`. -/
def MFM_SPLIT_LO : Nat := TWOP5_US
/-- Constant `MFM_SPLIT_HI`, defined as `THREEP5_US`. -/
def MFM_SPLIT_HI : Nat := THREEP5_US
/-- Constant `MAX_US`, defined as `6`. -/
def MAX_US : Nat := 6
/-- Constant `NTRACKS`, defined as `77`. -/
def NTRACKS : Nat := 77
/-- Constant `NSIDES`, defined as `1`. -/
def NSIDES : Nat := 1
/-- Constant `NSECTORS`, defined as `33`. -/
def NSECTORS : Nat := 33
/-- Constant `NSIZES`, defined as `4`. -/
def NSIZES : Nat := 4
/-- Constant `MAX_SSIZE`, defined as `1024`. -/
def MAX_SSIZE : Nat := 1024
/-- Constant `DECODE_PAD`, defined as `(2*8*(MAX_SSIZE))`. -/
def DECODE_PAD : Nat := 2 * 8 * MAX_SSIZE
/-- Constant `TT_FM`, defined as `1`. -/
def TT_FM : Nat := 1
/-- Constant `TT_MFM`, defined as `2`. -/
def TT_MFM : Nat := 2
/-- Constant `MAX_SAMPLES`, defined as `200000`. -/
def MAX_SAMPLES : Nat := 200000

/-! ## CRC-16 -/

/-- One iteration of the loop of `crc16`: `x` is a `uint8_t`, `crc` an
`unsigned short`. -/
def crc16_step (crc b : Nat) : Nat :=
  let x := ((crc >>> 8) ^^^ b) % 256
  let x := (x ^^^ (x >>> 4)) % 256
  ((crc <<< 8) ^^^ ((x <<< 12) % 65536) ^^^ ((x <<< 5) % 65536) ^^^ (x % 65536)) % 65536

/-- Function `crc16(buf, count)`: the register starts at `0xffff` and absorbs the first
`count` bytes of `buf`. -/
def crc16 (buf : List Nat) (count : Nat) : Nat :=
  (buf.take count).foldl crc16_step 0xFFFF

/-- One shift of the reference bit-serial CRC register: shift left by one in
16 bits and reduce by the generator `0x1021` when the bit shifted out was set. -/
def crc_ref_shift (r : Nat) : Nat :=
  if r.testBit 15 then ((r <<< 1) % 65536) ^^^ 0x1021 else (r <<< 1) % 65536

/-- The reference bit-serial CRC absorbs a byte MSB first: the byte is added
into the high half of the register, which is then shifted eight times. -/
def crc_ref_byte (r b : Nat) : Nat :=
  crc_ref_shift^[8] (r ^^^ (b <<< 8))

/-- Reference CRC-16 as the text describes it: generator `x^16+x^12+x^5+1`,
initial register `0xFFFF`, MSB first, no reflection, no final XOR. -/
def crc16_ref (buf : List Nat) : Nat :=
  buf.foldl crc_ref_byte 0xFFFF

/-! ## Format detection -/

/-- Function `sample_to_us`: the argument is a `sample_t` (32-bit unsigned), so
the sum `s + (ONE_US / 2)` is reduced modulo `2 ^ 32`. -/
def sample_to_us (s : Nat) : Nat :=
  let us := ((s + ONE_US / 2) % 2 ^ 32) / ONE_US
  if us < MAX_US then us else MAX_US - 1

/-- The histogram loop of `determine_format`: `histogram[s]++` for each of the
first `n` samples, from the zeroed array of `MAX_US` counters.  A counter never
exceeds `n`, which is an `unsigned int`. -/
def histogram_fill (samples : List Nat) (n : Nat) : List Nat :=
  (samples.take n).foldl
    (fun h x => h.set (sample_to_us x) (h.getD (sample_to_us x) 0 + 1))
    (List.replicate MAX_US 0)

/-- Function `determine_format(samples, n)`; the product `histogram[3] * 100` is
an `unsigned int`. -/
def determine_format (samples : List Nat) (n : Nat) : Nat :=
  let histogram := histogram_fill samples n
  if ((histogram.getD 3 0 * 100) % 2 ^ 32) / n > 5 then TT_MFM else TT_FM

/-! ## Diagnostics and the sector registry -/

/-- The lines printed through `error` (and the `invalid params` line of
`disk_add`). -/
inductive Msg where
  | invalid_params (track side sector size : Nat)
  | missing_data
  | inconsistent_size
  | inconsistent_data
  | invalid_mfm_bit
  | cannot_determine_format
  deriving DecidableEq, Repr

/-- The C `struct sector`: `data` is `none` for a `NULL` pointer. -/
structure sector_t where
  size : Nat
  data : Option (List Nat)
  deriving DecidableEq, Repr

/-- The array `Disk[NTRACKS][NSECTORS]`, indexed by track and sector. -/
abbrev Disk := Nat → Nat → sector_t

/-- The zero-initialised `Disk`: every slot has size 0 and no data. -/
def Disk_empty : Disk := fun _ _ => ⟨0, none⟩

/-- Assignment to the slot `Disk[track][sector]`. -/
def Disk_set (disk : Disk) (track sector : Nat) (s : sector_t) : Disk :=
  fun t k => if t = track ∧ k = sector then s else disk t k

/-- The global variables of `extract.c` that the decoder mutates. -/
structure Globals where
  Last_track : Nat
  Last_side : Nat
  Last_sector : Nat
  Last_size : Nat
  disk : Disk

/-- Function `sector_none`: invalidate the last known sector header. -/
def sector_none (g : Globals) : Globals :=
  { g with Last_track := NTRACKS, Last_sector := NSECTORS, Last_side := NSIDES, Last_size := 0 }

/-- The state `process` hands to a decoder on a fresh run: an empty disk and
a cleared header context. -/
def Globals_init : Globals :=
  sector_none ⟨NTRACKS, 0, 0, 0, Disk_empty⟩

/-- Function `valid_size`: is `size` one of `128u << i` for `i < NSIZES`. -/
def valid_size (size : Nat) : Bool :=
  (List.range NSIZES).any (fun i => size == 128 <<< i)

/-- Function `disk_add`.  The argument `data` is `none` for a `NULL` pointer and
otherwise lists the bytes readable at the pointer; `memcpy` takes the first
`size` of them and `memcmp` compares the first `s->size` bytes of both
buffers.  Returns the new image and the lines printed. -/
def disk_add (disk : Disk) (track side sector size : Nat) (data : Option (List Nat)) :
    Disk × List Msg :=
  if track ≥ NTRACKS ∨ side ≥ NSIDES ∨ sector ≥ NSECTORS ∨ valid_size size = false then
    (disk, [Msg.invalid_params track side sector size])
  else
    match data with
    | none => (disk, [Msg.missing_data])
    | some d =>
      let s := disk track sector
      let s1 : sector_t :=
        if s.size = 0 ∧ s.data = none then ⟨size, some (d.take size)⟩ else s
      let disk1 : Disk :=
        if s.size = 0 ∧ s.data = none then Disk_set disk track sector s1 else disk
      (disk1,
        (if s1.size ≠ size then [Msg.inconsistent_size] else []) ++
        (if (s1.data.getD []).take s1.size ≠ d.take s1.size then [Msg.inconsistent_data]
         else []))

/-! ## Marks -/

/-- Array `FM_indx_mark` (data 0xFC, clock 0xD7). -/
def FM_indx_mark : List Nat := [1,1,1,0,1,1,0,1,1,1,0,0]
/-- Array `FM_addr_mark` (data 0xFE, clock 0xC7). -/
def FM_addr_mark : List Nat := [1,1,1,0,0,0,1,1,1,1,1,0]
/-- Array `FM_data_mark` (data 0xFB, clock 0xC7). -/
def FM_data_mark : List Nat := [1,1,1,0,0,0,1,0,1,1,1,1]
/-- Array `FM_deld_mark` (data 0xF8, clock 0xC7); eleven entries in the source. -/
def FM_deld_mark : List Nat := [1,1,1,0,0,0,1,0,0,0,1]
/-- Array `MFM_indx_mark`. -/
def MFM_indx_mark : List Nat := [0xC2, 0xC2, 0xC2, 0xFC]
/-- Array `MFM_addr_mark`. -/
def MFM_addr_mark : List Nat := [0xA1, 0xA1, 0xA1, 0xFE]
/-- Array `MFM_data_mark`. -/
def MFM_data_mark : List Nat := [0xA1, 0xA1, 0xA1, 0xFB]
/-- Array `MFM_deld_mark`. -/
def MFM_deld_mark : List Nat := [0xA1, 0xA1, 0xA1, 0xF8]

/-- Function `mark_match(s, pat, len)` with `s = &buf[off]`. -/
def mark_match (buf : List Nat) (off : Nat) (pat : List Nat) (len : Nat) : Bool :=
  (List.range len).all (fun i => buf.getD (off + i) 0 == pat.getD i 0)

/-- Function `mark_used(&buf[off], count, tag)`: overwrite `count` entries. -/
def mark_used (buf : List Nat) (off count tag : Nat) : List Nat :=
  (List.range count).foldl (fun b i => b.set (off + i) tag) buf

/-! ## FM decoder -/

/-- One iteration of the loop of `fm_fetch_byte` on the pair `(byte, p)`. -/
def fm_fetch_step (buf : List Nat) (st : Nat × Nat) : Nat × Nat :=
  ((st.1 <<< 1) ||| buf.getD st.2 0,
   if buf.getD st.2 0 = 1 ∧ buf.getD (st.2 + 1) 0 = 1 then st.2 + 2 else st.2 + 1)

/-- Function `fm_fetch_byte`: the fetched byte (a `uint8_t`) and the updated
buffer position. -/
def fm_fetch_byte (buf : List Nat) (p : Nat) : Nat × Nat :=
  let r := (fm_fetch_step buf)^[8] (0, p)
  (r.1 % 256, r.2)

/-- Function `fm_fetch_bytes`: the `count` bytes fetched and the updated
position. -/
def fm_fetch_bytes (buf : List Nat) (p : Nat) : Nat → List Nat × Nat
  | 0 => ([], p)
  | count + 1 =>
    let b := fm_fetch_byte buf p
    let r := fm_fetch_bytes buf b.2 count
    (b.1 :: r.1, r.2)

/-- Function `fm_valid_addr` at `&buf[p]`: the number of entries consumed (0 when
the header is rejected) and the globals, whose `Last_*` fields are the
out-parameters. -/
def fm_valid_addr (buf : List Nat) (p : Nat) (g : Globals) : Nat × Globals :=
  let r := fm_fetch_bytes buf p 6
  let addr := 0xFE :: r.1
  if crc16 addr 7 ≠ 0 then (0, g)
  else if addr.getD 1 0 ≥ NTRACKS then (0, g)
  else if addr.getD 2 0 ≥ NSIDES then (0, g)
  else if addr.getD 3 0 ≥ NSECTORS then (0, g)
  else if addr.getD 4 0 ≥ NSIZES then (0, g)
  else
    (r.2 - p,
     { g with Last_track := addr.getD 1 0, Last_side := addr.getD 2 0,
              Last_sector := addr.getD 3 0, Last_size := 128 <<< addr.getD 4 0 })

/-- Function `fm_valid_data` at `&buf[p]`: entries consumed (0 on rejection) and
the bytes copied to `sector_data`. -/
def fm_valid_data (buf : List Nat) (p sector_size : Nat) : Nat × List Nat :=
  if sector_size > MAX_SSIZE then (0, [])
  else
    let r := fm_fetch_bytes buf p (sector_size + 2)
    let data := 0xFB :: r.1
    if crc16 data (1 + sector_size + 2) ≠ 0 then (0, [])
    else (r.2 - p, (data.drop 1).take sector_size)

/-- Function `fm_valid_deld`: as `fm_valid_data` with mark byte `0xF8`. -/
def fm_valid_deld (buf : List Nat) (p sector_size : Nat) : Nat × List Nat :=
  if sector_size > MAX_SSIZE then (0, [])
  else
    let r := fm_fetch_bytes buf p (sector_size + 2)
    let data := 0xF8 :: r.1
    if crc16 data (1 + sector_size + 2) ≠ 0 then (0, [])
    else (r.2 - p, (data.drop 1).take sector_size)

/-- Function `fm_indx`. -/
def fm_indx (g : Globals) : Nat × Globals := (0, sector_none g)

/-- Function `fm_addr`. -/
def fm_addr (buf : List Nat) (i : Nat) (g : Globals) : Nat × Globals :=
  let r := fm_valid_addr buf i g
  if r.1 ≠ 0 then r else (r.1, sector_none r.2)

/-- Function `fm_data`: entries consumed, new globals, lines printed.  The source
hands `disk_add` the 1024-byte array `sector_data`, of which `fm_valid_data` has
written the first `Last_size` bytes; here `disk_add` is handed those bytes.  What
follows them in the array is read only when the slot holds a sector of a larger
size (`disk_add_tail`). -/
def fm_data (buf : List Nat) (i : Nat) (g : Globals) : Nat × Globals × List Msg :=
  let r := fm_valid_data buf i g.Last_size
  if r.1 ≠ 0 then
    let d := disk_add g.disk g.Last_track g.Last_side g.Last_sector g.Last_size (some r.2)
    (r.1, sector_none { g with disk := d.1 }, d.2)
  else (r.1, g, [])

/-- Function `fm_deld`: entries consumed, new globals, lines printed; `disk_add`
is handed the bytes written to `sector_data`, as in `fm_data`. -/
def fm_deld (buf : List Nat) (i : Nat) (g : Globals) : Nat × Globals × List Msg :=
  let r := fm_valid_deld buf i g.Last_size
  if r.1 ≠ 0 then
    let d := disk_add g.disk g.Last_track g.Last_side g.Last_sector g.Last_size (some r.2)
    (r.1, sector_none { g with disk := d.1 }, d.2)
  else (r.1, g, [])

/-- The decision taken by one iteration of the scan loop of `fm_decode` at
index `i`: the value of `consumed`, the tag handed to `mark_used`, the new
globals and the lines printed. -/
def fm_mark (buf : List Nat) (i : Nat) (g : Globals) : Nat × Nat × Globals × List Msg :=
  if mark_match buf i FM_indx_mark 12 then
    (12, 73, (fm_indx g).2, [])
  else if mark_match buf i FM_addr_mark 12 then
    let r := fm_addr buf (i + 12) g
    (if r.1 ≠ 0 then r.1 + 12 else r.1, 65, r.2, [])
  else if mark_match buf i FM_data_mark 12 then
    let r := fm_data buf (i + 12) g
    (if r.1 ≠ 0 then r.1 + 12 else r.1, 68, r.2.1, r.2.2)
  else if mark_match buf i FM_deld_mark 11 then
    let r := fm_deld buf (i + 11) g
    (if r.1 ≠ 0 then r.1 + 11 else r.1, 100, r.2.1, r.2.2)
  else (0, 0, g, [])

/-- The scan loop of `fm_decode`, `for (i = ...; i < n; i++) { ...; i += consumed; }`.
Every iteration advances `i`, so `n - i` iterations always suffice; the first
argument bounds the number of iterations. -/
def fm_loop : Nat → List Nat → Nat → Nat → Globals → Globals × List Msg
  | 0, _, _, _, g => (g, [])
  | fuel + 1, buf, n, i, g =>
    if i < n then
      let m := fm_mark buf i g
      let r := fm_loop fuel (mark_used buf i m.1 m.2.1) n (i + m.1 + 1) m.2.2.1
      (r.1, m.2.2.2 ++ r.2)
    else (g, [])

/-- Function `fm_decode(samples, n, split)` with `n` the number of samples. -/
def fm_decode (samples : List Nat) (split : Nat) (g : Globals) : Globals × List Msg :=
  let n := samples.length
  let decode := samples.map (fun s => if s < split then 1 else 0) ++ List.replicate DECODE_PAD 0
  fm_loop n decode n 0 g

/-! ## MFM decoder -/

/-- Function `mfm_fetch_bit` at `&buf[p]`: the bit and the line printed for the
invalid pair. -/
def mfm_fetch_bit (buf : List Nat) (p : Nat) : Nat × List Msg :=
  let pair := (buf.getD p 0 <<< 1) + (buf.getD (p + 1) 0 <<< 0)
  if pair = 0 ∨ pair = 2 then (0, [])
  else if pair = 1 then (1, [])
  else (0, [Msg.invalid_mfm_bit])

/-- The loop of `mfm_fetch_byte`: `k` remaining iterations from `(byte, p)`. -/
def mfm_fetch_loop (buf : List Nat) : Nat → Nat → Nat → Nat × Nat × List Msg
  | 0, byte, p => (byte, p, [])
  | k + 1, byte, p =>
    let b := mfm_fetch_bit buf p
    let r := mfm_fetch_loop buf k ((byte <<< 1) ||| b.1) (p + 2)
    (r.1, r.2.1, b.2 ++ r.2.2)

/-- Function `mfm_fetch_byte`: the byte (a `uint8_t`), the updated position and
the lines printed. -/
def mfm_fetch_byte (buf : List Nat) (p : Nat) : Nat × Nat × List Msg :=
  let r := mfm_fetch_loop buf 8 0 p
  (r.1 % 256, r.2.1, r.2.2)

/-- Function `mfm_fetch_bytes`: the bytes, the updated position and the lines
printed. -/
def mfm_fetch_bytes (buf : List Nat) (p : Nat) : Nat → List Nat × Nat × List Msg
  | 0 => ([], p, [])
  | count + 1 =>
    let b := mfm_fetch_byte buf p
    let r := mfm_fetch_bytes buf b.2.1 count
    (b.1 :: r.1, r.2.1, b.2.2 ++ r.2.2)

/-- Function `mfm_valid_addr` at `&buf[p]`: entries consumed (0 on rejection),
the globals with the `Last_*` out-parameters, and the lines printed. -/
def mfm_valid_addr (buf : List Nat) (p : Nat) (g : Globals) : Nat × Globals × List Msg :=
  let r := mfm_fetch_bytes buf p 10
  let addr := r.1
  if crc16 addr 10 ≠ 0 then (0, g, r.2.2)
  else if addr.getD 4 0 ≥ NTRACKS then (0, g, r.2.2)
  else if addr.getD 5 0 ≥ NSIDES then (0, g, r.2.2)
  else if addr.getD 6 0 ≥ NSECTORS then (0, g, r.2.2)
  else if addr.getD 7 0 ≥ NSIZES then (0, g, r.2.2)
  else
    (r.2.1 - p,
     { g with Last_track := addr.getD 4 0, Last_side := addr.getD 5 0,
              Last_sector := addr.getD 6 0, Last_size := 128 <<< addr.getD 7 0 },
     r.2.2)

/-- Function `mfm_valid_data` at `&buf[p]`: entries consumed (0 on rejection), the
bytes copied to `sector_data`, and the lines printed. -/
def mfm_valid_data (buf : List Nat) (p sector_size : Nat) : Nat × List Nat × List Msg :=
  if sector_size > MAX_SSIZE then (0, [], [])
  else
    let r := mfm_fetch_bytes buf p (4 + sector_size + 2)
    if crc16 r.1 (4 + sector_size + 2) ≠ 0 then (0, [], r.2.2)
    else (r.2.1 - p, (r.1.drop 4).take sector_size, r.2.2)

/-- Function `mfm_valid_deld`, textually the same as `mfm_valid_data`. -/
def mfm_valid_deld (buf : List Nat) (p sector_size : Nat) : Nat × List Nat × List Msg :=
  if sector_size > MAX_SSIZE then (0, [], [])
  else
    let r := mfm_fetch_bytes buf p (4 + sector_size + 2)
    if crc16 r.1 (4 + sector_size + 2) ≠ 0 then (0, [], r.2.2)
    else (r.2.1 - p, (r.1.drop 4).take sector_size, r.2.2)

/-- Function `mfm_indx`. -/
def mfm_indx (g : Globals) : Nat × Globals := (0, sector_none g)

/-- Function `mfm_addr`. -/
def mfm_addr (buf : List Nat) (i : Nat) (g : Globals) : Nat × Globals × List Msg :=
  let r := mfm_valid_addr buf i g
  if r.1 ≠ 0 then r else (r.1, sector_none r.2.1, r.2.2)

/-- Function `mfm_data`; `disk_add` is handed the bytes written to `sector_data`,
as in `fm_data`. -/
def mfm_data (buf : List Nat) (i : Nat) (g : Globals) : Nat × Globals × List Msg :=
  let r := mfm_valid_data buf i g.Last_size
  if r.1 ≠ 0 then
    let d := disk_add g.disk g.Last_track g.Last_side g.Last_sector g.Last_size (some r.2.1)
    (r.1, sector_none { g with disk := d.1 }, r.2.2 ++ d.2)
  else (r.1, g, r.2.2)

/-- Function `mfm_deld`; the source calls `mfm_valid_data` here.  `disk_add` is
handed the bytes written to `sector_data`, as in `fm_data`. -/
def mfm_deld (buf : List Nat) (i : Nat) (g : Globals) : Nat × Globals × List Msg :=
  let r := mfm_valid_data buf i g.Last_size
  if r.1 ≠ 0 then
    let d := disk_add g.disk g.Last_track g.Last_side g.Last_sector g.Last_size (some r.2.1)
    (r.1, sector_none { g with disk := d.1 }, r.2.2 ++ d.2)
  else (r.1, g, r.2.2)

/-- The decision taken by one iteration of the scan loop of `mfm_decode` at
index `i`: the value of `consumed`, the number of entries handed to `mark_used`
with its tag, the new globals and the lines printed. -/
def mfm_mark (buf : List Nat) (i : Nat) (g : Globals) :
    Nat × (Nat × Nat) × Globals × List Msg :=
  let mk := mfm_fetch_bytes buf i 4
  if mark_match mk.1 0 MFM_indx_mark 4 then
    (64, (64, 73), (mfm_indx g).2, mk.2.2)
  else if mark_match mk.1 0 MFM_addr_mark 4 then
    let r := mfm_addr buf i g
    if r.1 ≠ 0 then (r.1, (r.1, 65), r.2.1, mk.2.2 ++ r.2.2)
    else (1, (0, 65), r.2.1, mk.2.2 ++ r.2.2)
  else if mark_match mk.1 0 MFM_data_mark 4 then
    let r := mfm_data buf i g
    if r.1 ≠ 0 then (r.1, (r.1, 68), r.2.1, mk.2.2 ++ r.2.2)
    else (1, (0, 68), r.2.1, mk.2.2 ++ r.2.2)
  else if mark_match mk.1 0 MFM_deld_mark 4 then
    let r := mfm_deld buf i g
    if r.1 ≠ 0 then (r.1, (r.1, 100), r.2.1, mk.2.2 ++ r.2.2)
    else (1, (0, 100), r.2.1, mk.2.2 ++ r.2.2)
  else (1, (0, 0), g, mk.2.2)

/-- The scan loop of `mfm_decode`, `for (i = ...; i < nact; i += consumed)`.
Every iteration advances `i` by at least one, so `nact - i` iterations always
suffice; the first argument bounds the number of iterations. -/
def mfm_loop : Nat → List Nat → Nat → Nat → Globals → Globals × List Msg
  | 0, _, _, _, g => (g, [])
  | fuel + 1, buf, nact, i, g =>
    if i < nact then
      let m := mfm_mark buf i g
      let r := mfm_loop fuel (mark_used buf i m.2.1.1 m.2.1.2) nact (i + m.1) m.2.2.1
      (r.1, m.2.2.2 ++ r.2)
    else (g, [])

/-- The expansion of one sample to RLL form in `mfm_decode`. -/
def mfm_expand (split_lo split_hi s : Nat) : List Nat :=
  if s ≥ split_hi then [1, 0, 0, 0]
  else if s ≥ split_lo then [1, 0, 0]
  else [1, 0]

/-- Function `mfm_decode(samples, n, split_lo, split_hi)` with `n` the number of
samples, in the case that every read behind the `DECODE_PAD` zeros returns 0.
The source reads there what the allocated block happens to hold, which is what
`mfm_decode_mem` takes as an argument: a data or deleted-data mark met with a
header context of 1024 bytes fewer than 96 entries before the end of the RLL
stream makes `mfm_valid_data` fetch behind the pad. -/
def mfm_decode (samples : List Nat) (split_lo split_hi : Nat) (g : Globals) :
    Globals × List Msg :=
  let rll := samples.flatMap (mfm_expand split_lo split_hi)
  let nact := rll.length
  let decode := rll ++ List.replicate DECODE_PAD 0
  mfm_loop nact decode nact 0 g

/-- Function `mfm_decode` with the memory behind the zero pad made explicit.  The
source allocates `n * 4 + DECODE_PAD` bytes and writes the RLL stream and
`DECODE_PAD` zeros; `junk` lists the bytes that follow the pad in memory (the
rest of the block, which is never initialised, and what lies beyond it).
`mfm_decode` is the case in which every read behind the pad returns 0. -/
def mfm_decode_mem (samples : List Nat) (split_lo split_hi : Nat) (junk : List Nat)
    (g : Globals) : Globals × List Msg :=
  let rll := samples.flatMap (mfm_expand split_lo split_hi)
  let nact := rll.length
  let decode := rll ++ (List.replicate DECODE_PAD 0 ++ junk)
  mfm_loop nact decode nact 0 g

/-! ## Processing one capture -/

/-- Function `process`, given the numbers `track_load` finds in the file (the
empty list when the file cannot be opened): at most `MAX_SAMPLES` of them are
loaded; an empty load returns at once; otherwise the header context is reset
and the track is decoded in the detected format.  The argument `junk` lists the
bytes that this call finds behind the zero pad of the block `mfm_decode`
allocates (see `mfm_decode_mem`); `fm_decode` never reads behind its pad. -/
def process (samples : List Nat) (junk : List Nat) (g : Globals) : Globals × List Msg :=
  let loaded := samples.take MAX_SAMPLES
  let n := loaded.length
  if n = 0 then (g, [])
  else
    let g1 := sector_none g
    let fmt := determine_format loaded n
    if fmt = TT_FM then fm_decode loaded FM_SPLIT g1
    else if fmt = TT_MFM then mfm_decode_mem loaded MFM_SPLIT_LO MFM_SPLIT_HI junk g1
    else (g1, [Msg.cannot_determine_format])

/-! ## Display -/

/-- Function `sector_filled(buf, count)`: do the entries `1 .. count - 1` all
equal `buf[0]`. -/
def sector_filled (buf : List Nat) (count : Nat) : Bool :=
  (List.range' 1 (count - 1)).all (fun i => buf.getD 0 0 == buf.getD i 0)

/-- Constant `DSTEP`, defined as `32`. -/
def DSTEP : Nat := 32

/-- Function `sector_dump(buf, count)`: one row of `DSTEP` bytes for every
`i = 0, DSTEP, ..` below `count`; a row is given by the byte values it prints
(as hex and as characters). -/
def sector_dump (buf : List Nat) (count : Nat) : List (List Nat) :=
  (List.range ((count + DSTEP - 1) / DSTEP)).map
    (fun r => (List.range DSTEP).map (fun j => buf.getD (r * DSTEP + j) 0))

/-- The text `human_show` prints after `Status:`. -/
inductive Status where
  | MISSING
  | ZERO
  | FILL (v : Nat)
  | DATA
  deriving DecidableEq, Repr

/-- What `human_show` prints: the header fields, the status and the rows of the
dump. -/
structure ShowLine where
  track : Nat
  sector : Nat
  size : Nat
  status : Status
  dump : List (List Nat)

/-- Function `human_show(s, track, sector)`. -/
def human_show (s : sector_t) (track sector : Nat) : ShowLine :=
  if s.size = 0 ∨ s.data = none then ⟨track, sector, s.size, Status.MISSING, []⟩
  else if sector_filled (s.data.getD []) s.size then
    if (s.data.getD []).getD 0 0 = 0 then ⟨track, sector, s.size, Status.ZERO, []⟩
    else ⟨track, sector, s.size, Status.FILL ((s.data.getD []).getD 0 0), []⟩
  else ⟨track, sector, s.size, Status.DATA, sector_dump (s.data.getD []) s.size⟩

/-! ## Buffer indices read by the FM decoder

The functions below follow the FM decoder and list, in order, the indices of the
decode buffer it reads; writes (`mark_used`) are not listed. -/

/-- The indices `mark_match(&buf[off], pat, len)` reads from `buf`, with `k`
iterations left at pattern index `i`: the loop stops at the first mismatch. -/
def mark_match_reads_from (buf : List Nat) (off : Nat) (pat : List Nat) : Nat → Nat → List Nat
  | 0, _ => []
  | k + 1, i =>
    (off + i) ::
      (if buf.getD (off + i) 0 ≠ pat.getD i 0 then []
       else mark_match_reads_from buf off pat k (i + 1))

/-- The indices `mark_match(&buf[off], pat, len)` reads from `buf`. -/
def mark_match_reads (buf : List Nat) (off : Nat) (pat : List Nat) (len : Nat) : List Nat :=
  mark_match_reads_from buf off pat len 0

/-- The indices one iteration of the loop of `fm_fetch_byte` reads at position
`p`: `*p` (in `byte |= *p` and in `p[0]==1`), and `p[1]` when `p[0]` is 1. -/
def fm_fetch_step_reads (buf : List Nat) (p : Nat) : List Nat :=
  if buf.getD p 0 = 1 then [p, p + 1] else [p]

/-- The indices `k` iterations of the loop of `fm_fetch_byte` read from the
state `(byte, p)`. -/
def fm_fetch_reads (buf : List Nat) : Nat → Nat × Nat → List Nat
  | 0, _ => []
  | k + 1, st => fm_fetch_step_reads buf st.2 ++ fm_fetch_reads buf k (fm_fetch_step buf st)

/-- The indices `fm_fetch_bytes` reads for `count` bytes from position `p`. -/
def fm_fetch_bytes_reads (buf : List Nat) (p : Nat) : Nat → List Nat
  | 0 => []
  | count + 1 =>
    fm_fetch_reads buf 8 (0, p) ++ fm_fetch_bytes_reads buf (fm_fetch_byte buf p).2 count

/-- The indices `fm_valid_addr` reads at `&buf[p]`. -/
def fm_valid_addr_reads (buf : List Nat) (p : Nat) : List Nat :=
  fm_fetch_bytes_reads buf p 6

/-- The indices `fm_valid_data` (and `fm_valid_deld`) reads at `&buf[p]`. -/
def fm_valid_data_reads (buf : List Nat) (p sector_size : Nat) : List Nat :=
  if sector_size > MAX_SSIZE then [] else fm_fetch_bytes_reads buf p (sector_size + 2)

/-- The indices one iteration of the scan loop of `fm_decode` reads at index
`i`: the mark tests in order up to the first that matches, then the handler of
that mark. -/
def fm_mark_reads (buf : List Nat) (i : Nat) (g : Globals) : List Nat :=
  mark_match_reads buf i FM_indx_mark 12 ++
  (if mark_match buf i FM_indx_mark 12 then []
   else mark_match_reads buf i FM_addr_mark 12 ++
    (if mark_match buf i FM_addr_mark 12 then fm_valid_addr_reads buf (i + 12)
     else mark_match_reads buf i FM_data_mark 12 ++
      (if mark_match buf i FM_data_mark 12 then fm_valid_data_reads buf (i + 12) g.Last_size
       else mark_match_reads buf i FM_deld_mark 11 ++
        (if mark_match buf i FM_deld_mark 11 then
           fm_valid_data_reads buf (i + 11) g.Last_size
         else []))))

/-- The indices the scan loop of `fm_decode` reads, following `fm_loop`. -/
def fm_loop_reads : Nat → List Nat → Nat → Nat → Globals → List Nat
  | 0, _, _, _, _ => []
  | fuel + 1, buf, n, i, g =>
    if i < n then
      let m := fm_mark buf i g
      fm_mark_reads buf i g ++
        fm_loop_reads fuel (mark_used buf i m.1 m.2.1) n (i + m.1 + 1) m.2.2.1
    else []

/-- The indices of the decode buffer that `fm_decode(samples, n, split)` reads. -/
def fm_decode_reads (samples : List Nat) (split : Nat) (g : Globals) : List Nat :=
  let n := samples.length
  let decode := samples.map (fun s => if s < split then 1 else 0) ++ List.replicate DECODE_PAD 0
  fm_loop_reads n decode n 0 g

/-! ## Call sequences, track images and proof devices -/

/-- One call of `disk_add`, with its five arguments. -/
structure AddCall where
  track : Nat
  side : Nat
  sector : Nat
  size : Nat
  data : Option (List Nat)

/-- The disk image after a sequence of `disk_add` calls. -/
def disk_add_all (disk : Disk) (calls : List AddCall) : Disk :=
  calls.foldl (fun d c => (disk_add d c.track c.side c.sector c.size c.data).1) disk

/-- The shape every slot of a reachable image has: empty, or a valid size with
exactly that many bytes. -/
def slot_ok (s : sector_t) : Prop :=
  s = ⟨0, none⟩ ∨
    ∃ D, s = ⟨D.length, some D⟩ ∧
      (D.length = 128 ∨ D.length = 256 ∨ D.length = 512 ∨ D.length = 1024)

/-! ### Bytes, bits and CRC bytes -/

/-- The eight bits of a byte, most significant first. -/
def byte_bits (B : Nat) : List Bool :=
  [B.testBit 7, B.testBit 6, B.testBit 5, B.testBit 4,
   B.testBit 3, B.testBit 2, B.testBit 1, B.testBit 0]

/-- The number spelled by `bits`, most significant first, after `acc`. -/
def bits_val (acc : Nat) (bits : List Bool) : Nat :=
  bits.foldl (fun a b => 2 * a + b.toNat) acc

/-- The two CRC bytes appended to a frame `F`: `crc16 F`, high byte first. -/
def crc_bytes (F : List Nat) : List Nat :=
  [crc16 F F.length >>> 8, crc16 F F.length &&& 0xFF]

/-- Half-cells as buffer entries: 1 for a flux transition, 0 for none. -/
def cell_vals (cells : List Bool) : List Nat := cells.map Bool.toNat

/-! ### Flux rendering of a track image -/

/-- The intervals between successive flux transitions of a half-cell sequence,
in half-cells; `d` is the distance back to the previous transition. -/
def flux_from : Nat → List Bool → List Nat
  | _, [] => []
  | d, true :: r => d :: flux_from 1 r
  | d, false :: r => flux_from (d + 1) r

/-- The flux intervals of a half-cell sequence: one entry for every pair of
successive transitions (the lead-in before the first transition is dropped). -/
def flux (cells : List Bool) : List Nat := (flux_from 0 cells).tail

/-! ### FM track images -/

/-- The sixteen half-cells `c7 d7 c6 d6 ... c0 d0` of an FM byte with the given
clock and data bytes. -/
def fm_cells_byte (clock data : Nat) : List Bool :=
  [clock.testBit 7, data.testBit 7, clock.testBit 6, data.testBit 6,
   clock.testBit 5, data.testBit 5, clock.testBit 4, data.testBit 4,
   clock.testBit 3, data.testBit 3, clock.testBit 2, data.testBit 2,
   clock.testBit 1, data.testBit 1, clock.testBit 0, data.testBit 0]

/-- The half-cells of a sequence of FM bytes, each given as (clock, data). -/
def fm_cells (items : List (Nat × Nat)) : List Bool :=
  items.flatMap (fun cd => fm_cells_byte cd.1 cd.2)

/-- FM samples of a half-cell sequence: an FM half-cell lasts 2 us, so an
interval of `d` half-cells is `d * TWO_US` ticks. -/
def fm_samples (cells : List Bool) : List Nat := (flux cells).map (fun d => d * TWO_US)

/-- Ordinary FM bytes: data bytes with the all-ones clock. -/
def fm_plain (bs : List Nat) : List (Nat × Nat) := bs.map (fun b => (0xFF, b))

/-- The FM track layout of the comment at the head of `extract.c`, with one
sector: gap of `g1` bytes 0xFF, 6 bytes 0x00, index mark, gap of `g2` bytes
0xFF, 6 bytes 0x00, address mark, `t 0 s c`, CRC, 11 bytes 0xFF, 6 bytes 0x00,
data mark, the data `D`, CRC, gap of `g3` bytes 0xFF. -/
def fm_track (g1 g2 g3 t s c : Nat) (D : List Nat) : List (Nat × Nat) :=
  fm_plain (List.replicate g1 0xFF ++ List.replicate 6 0x00) ++ [(0xD7, 0xFC)] ++
  fm_plain (List.replicate g2 0xFF ++ List.replicate 6 0x00) ++ [(0xC7, 0xFE)] ++
  fm_plain ([t, 0, s, c] ++ crc_bytes [0xFE, t, 0, s, c] ++
    List.replicate 11 0xFF ++ List.replicate 6 0x00) ++ [(0xC7, 0xFB)] ++
  fm_plain (D ++ crc_bytes (0xFB :: D) ++ List.replicate g3 0xFF)

/-- The stream `fm_decode` builds from the samples of a track image. -/
def fm_stream (items : List (Nat × Nat)) : List Nat :=
  (fm_samples (fm_cells items)).map (fun s => if s < FM_SPLIT then 1 else 0)

/-- The decoder's stream for data bits under the all-ones clock: a 1 bit is two
short intervals, a 0 bit one long interval. -/
def fm_enc_bits (bits : List Bool) : List Nat :=
  bits.flatMap (fun b => if b then [1, 1] else [0])

/-- The decoder's stream for a sequence of ordinary FM bytes. -/
def fm_enc (bs : List Nat) : List Nat :=
  bs.flatMap (fun B => fm_enc_bits (byte_bits B))

/-- The interval lengths, in half-cells, of data bits under the all-ones clock. -/
def fm_iv_bits (bits : List Bool) : List Nat :=
  bits.flatMap (fun b => if b then [1, 1] else [2])

/-- The interval lengths of one FM byte, from its first clock transition to the
first clock transition of the next byte. -/
def fm_item_iv (cd : Nat × Nat) : List Nat :=
  if cd.1 = 0xFF then fm_iv_bits (byte_bits cd.2)
  else if cd = (0xD7, 0xFC) then [1,1,1,2,1,1,2,1,1,1,2,2]
  else if cd = (0xC7, 0xFE) then [1,1,1,2,2,2,1,1,1,1,1,2]
  else if cd = (0xC7, 0xFB) then [1,1,1,2,2,2,1,2,1,1,1,1]
  else []

/-- The FM bytes of a track image: ordinary bytes and the three marks. -/
def fm_item_ok (cd : Nat × Nat) : Prop :=
  cd.1 = 0xFF ∨ cd = (0xD7, 0xFC) ∨ cd = (0xC7, 0xFE) ∨ cd = (0xC7, 0xFB)

/-- The decoder's stream for one FM byte. -/
def fm_item_stream (cd : Nat × Nat) : List Nat :=
  (fm_item_iv cd).map (fun d => if d * TWO_US < FM_SPLIT then 1 else 0)

/-- The list `k :: l` without its last entry. -/
def lag (k : Nat) : List Nat → List Nat
  | [] => []
  | x :: xs => k :: lag x xs

/-- The last entry of `k :: l`. -/
def carry (k : Nat) : List Nat → Nat
  | [] => k
  | x :: xs => carry x xs

/-! ### The scan loops on the unread part of the buffer -/

/-- The scan loop of `fm_decode` seen from the current index: `s` is the buffer
from index `i` on and `rem` is `n - i`. -/
def fm_scan : Nat → List Nat → Nat → Globals → Globals × List Msg
  | 0, _, _, g => (g, [])
  | fuel + 1, s, rem, g =>
    if 0 < rem then
      let m := fm_mark s 0 g
      let r := fm_scan fuel (s.drop (m.1 + 1)) (rem - (m.1 + 1)) m.2.2.1
      (r.1, m.2.2.2 ++ r.2)
    else (g, [])

/-- The scan loop of `fm_decode` with as many iterations as entries remain. -/
def fm_run (s : List Nat) (rem : Nat) (g : Globals) : Globals × List Msg :=
  fm_scan rem s rem g

/-- The scan loop of `mfm_decode` seen from the current index: `s` is the buffer
from index `i` on and `rem` is `nact - i`. -/
def mfm_scan : Nat → List Nat → Nat → Globals → Globals × List Msg
  | 0, _, _, g => (g, [])
  | fuel + 1, s, rem, g =>
    if 0 < rem then
      let m := mfm_mark s 0 g
      let r := mfm_scan fuel (s.drop m.1) (rem - m.1) m.2.2.1
      (r.1, m.2.2.2 ++ r.2)
    else (g, [])

/-- The scan loop of `mfm_decode` with as many iterations as entries remain. -/
def mfm_run (s : List Nat) (rem : Nat) (g : Globals) : Globals × List Msg :=
  mfm_scan rem s rem g

/-! ### MFM track images -/

/-- MFM encoding of data bits after the data bit `prev`: each data bit is
preceded by a clock bit, which is 1 only between two 0 data bits. -/
def mfm_encode_bits (prev : Bool) : List Bool → List Bool
  | [] => []
  | d :: ds => (!prev && !d) :: d :: mfm_encode_bits d ds

/-- The sixteen half-cells `c7 d7 ... c0 d0` of a byte under MFM. -/
def mfm_encode_byte (prev : Bool) (B : Nat) : List Bool :=
  mfm_encode_bits prev (byte_bits B)

/-- The bytes of an MFM track image: an ordinary byte, or the sync byte 0xA1
written with a missing clock. -/
inductive MfmItem where
  | plain (b : Nat)
  | sync
  deriving DecidableEq, Repr

/-- The data byte of an item. -/
def MfmItem.byte : MfmItem → Nat
  | .plain b => b
  | .sync => 0xA1

/-- The half-cells of an item after the data bit `prev`; the sync byte is 0xA1
with the clock bit between data bits 3 and 2 removed (the pattern 0x4489). -/
def mfm_item_cells (prev : Bool) : MfmItem → List Bool
  | .plain b => mfm_encode_byte prev b
  | .sync => (mfm_encode_byte prev 0xA1).set 10 false

/-- The half-cells of a sequence of items after the data bit `prev`. -/
def mfm_cells : Bool → List MfmItem → List Bool
  | _, [] => []
  | prev, it :: r => mfm_item_cells prev it ++ mfm_cells (it.byte.testBit 0) r

/-- Ordinary MFM bytes. -/
def mfm_plain (bs : List Nat) : List MfmItem := bs.map MfmItem.plain

/-- MFM samples of a half-cell sequence: an MFM half-cell lasts 1 us, so an
interval of `d` half-cells is `d * TWO_US / 2` ticks (75, 112, 150 for 2, 3, 4). -/
def mfm_samples (cells : List Bool) : List Nat := (flux cells).map (fun d => d * TWO_US / 2)

/-- The MFM track layout of the comment at the head of `extract.c`, with one
sector and no index mark: gap of `g1` bytes 0x4E, 12 bytes 0x00, 3 sync bytes,
0xFE, `t 0 s c`, CRC, 22 bytes 0x4E, 12 bytes 0x00, 3 sync bytes, 0xFB, the
data `D`, CRC, gap of `g3` bytes 0x4E. -/
def mfm_track (g1 g3 t s c : Nat) (D : List Nat) : List MfmItem :=
  mfm_plain (List.replicate g1 0x4E ++ List.replicate 12 0x00) ++
  [MfmItem.sync, MfmItem.sync, MfmItem.sync] ++
  mfm_plain ([0xFE, t, 0, s, c] ++ crc_bytes [0xA1, 0xA1, 0xA1, 0xFE, t, 0, s, c] ++
    List.replicate 22 0x4E ++ List.replicate 12 0x00) ++
  [MfmItem.sync, MfmItem.sync, MfmItem.sync] ++
  mfm_plain (0xFB :: D ++ crc_bytes ([0xA1, 0xA1, 0xA1, 0xFB] ++ D) ++ List.replicate g3 0x4E)

/-- The address field of `mfm_track`, from the first sync byte to the CRC. -/
def mfm_addr_items (t s c : Nat) : List MfmItem :=
  [MfmItem.sync, MfmItem.sync, MfmItem.sync] ++
    mfm_plain ([0xFE, t, 0, s, c] ++ crc_bytes [0xA1, 0xA1, 0xA1, 0xFE, t, 0, s, c])

/-- The data field of `mfm_track`, from the first sync byte to the CRC. -/
def mfm_data_items (D : List Nat) : List MfmItem :=
  [MfmItem.sync, MfmItem.sync, MfmItem.sync] ++
    mfm_plain (0xFB :: D ++ crc_bytes ([0xA1, 0xA1, 0xA1, 0xFB] ++ D))

/-- The items whose bytes fit in eight bits. -/
def mfm_item_ok : MfmItem → Prop
  | .plain b => b < 256
  | .sync => True

/-- The last data bit of a sequence of items that follows the data bit `p`. -/
def mfm_last (p : Bool) : List MfmItem → Bool
  | [] => p
  | it :: r => mfm_last (it.byte.testBit 0) r

/-- The last bit of a sequence of bits that follows the bit `p`. -/
def last_bit (p : Bool) : List Bool → Bool
  | [] => p
  | b :: r => last_bit b r

/-- Every interval of the half-cell sequence is 2, 3 or 4 half-cells long, when
the sequence starts `k` half-cells after a transition. -/
def rll_ok : Nat → List Bool → Bool
  | _, [] => true
  | k, true :: r => decide (2 ≤ k ∧ k ≤ 4) && rll_ok 1 r
  | k, false :: r => rll_ok (k + 1) r

/-- The distance from the last transition to the end of the half-cell sequence. -/
def cell_carry : Nat → List Bool → Nat
  | k, [] => k
  | _, true :: r => cell_carry 1 r
  | k, false :: r => cell_carry (k + 1) r

/-- A transition followed by `k - 1` empty half-cells. -/
def rll_lead (k : Nat) : List Nat := 1 :: List.replicate (k - 1) 0

/-- The RLL expansion `mfm_decode` builds from the intervals of a half-cell
sequence that starts `k` half-cells after a transition. -/
def mfm_rll (cells : List Bool) (k : Nat) : List Nat :=
  ((flux_from k cells).map (fun d => d * TWO_US / 2)).flatMap
    (mfm_expand MFM_SPLIT_LO MFM_SPLIT_HI)

/-- The states of the MFM encoder between two bytes: the last data bit and the
distance back to the last transition. -/
def st_ok (p : Bool) (k : Nat) : Prop :=
  (p = true ∧ k = 1) ∨ (p = false ∧ (k = 2 ∨ k = 3))

/-- The first two bytes fetched at the head of `w` start none of the MFM marks. -/
def mfm_quiet (w : List Nat) : Bool :=
  (mfm_fetch_bytes w 0 2).1 != [0xA1, 0xA1] && (mfm_fetch_bytes w 0 2).1 != [0xC2, 0xC2]

/-- No mark starts at any of the first `n` positions of `w`. -/
def mfm_quiet_all (n : Nat) (w : List Nat) : Bool :=
  (List.range n).all (fun j => mfm_quiet (w.drop j))

/-- Half-cells of the gap byte 0x4E after a 0 data bit. -/
def c4E : List Nat := [1,0,0,1,0,0,1,0,0,1,0,1,0,1,0,0]
/-- Half-cells of the byte 0x00 after a 0 data bit. -/
def c00 : List Nat := [1,0,1,0,1,0,1,0,1,0,1,0,1,0,1,0]
/-- Half-cells of the sync byte. -/
def cSync : List Nat := [0,1,0,0,0,1,0,0,1,0,0,0,1,0,0,1]
/-- Half-cells of 0x4E after its first clock bit. -/
def t4E : List Nat := [0,0,1,0,0,1,0,0,1,0,1,0,1,0,0]
/-- Half-cells of 0x4E before its last transition. -/
def e4E : List Nat := [1,0,0,1,0,0,1,0,0,1,0,1,0]
/-- Half-cells of 0x4E between its first clock bit and its last transition. -/
def u4E : List Nat := [0,0,1,0,0,1,0,0,1,0,1,0]

/-- The lines printed by a sequence of `disk_add` calls. -/
def disk_add_logs (disk : Disk) : List AddCall → List Msg
  | [] => []
  | c :: cs =>
    (disk_add disk c.track c.side c.sector c.size c.data).2 ++
      disk_add_logs (disk_add disk c.track c.side c.sector c.size c.data).1 cs

/-- The two inconsistency lines of `disk_add`. -/
def is_inconsistency : Msg → Bool
  | Msg.inconsistent_size => true
  | Msg.inconsistent_data => true
  | _ => false

/-- The inconsistency lines of a log, in order. -/
def inconsistencies (log : List Msg) : List Msg := log.filter is_inconsistency

/-- Image `e` keeps every occupied slot of image `d`. -/
def disk_ext (d e : Disk) : Prop :=
  ∀ t s, ¬ ((d t s).size = 0 ∧ (d t s).data = none) → e t s = d t s

/-- Two byte sequences of the same length that differ in exactly one byte. -/
def one_byte_differs (F G : List Nat) : Prop :=
  ∃ A b c C, F = A ++ b :: C ∧ G = A ++ c :: C ∧ b ≠ c

/-- The nearest integer to `s / ONE_US`, computed without wrap-around. -/
def round_us (s : Nat) : Nat := (2 * s + ONE_US) / (2 * ONE_US)

/-- The number of 1 bits of a byte. -/
def popcount (B : Nat) : Nat := (byte_bits B).count true

/-- The RLL stream as the text describes it, for the thresholds `lo` and `hi`:
per sample a 1 followed by one, two or three 0s. -/
def rll_spec (lo hi : Nat) (samples : List Nat) : List Nat :=
  samples.flatMap (fun s => 1 :: List.replicate (if s < lo then 1 else if s < hi then 2 else 3) 0)

/-- Every entry of the stream is 0, or is 1 and is followed by 0. -/
def rll_valid (l : List Nat) : Prop :=
  ∀ q, l.getD q 0 = 0 ∨ (l.getD q 0 = 1 ∧ l.getD (q + 1) 0 = 0)

/-- The flux intervals of the deleted-data mark, data 0xF8 with clock 0xC7, in
half-cells. -/
def fm_deld_iv : List Nat := [1,1,1,2,2,2,1,2,2,2]

/-- The decoder's stream for the deleted-data mark: short intervals are 1, long
intervals 0. -/
def FM_deld_stream : List Nat := [1,1,1,0,0,0,1,0,0,0]

/-- The interval lengths of one FM byte, the deleted-data mark included. -/
def fm_item_iv_deld (cd : Nat × Nat) : List Nat :=
  if cd = (0xC7, 0xF8) then fm_deld_iv else fm_item_iv cd

/-- The FM track layout of `fm_track` with a deleted-data mark (data 0xF8, clock
0xC7) in place of the data mark. -/
def fm_track_deld (g1 g2 g3 t s c : Nat) (D : List Nat) : List (Nat × Nat) :=
  fm_plain (List.replicate g1 0xFF ++ List.replicate 6 0x00) ++ [(0xD7, 0xFC)] ++
  fm_plain (List.replicate g2 0xFF ++ List.replicate 6 0x00) ++ [(0xC7, 0xFE)] ++
  fm_plain ([t, 0, s, c] ++ crc_bytes [0xFE, t, 0, s, c] ++
    List.replicate 11 0xFF ++ List.replicate 6 0x00) ++ [(0xC7, 0xF8)] ++
  fm_plain (D ++ crc_bytes (0xF8 :: D) ++ List.replicate g3 0xFF)

/-- An MFM capture that ends shortly after a data mark: one byte 0x00, the
address field of track 5, sector 3 with size code 3 (1024 bytes), directly
followed by the three sync bytes and 0xFB of a data mark and one byte 0x4E. -/
def mfm_short_track : List MfmItem :=
  [MfmItem.plain 0x00] ++ (mfm_addr_items 5 3 3 ++
    ([MfmItem.sync, MfmItem.sync, MfmItem.sync, MfmItem.plain 0xFB] ++ [MfmItem.plain 0x4E]))

/-- The first 94 samples of the capture of `mfm_short_track`: the capture ends
with the interval that follows the last transition of the data mark, so its RLL
stream ends three entries behind the mark.  The address field before the mark
announces 1024 bytes. -/
def mfm_cut_capture : List Nat := (mfm_samples (mfm_cells false mfm_short_track)).take 94

/-- Bytes that can lie behind the zero pad of `mfm_decode`: fetched as MFM pairs
after the last three zeros of the pad they spell 0x27 0x22, the CRC-16 of
`A1 A1 A1 FB` followed by 1024 bytes 0x00. -/
def mfm_cut_junk : List Nat :=
  [0, 0,1, 0,0, 0,0, 0,1, 0,1, 0,1, 0,0, 0,0, 0,1, 0,0, 0,0, 0,0, 0,1]

/-- An FM track on which the data field of a sector fails its CRC and the
address field of the next sector is lost: as `fm_track` for track 5, sector 3
with 128 data bytes 0x00, but with the two CRC bytes 00 00; then a gap of 27
bytes 0xFF, 6 bytes 0x00 and the data field of the following sector (data mark,
`D`, CRC-16 of `0xFB :: D`) with no address field before it, and a gap of 27
bytes 0xFF. -/
def fm_track_stale (D : List Nat) : List (Nat × Nat) :=
  fm_plain (List.replicate 40 0xFF ++ List.replicate 6 0x00) ++ [(0xD7, 0xFC)] ++
  fm_plain (List.replicate 26 0xFF ++ List.replicate 6 0x00) ++ [(0xC7, 0xFE)] ++
  fm_plain ([5, 0, 3, 0] ++ crc_bytes [0xFE, 5, 0, 3, 0] ++
    List.replicate 11 0xFF ++ List.replicate 6 0x00) ++ [(0xC7, 0xFB)] ++
  fm_plain (List.replicate 128 0x00 ++ List.replicate 2 0x00 ++
    List.replicate 27 0xFF ++ List.replicate 6 0x00) ++ [(0xC7, 0xFB)] ++
  fm_plain (D ++ crc_bytes (0xFB :: D) ++ List.replicate 27 0xFF)

/-- No FM mark pattern matches at the start of the window `w`. -/
def fm_quiet (w : List Nat) : Bool :=
  !(mark_match w 0 FM_indx_mark 12) && !(mark_match w 0 FM_addr_mark 12) &&
  !(mark_match w 0 FM_data_mark 12) && !(mark_match w 0 FM_deld_mark 11)

/-- No FM mark pattern matches at any of the first `k` offsets of `w`. -/
def fm_quiet_all (k : Nat) (w : List Nat) : Bool :=
  (List.range k).all (fun j => fm_quiet (w.drop j))

/-! # Theorems -/

/-! ## CRC-16 -/

theorem xor_mod_two_pow (a b n : Nat) :
    (a ^^^ b) % 2 ^ n = (a % 2 ^ n) ^^^ (b % 2 ^ n) := by
  apply Nat.eq_of_testBit_eq
  intro i
  simp only [Nat.testBit_mod_two_pow, Nat.testBit_xor]
  cases decide (i < n) <;> simp

theorem shiftLeft_xor (a b n : Nat) : (a ^^^ b) <<< n = (a <<< n) ^^^ (b <<< n) := by
  apply Nat.eq_of_testBit_eq
  intro i
  simp only [Nat.testBit_shiftLeft, Nat.testBit_xor]
  cases decide (i ≥ n) <;> simp

theorem xor_cancel_right (a b p : Nat) : (a ^^^ p) ^^^ (b ^^^ p) = a ^^^ b := by
  rw [Nat.xor_assoc, Nat.xor_comm b p, ← Nat.xor_assoc p, Nat.xor_self, Nat.zero_xor]

/-- The reference register shift is linear over XOR. -/
theorem crc_ref_shift_xor (a b : Nat) :
    crc_ref_shift (a ^^^ b) = crc_ref_shift a ^^^ crc_ref_shift b := by
  unfold crc_ref_shift
  have h := xor_mod_two_pow (a <<< 1) (b <<< 1) 16
  simp only [Nat.reducePow] at h
  rw [Nat.testBit_xor, shiftLeft_xor, h]
  generalize a <<< 1 % 65536 = u
  generalize b <<< 1 % 65536 = v
  cases Nat.testBit a 15 <;> cases Nat.testBit b 15
  · simp
  · simp [Nat.xor_assoc]
  · simp only [Bool.true_bne, Bool.not_false, if_true, Bool.false_eq_true, if_false]
    rw [Nat.xor_assoc, Nat.xor_assoc, Nat.xor_comm v]
  · simp only [Bool.true_bne, Bool.not_true, Bool.false_eq_true, if_false, if_true]
    exact (xor_cancel_right u v 4129).symm

theorem crc_ref_iterate_xor (k a b : Nat) :
    crc_ref_shift^[k] (a ^^^ b) = crc_ref_shift^[k] a ^^^ crc_ref_shift^[k] b := by
  induction k generalizing a b with
  | zero => rfl
  | succ k ih => simp only [Function.iterate_succ, Function.comp, crc_ref_shift_xor, ih]

/-- Eight reference shifts of a byte placed in the high half of the register. -/
theorem crc_ref_high_byte : ∀ x < 256, crc_ref_shift^[8] (x <<< 8) =
    (((x ^^^ (x >>> 4)) <<< 12) % 65536) ^^^ (((x ^^^ (x >>> 4)) <<< 5) % 65536)
      ^^^ (x ^^^ (x >>> 4)) := by
  set_option maxRecDepth 100000 in decide

/-- Eight reference shifts of a byte placed in the low half of the register. -/
theorem crc_ref_low_byte : ∀ l < 256, crc_ref_shift^[8] l = l <<< 8 := by
  set_option maxRecDepth 100000 in decide

theorem split_high_low (c : Nat) : c = ((c >>> 8) <<< 8) ^^^ (c % 256) := by
  apply Nat.eq_of_testBit_eq
  intro i
  have h := Nat.testBit_mod_two_pow c 8 i
  simp only [Nat.reducePow] at h
  rw [Nat.testBit_xor, Nat.testBit_shiftLeft, Nat.testBit_shiftRight, h]
  by_cases hi : i < 8
  · have : ¬ (i ≥ 8) := by omega
    simp [hi, this]
  · have h8 : i ≥ 8 := by omega
    have : 8 + (i - 8) = i := by omega
    simp [hi, h8, this]

/-- The byte-at-a-time update of `crc16` is the reference update. -/
theorem crc16_step_eq_ref (crc b : Nat) (hc : crc < 65536) (hb : b < 256) :
    crc16_step crc b = crc_ref_byte crc b := by
  have hh : crc >>> 8 < 256 := by rw [Nat.shiftRight_eq_div_pow]; omega
  have hx0 : (crc >>> 8) ^^^ b < 256 := @Nat.xor_lt_two_pow _ _ 8 hh hb
  have hl : crc % 256 < 256 := Nat.mod_lt _ (by decide)
  have e1 : crc ^^^ (b <<< 8) = (((crc >>> 8) ^^^ b) <<< 8) ^^^ (crc % 256) := by
    conv_lhs => rw [split_high_low crc]
    rw [shiftLeft_xor, Nat.xor_assoc, Nat.xor_comm (crc % 256), ← Nat.xor_assoc]
  unfold crc_ref_byte
  rw [e1, crc_ref_iterate_xor, crc_ref_high_byte _ hx0, crc_ref_low_byte _ hl]
  unfold crc16_step
  generalize hx : (crc >>> 8) ^^^ b = x0 at *
  have hx1 : x0 ^^^ (x0 >>> 4) < 256 := by
    refine @Nat.xor_lt_two_pow _ _ 8 hx0 ?_
    rw [Nat.shiftRight_eq_div_pow]; omega
  simp only [Nat.mod_eq_of_lt hx0, Nat.mod_eq_of_lt hx1]
  generalize x0 ^^^ (x0 >>> 4) = x1 at *
  have hx2 : x1 % 65536 = x1 := Nat.mod_eq_of_lt (by omega)
  have e2 : (crc <<< 8) % 65536 = (crc % 256) <<< 8 := by
    simp only [Nat.shiftLeft_eq]; omega
  have h16 : (65536 : Nat) = 2 ^ 16 := by norm_num
  rw [hx2]
  rw [h16, xor_mod_two_pow, xor_mod_two_pow, xor_mod_two_pow, Nat.mod_mod, Nat.mod_mod,
    ← h16, e2, hx2]
  generalize (x1 <<< 12) % 65536 = A
  generalize (x1 <<< 5) % 65536 = B
  generalize (crc % 256) <<< 8 = L
  rw [Nat.xor_comm (A ^^^ B ^^^ x1) L, Nat.xor_assoc, Nat.xor_assoc, Nat.xor_assoc]

theorem crc16_step_lt (c b : Nat) : crc16_step c b < 65536 := by
  unfold crc16_step; exact Nat.mod_lt _ (by decide)

theorem foldl_crc16_step_lt (l : List Nat) (c : Nat) (hc : c < 65536) :
    l.foldl crc16_step c < 65536 := by
  induction l generalizing c with
  | nil => simpa using hc
  | cons b l ih => exact ih _ (crc16_step_lt c b)

theorem crc16_lt (buf : List Nat) (count : Nat) : crc16 buf count < 65536 :=
  foldl_crc16_step_lt _ _ (by decide)

theorem crc16_step_high (c : Nat) : crc16_step c (c >>> 8) = (c <<< 8) % 65536 := by
  unfold crc16_step
  simp

theorem crc16_step_residue (c : Nat) :
    crc16_step (crc16_step c (c >>> 8)) (c % 256) = 0 := by
  rw [crc16_step_high]
  have e : ((c <<< 8) % 65536) >>> 8 = c % 256 := by
    simp only [Nat.shiftLeft_eq, Nat.shiftRight_eq_div_pow]; omega
  have := crc16_step_high ((c <<< 8) % 65536)
  rw [e] at this
  rw [this]
  simp only [Nat.shiftLeft_eq]; omega

theorem crc16_append (F G : List Nat) :
    crc16 (F ++ G) (F.length + G.length) = G.foldl crc16_step (crc16 F F.length) := by
  unfold crc16
  rw [← List.length_append, List.take_length, List.take_length, List.foldl_append]

theorem foldl_crc16_eq_ref (buf : List Nat) (c : Nat) (hc : c < 65536)
    (hb : ∀ b ∈ buf, b < 256) :
    buf.foldl crc16_step c = buf.foldl crc_ref_byte c := by
  induction buf generalizing c with
  | nil => rfl
  | cons b l ih =>
    simp only [List.foldl_cons]
    rw [← crc16_step_eq_ref c b hc (hb b (List.mem_cons_self _ _))]
    exact ih _ (crc16_step_lt c b) (fun x hx => hb x (List.mem_cons_of_mem _ hx))

/-- A frame followed by its CRC-16, high byte first, leaves the register at zero. -/
theorem crc16_append_crc (F : List Nat) :
    crc16 (F ++ [crc16 F F.length >>> 8, crc16 F F.length &&& 0xFF]) (F.length + 2) = 0 := by
  have h := crc16_append F [crc16 F F.length >>> 8, crc16 F F.length &&& 0xFF]
  simp only [List.length_cons, List.length_nil] at h
  rw [h]
  have e : crc16 F F.length &&& 0xFF = crc16 F F.length % 256 :=
    Nat.and_pow_two_sub_one_eq_mod _ 8
  rw [e]
  exact crc16_step_residue _

/-- C1. CRC residue: a frame followed by its own CRC-16, high byte first, has a
running CRC of zero. -/
theorem crc16_residue (F : List Nat) :
    crc16 (F ++ [crc16 F F.length >>> 8, crc16 F F.length &&& 0xFF]) (F.length + 2) = 0 :=
  crc16_append_crc F

/-- C2. On every sequence of bytes `crc16` computes the reference bit-serial
CRC-16 (generator 0x1021, initial register 0xFFFF, MSB first, no reflection,
no final XOR). -/
theorem crc16_eq_ref (buf : List Nat) (hb : ∀ b ∈ buf, b < 256) :
    crc16 buf buf.length = crc16_ref buf := by
  unfold crc16 crc16_ref
  rw [List.take_length]
  exact foldl_crc16_eq_ref buf _ (by decide) hb

/-- C2, at the frame `FE 05 00 03 00`. -/
theorem crc16_eq_ref_witness :
    (∀ b ∈ [0xFE, 5, 0, 3, 0], b < 256) ∧
    crc16 [0xFE, 5, 0, 3, 0] [0xFE, 5, 0, 3, 0].length = crc16_ref [0xFE, 5, 0, 3, 0] :=
  ⟨by decide, crc16_eq_ref [0xFE, 5, 0, 3, 0] (by decide)⟩

/-! ## The sector registry -/

theorem valid_size_iff (size : Nat) :
    valid_size size = true ↔ size = 128 ∨ size = 256 ∨ size = 512 ∨ size = 1024 := by
  simp [valid_size, NSIZES, List.range_succ]

theorem disk_add_valid (disk : Disk) (t sec sz : Nat) (D : List Nat)
    (ht : t < 77) (hsec : sec < 33) (hsz : sz = 128 ∨ sz = 256 ∨ sz = 512 ∨ sz = 1024) :
    disk_add disk t 0 sec sz (some D) =
      (if (disk t sec).size = 0 ∧ (disk t sec).data = none then
          Disk_set disk t sec (if (disk t sec).size = 0 ∧ (disk t sec).data = none then
                (⟨sz, some (D.take sz)⟩ : sector_t) else disk t sec) else disk,
        (if (if (disk t sec).size = 0 ∧ (disk t sec).data = none then
                (⟨sz, some (D.take sz)⟩ : sector_t) else disk t sec).size ≠ sz
          then [Msg.inconsistent_size] else []) ++
        (if ((if (disk t sec).size = 0 ∧ (disk t sec).data = none then
                (⟨sz, some (D.take sz)⟩ : sector_t) else disk t sec).data.getD []).take
              (if (disk t sec).size = 0 ∧ (disk t sec).data = none then
                (⟨sz, some (D.take sz)⟩ : sector_t) else disk t sec).size ≠
            D.take (if (disk t sec).size = 0 ∧ (disk t sec).data = none then
                (⟨sz, some (D.take sz)⟩ : sector_t) else disk t sec).size
          then [Msg.inconsistent_data] else [])) := by
  have hv : valid_size sz = true := (valid_size_iff sz).2 hsz
  have hg : ¬ (t ≥ NTRACKS ∨ 0 ≥ NSIDES ∨ sec ≥ NSECTORS ∨ valid_size sz = false) := by
    simp only [NTRACKS, NSIDES, NSECTORS, hv]
    simp
    omega
  unfold disk_add
  rw [if_neg hg]

/-- A first store into an empty slot. -/
theorem disk_add_first (disk : Disk) (t sec sz : Nat) (D : List Nat)
    (ht : t < 77) (hsec : sec < 33) (hsz : sz = 128 ∨ sz = 256 ∨ sz = 512 ∨ sz = 1024)
    (hD : D.length = sz) (hempty : disk t sec = ⟨0, none⟩) :
    disk_add disk t 0 sec sz (some D) = (Disk_set disk t sec ⟨sz, some D⟩, []) := by
  rw [disk_add_valid disk t sec sz D ht hsec hsz, hempty]
  subst hD
  simp

theorem Disk_set_same (disk : Disk) (t sec : Nat) (s : sector_t) :
    Disk_set disk t sec s t sec = s := by
  simp [Disk_set]

theorem Disk_set_other (disk : Disk) (t sec : Nat) (s : sector_t) (t1 s1 : Nat)
    (h : ¬ (t1 = t ∧ s1 = sec)) : Disk_set disk t sec s t1 s1 = disk t1 s1 := by
  simp [Disk_set, h]

/-- A store into an occupied slot never changes the image. -/
theorem disk_add_occupied (disk : Disk) (track side sector size : Nat)
    (data : Option (List Nat))
    (h : ¬ ((disk track sector).size = 0 ∧ (disk track sector).data = none)) :
    (disk_add disk track side sector size data).1 = disk := by
  unfold disk_add
  split
  · rfl
  · cases data with
    | none => rfl
    | some d => simp only [if_neg h]

/-- Whatever the arguments, `disk_add` leaves every slot that is not empty as it is. -/
theorem disk_add_keeps (disk : Disk) (track side sector size : Nat)
    (data : Option (List Nat)) (t s : Nat) (h : disk t s ≠ ⟨0, none⟩) :
    (disk_add disk track side sector size data).1 t s = disk t s := by
  unfold disk_add
  split
  · rfl
  · cases data with
    | none => rfl
    | some d =>
      simp only
      split
      · rename_i he
        by_cases hts : t = track ∧ s = sector
        · exfalso
          apply h
          rcases hts with ⟨rfl, rfl⟩
          cases hd : disk t s with
          | mk sz dt =>
            rw [hd] at he
            simp only at he
            rw [he.1, he.2]
        · exact Disk_set_other _ _ _ _ _ _ hts
      · rfl

theorem disk_add_all_keeps (calls : List AddCall) (disk : Disk) (t s : Nat)
    (h : disk t s ≠ ⟨0, none⟩) : disk_add_all disk calls t s = disk t s := by
  induction calls generalizing disk with
  | nil => rfl
  | cons c cs ih =>
    have h1 := disk_add_keeps disk c.track c.side c.sector c.size c.data t s h
    have := ih (disk_add disk c.track c.side c.sector c.size c.data).1 (by rw [h1]; exact h)
    simp only [disk_add_all, List.foldl_cons] at this ⊢
    rw [this, h1]

theorem disk_add_slot_ok (disk : Disk) (c : AddCall)
    (hwf : ∀ d, c.data = some d → c.size ≤ d.length)
    (hinv : ∀ t s, slot_ok (disk t s)) (t s : Nat) :
    slot_ok ((disk_add disk c.track c.side c.sector c.size c.data).1 t s) := by
  unfold disk_add
  split
  · exact hinv t s
  · rename_i hg
    cases hd : c.data with
    | none => exact hinv t s
    | some d =>
      simp only
      split
      · by_cases hts : t = c.track ∧ s = c.sector
        · rcases hts with ⟨rfl, rfl⟩
          rw [Disk_set_same]
          right
          have hlen : (d.take c.size).length = c.size := by
            rw [List.length_take]; exact Nat.min_eq_left (hwf d hd)
          refine ⟨d.take c.size, ?_, ?_⟩
          · rw [hlen]
          · rw [hlen]
            have hv : valid_size c.size = true := by
              by_contra hv
              apply hg
              simp only [Bool.not_eq_true] at hv
              simp [hv]
            exact (valid_size_iff _).1 hv
        · rw [Disk_set_other _ _ _ _ _ _ hts]
          exact hinv t s
      · exact hinv t s

theorem disk_add_all_slot_ok (calls : List AddCall) (disk : Disk)
    (hwf : ∀ c ∈ calls, ∀ d, c.data = some d → c.size ≤ d.length)
    (hinv : ∀ t s, slot_ok (disk t s)) (t s : Nat) :
    slot_ok (disk_add_all disk calls t s) := by
  induction calls generalizing disk with
  | nil => exact hinv t s
  | cons c cs ih =>
    simp only [disk_add_all, List.foldl_cons]
    exact ih _ (fun c1 h1 => hwf c1 (List.mem_cons_of_mem _ h1))
      (disk_add_slot_ok disk c (hwf c (List.mem_cons_self _ _)) hinv)

/-- C7. Idempotence of store: storing the same valid sector twice into an empty
slot gives the image of a single store, and the second call prints neither
inconsistency line. -/
theorem disk_add_idempotent (disk : Disk) (t sec sz : Nat) (D : List Nat)
    (ht : t < 77) (hsec : sec < 33) (hsz : sz = 128 ∨ sz = 256 ∨ sz = 512 ∨ sz = 1024)
    (hD : D.length = sz) (hempty : disk t sec = ⟨0, none⟩) :
    (disk_add (disk_add disk t 0 sec sz (some D)).1 t 0 sec sz (some D)).1 =
        (disk_add disk t 0 sec sz (some D)).1 ∧
      Msg.inconsistent_size ∉ (disk_add (disk_add disk t 0 sec sz (some D)).1 t 0 sec sz (some D)).2 ∧
      Msg.inconsistent_data ∉ (disk_add (disk_add disk t 0 sec sz (some D)).1 t 0 sec sz (some D)).2 := by
  rw [disk_add_first disk t sec sz D ht hsec hsz hD hempty]
  simp only
  rw [disk_add_valid _ t sec sz D ht hsec hsz, Disk_set_same]
  have hne : ¬ (sz = 0 ∧ (some D : Option (List Nat)) = none) := by simp
  subst hD
  simp

/-- C7, at track 5, sector 3 and 128 zero bytes on the empty disk. -/
theorem disk_add_idempotent_witness :
    (disk_add (disk_add Disk_empty 5 0 3 128 (some (List.replicate 128 0))).1 5 0 3 128
        (some (List.replicate 128 0))).1 =
        (disk_add Disk_empty 5 0 3 128 (some (List.replicate 128 0))).1 ∧
      Msg.inconsistent_size ∉ (disk_add (disk_add Disk_empty 5 0 3 128
        (some (List.replicate 128 0))).1 5 0 3 128 (some (List.replicate 128 0))).2 ∧
      Msg.inconsistent_data ∉ (disk_add (disk_add Disk_empty 5 0 3 128
        (some (List.replicate 128 0))).1 5 0 3 128 (some (List.replicate 128 0))).2 :=
  disk_add_idempotent Disk_empty 5 3 128 (List.replicate 128 0) (by decide) (by decide)
    (by decide) (by simp) rfl

/-- C8. Non-replacement: a second store with different bytes prints the
inconsistent-data line and leaves the first copy in the slot. -/
theorem disk_add_no_replace (disk : Disk) (t sec sz : Nat) (D1 D2 : List Nat)
    (ht : t < 77) (hsec : sec < 33) (hsz : sz = 128 ∨ sz = 256 ∨ sz = 512 ∨ sz = 1024)
    (hD1 : D1.length = sz) (hD2 : D2.length = sz) (hne : D1 ≠ D2)
    (hempty : disk t sec = ⟨0, none⟩) :
    Msg.inconsistent_data ∈
        (disk_add (disk_add disk t 0 sec sz (some D1)).1 t 0 sec sz (some D2)).2 ∧
      (disk_add (disk_add disk t 0 sec sz (some D1)).1 t 0 sec sz (some D2)).1 t sec =
        ⟨sz, some D1⟩ := by
  rw [disk_add_first disk t sec sz D1 ht hsec hsz hD1 hempty]
  simp only
  rw [disk_add_valid _ t sec sz D2 ht hsec hsz, Disk_set_same]
  have h0 : sz ≠ 0 := by omega
  have e1 : D1.take sz = D1 := by rw [← hD1, List.take_length]
  have e2 : D2.take sz = D2 := by rw [← hD2, List.take_length]
  simp [h0, e1, e2, hne, Disk_set_same]

/-- C8, at track 0, sector 1 with 128 bytes of 0x00 against 128 bytes of 0x01. -/
theorem disk_add_no_replace_witness :
    Msg.inconsistent_data ∈
        (disk_add (disk_add Disk_empty 0 0 1 128 (some (List.replicate 128 0))).1 0 0 1 128
          (some (List.replicate 128 1))).2 ∧
      (disk_add (disk_add Disk_empty 0 0 1 128 (some (List.replicate 128 0))).1 0 0 1 128
          (some (List.replicate 128 1))).1 0 1 = ⟨128, some (List.replicate 128 0)⟩ :=
  disk_add_no_replace Disk_empty 0 1 128 (List.replicate 128 0) (List.replicate 128 1)
    (by decide) (by decide) (by decide) (by simp) (by simp) (by decide) rfl

/-- C9. Range rejection: a call whose track, side, sector or size is out of
range is rejected with the invalid-params line and leaves the image as it was. -/
theorem disk_add_rejects (disk : Disk) (track side sector size : Nat)
    (data : Option (List Nat))
    (h : track ≥ 77 ∨ side ≥ 1 ∨ sector ≥ 33 ∨
      ¬ (size = 128 ∨ size = 256 ∨ size = 512 ∨ size = 1024)) :
    disk_add disk track side sector size data =
      (disk, [Msg.invalid_params track side sector size]) := by
  have hg : track ≥ NTRACKS ∨ side ≥ NSIDES ∨ sector ≥ NSECTORS ∨ valid_size size = false := by
    rcases h with h | h | h | h
    · exact Or.inl h
    · exact Or.inr (Or.inl h)
    · exact Or.inr (Or.inr (Or.inl h))
    · refine Or.inr (Or.inr (Or.inr ?_))
      rw [← Bool.not_eq_true, valid_size_iff]
      exact h
  unfold disk_add
  rw [if_pos hg]

/-- C9, at the five calls named in the text: track 77, side 1, sector 33, size 0
and size 2048. -/
theorem disk_add_rejects_witness :
    disk_add Disk_empty 77 0 1 128 (some (List.replicate 128 0)) =
        (Disk_empty, [Msg.invalid_params 77 0 1 128]) ∧
      disk_add Disk_empty 0 1 1 128 (some (List.replicate 128 0)) =
        (Disk_empty, [Msg.invalid_params 0 1 1 128]) ∧
      disk_add Disk_empty 0 0 33 128 (some (List.replicate 128 0)) =
        (Disk_empty, [Msg.invalid_params 0 0 33 128]) ∧
      disk_add Disk_empty 0 0 1 0 (some []) =
        (Disk_empty, [Msg.invalid_params 0 0 1 0]) ∧
      disk_add Disk_empty 0 0 1 2048 (some (List.replicate 2048 0)) =
        (Disk_empty, [Msg.invalid_params 0 0 1 2048]) :=
  ⟨disk_add_rejects _ _ _ _ _ _ (by decide), disk_add_rejects _ _ _ _ _ _ (by decide),
   disk_add_rejects _ _ _ _ _ _ (by decide), disk_add_rejects _ _ _ _ _ _ (by decide),
   disk_add_rejects _ _ _ _ _ _ (by decide)⟩

/-- C10. Disk-image invariant: after any sequence of `disk_add` calls on the empty
image (each non-NULL data pointer giving at least `size` readable bytes) every
slot is empty or holds a size in {128, 256, 512, 1024} with exactly that many
bytes; and a slot that is filled keeps its size and data through every later
sequence of calls, whatever their arguments. -/
theorem disk_invariant (calls : List AddCall)
    (hwf : ∀ c ∈ calls, ∀ d, c.data = some d → c.size ≤ d.length) (t s : Nat) :
    (disk_add_all Disk_empty calls t s = ⟨0, none⟩ ∨
      ∃ D, disk_add_all Disk_empty calls t s = ⟨D.length, some D⟩ ∧
        (D.length = 128 ∨ D.length = 256 ∨ D.length = 512 ∨ D.length = 1024)) ∧
    ∀ later : List AddCall, disk_add_all Disk_empty calls t s ≠ ⟨0, none⟩ →
      disk_add_all (disk_add_all Disk_empty calls) later t s =
        disk_add_all Disk_empty calls t s :=
  ⟨disk_add_all_slot_ok calls Disk_empty hwf (fun _ _ => Or.inl rfl) t s,
   fun later h => disk_add_all_keeps later _ t s h⟩

/-- C10, at two calls for track 5, sector 3 (128 bytes of 0x00, then 256 bytes of
0xAA). -/
theorem disk_invariant_witness :
    (disk_add_all Disk_empty [⟨5, 0, 3, 128, some (List.replicate 128 0)⟩,
        ⟨5, 0, 3, 256, some (List.replicate 256 0xAA)⟩] 5 3 = ⟨0, none⟩ ∨
      ∃ D, disk_add_all Disk_empty [⟨5, 0, 3, 128, some (List.replicate 128 0)⟩,
        ⟨5, 0, 3, 256, some (List.replicate 256 0xAA)⟩] 5 3 = ⟨D.length, some D⟩ ∧
        (D.length = 128 ∨ D.length = 256 ∨ D.length = 512 ∨ D.length = 1024)) ∧
    ∀ later : List AddCall, disk_add_all Disk_empty [⟨5, 0, 3, 128, some (List.replicate 128 0)⟩,
        ⟨5, 0, 3, 256, some (List.replicate 256 0xAA)⟩] 5 3 ≠ ⟨0, none⟩ →
      disk_add_all (disk_add_all Disk_empty [⟨5, 0, 3, 128, some (List.replicate 128 0)⟩,
        ⟨5, 0, 3, 256, some (List.replicate 256 0xAA)⟩]) later 5 3 =
        disk_add_all Disk_empty [⟨5, 0, 3, 128, some (List.replicate 128 0)⟩,
        ⟨5, 0, 3, 256, some (List.replicate 256 0xAA)⟩] 5 3 :=
  disk_invariant _ (by
    intro c hc d hd
    simp only [List.mem_cons, List.mem_singleton, List.not_mem_nil, or_false] at hc
    rcases hc with rfl | rfl
    · simp only [Option.some.injEq] at hd
      subst hd
      exact Nat.le_of_eq (List.length_replicate _ _).symm
    · simp only [Option.some.injEq] at hd
      subst hd
      exact Nat.le_of_eq (List.length_replicate _ _).symm) 5 3

/-- The bytes that follow the first `size` bytes of the buffer handed to
`disk_add` do not matter unless the slot holds a sector of a larger size: the
copy takes `size` bytes and the comparison `s->size` bytes. -/
theorem disk_add_tail (disk : Disk) (track side sector size : Nat) (D R : List Nat)
    (hD : D.length = size) (h : (disk track sector).size ≤ size) :
    disk_add disk track side sector size (some (D ++ R)) =
      disk_add disk track side sector size (some D) := by
  unfold disk_add
  by_cases hv : track ≥ NTRACKS ∨ side ≥ NSIDES ∨ sector ≥ NSECTORS ∨ valid_size size = false
  · simp only [if_pos hv]
  · simp only [if_neg hv]
    have e1 : (D ++ R).take size = D.take size := by
      rw [List.take_append_of_le_length (by omega)]
    by_cases he : (disk track sector).size = 0 ∧ (disk track sector).data = none
    · simp only [if_pos he, e1]
    · have e2 : (D ++ R).take (disk track sector).size = D.take (disk track sector).size := by
        rw [List.take_append_of_le_length (by omega)]
      simp only [if_neg he, e2]

/-! ## FM decoder: byte fetch and scan loop -/

theorem shiftLeft_lor_bit (a : Nat) (b : Bool) : (a <<< 1) ||| b.toNat = 2 * a + b.toNat := by
  cases b
  · simp [Nat.shiftLeft_eq]; omega
  · apply Nat.eq_of_testBit_eq
    intro i
    cases i with
    | zero =>
      simp only [Nat.testBit_or, Nat.shiftLeft_eq, Nat.testBit_zero, Bool.toNat_true]
      have : (2 * a + 1) % 2 = 1 := by omega
      simp [this]
    | succ i =>
      rw [Nat.testBit_or, Nat.testBit_succ, Nat.testBit_succ, Nat.testBit_succ]
      have e1 : a <<< 1 / 2 = a := by simp only [Nat.shiftLeft_eq]; omega
      have e2 : (2 * a + true.toNat) / 2 = a := by simp only [Bool.toNat_true]; omega
      rw [e1, e2]
      simp

theorem getD_at_length (pre : List Nat) (x : Nat) (rest : List Nat) :
    (pre ++ x :: rest).getD pre.length 0 = x := by
  rw [List.getD_append_right _ _ _ _ (Nat.le_refl _)]
  simp

theorem getD_at_length_succ (pre : List Nat) (x y : Nat) (rest : List Nat) :
    (pre ++ x :: y :: rest).getD (pre.length + 1) 0 = y := by
  rw [List.getD_append_right _ _ _ _ (Nat.le_add_right _ _)]
  simp

theorem bits_val_byte : ∀ B < 256, bits_val 0 (byte_bits B) = B := by
  set_option maxRecDepth 100000 in decide

theorem fm_fetch_iterate (bits : List Bool) (pre R : List Nat) (acc : Nat) :
    (fm_fetch_step (pre ++ (fm_enc_bits bits ++ R)))^[bits.length] (acc, pre.length) =
      (bits_val acc bits, pre.length + (fm_enc_bits bits).length) := by
  induction bits generalizing pre acc with
  | nil => simp [fm_enc_bits, bits_val]
  | cons b bs ih =>
    rw [List.length_cons, Function.iterate_succ_apply]
    cases b
    · have e : pre ++ (fm_enc_bits (false :: bs) ++ R) = (pre ++ [0]) ++ (fm_enc_bits bs ++ R) := by
        simp [fm_enc_bits]
      have hs : fm_fetch_step (pre ++ (fm_enc_bits (false :: bs) ++ R)) (acc, pre.length) =
          (2 * acc + false.toNat, (pre ++ [0]).length) := by
        have e0 : pre ++ (fm_enc_bits (false :: bs) ++ R) = pre ++ 0 :: (fm_enc_bits bs ++ R) := by
          simp [fm_enc_bits]
        simp only [fm_fetch_step]
        rw [e0, getD_at_length]
        simp [Nat.shiftLeft_eq]
        omega
      rw [hs, e, ih]
      simp [bits_val, fm_enc_bits]
      omega
    · have e : pre ++ (fm_enc_bits (true :: bs) ++ R) = (pre ++ [1, 1]) ++ (fm_enc_bits bs ++ R) := by
        simp [fm_enc_bits]
      have hs : fm_fetch_step (pre ++ (fm_enc_bits (true :: bs) ++ R)) (acc, pre.length) =
          (2 * acc + true.toNat, (pre ++ [1, 1]).length) := by
        have e0 : pre ++ (fm_enc_bits (true :: bs) ++ R) =
            pre ++ 1 :: 1 :: (fm_enc_bits bs ++ R) := by
          simp [fm_enc_bits]
        simp only [fm_fetch_step]
        rw [e0, getD_at_length, getD_at_length_succ]
        have := shiftLeft_lor_bit acc true
        simp only [Bool.toNat_true] at this
        simp [this]
      rw [hs, e, ih]
      simp [bits_val, fm_enc_bits]
      omega

theorem fm_fetch_byte_enc (B : Nat) (hB : B < 256) (pre R : List Nat) :
    fm_fetch_byte (pre ++ (fm_enc_bits (byte_bits B) ++ R)) pre.length =
      (B, pre.length + (fm_enc_bits (byte_bits B)).length) := by
  have h := fm_fetch_iterate (byte_bits B) pre R 0
  have hl : (byte_bits B).length = 8 := rfl
  rw [hl] at h
  unfold fm_fetch_byte
  rw [h, bits_val_byte B hB]
  simp [Nat.mod_eq_of_lt hB]

theorem fm_fetch_bytes_enc (bs : List Nat) (hbs : ∀ b ∈ bs, b < 256) (pre R : List Nat) :
    fm_fetch_bytes (pre ++ (fm_enc bs ++ R)) pre.length bs.length =
      (bs, pre.length + (fm_enc bs).length) := by
  induction bs generalizing pre with
  | nil => simp [fm_fetch_bytes, fm_enc]
  | cons b bs ih =>
    have e : pre ++ (fm_enc (b :: bs) ++ R) =
        pre ++ (fm_enc_bits (byte_bits b) ++ (fm_enc bs ++ R)) := by
      simp [fm_enc]
    have e2 : pre ++ (fm_enc_bits (byte_bits b) ++ (fm_enc bs ++ R)) =
        (pre ++ fm_enc_bits (byte_bits b)) ++ (fm_enc bs ++ R) := by
      simp
    rw [List.length_cons, fm_fetch_bytes, e, fm_fetch_byte_enc b (hbs b (List.mem_cons_self _ _))]
    simp only
    rw [e2, ← List.length_append,
      ih (fun x hx => hbs x (List.mem_cons_of_mem _ hx))]
    simp [fm_enc]
    omega

theorem getD_drop (buf : List Nat) (i k : Nat) :
    (buf.drop i).getD k 0 = buf.getD (i + k) 0 := by
  simp only [List.getD_eq_getElem?_getD, List.getElem?_drop]

theorem mark_match_drop (buf : List Nat) (i off : Nat) (pat : List Nat) (len : Nat) :
    mark_match buf (i + off) pat len = mark_match (buf.drop i) off pat len := by
  unfold mark_match
  simp only [getD_drop, Nat.add_assoc]

theorem mark_used_succ (buf : List Nat) (i c tag : Nat) :
    mark_used buf i (c + 1) tag = (mark_used buf i c tag).set (i + c) tag := by
  simp [mark_used, List.range_succ, List.foldl_append]

theorem mark_used_drop (buf : List Nat) (i c tag j : Nat) (hj : i + c ≤ j) :
    (mark_used buf i c tag).drop j = buf.drop j := by
  induction c with
  | zero => simp [mark_used]
  | succ c ih =>
    rw [mark_used_succ, List.drop_set_of_lt _ _ (by omega)]
    exact ih (by omega)

theorem fm_fetch_step_drop (buf : List Nat) (i a p : Nat) :
    fm_fetch_step buf (a, i + p) =
      ((fm_fetch_step (buf.drop i) (a, p)).1, i + (fm_fetch_step (buf.drop i) (a, p)).2) := by
  simp only [fm_fetch_step, getD_drop, Nat.add_assoc]
  split <;> rfl

theorem fm_fetch_iterate_drop (buf : List Nat) (i k a p : Nat) :
    (fm_fetch_step buf)^[k] (a, i + p) =
      (((fm_fetch_step (buf.drop i))^[k] (a, p)).1,
        i + ((fm_fetch_step (buf.drop i))^[k] (a, p)).2) := by
  induction k generalizing a p with
  | zero => rfl
  | succ k ih =>
    rw [Function.iterate_succ_apply, Function.iterate_succ_apply, fm_fetch_step_drop, ih]

theorem fm_fetch_byte_drop (buf : List Nat) (i p : Nat) :
    fm_fetch_byte buf (i + p) =
      ((fm_fetch_byte (buf.drop i) p).1, i + (fm_fetch_byte (buf.drop i) p).2) := by
  simp only [fm_fetch_byte, fm_fetch_iterate_drop]

theorem fm_fetch_bytes_drop (buf : List Nat) (i p count : Nat) :
    fm_fetch_bytes buf (i + p) count =
      ((fm_fetch_bytes (buf.drop i) p count).1, i + (fm_fetch_bytes (buf.drop i) p count).2) := by
  induction count generalizing p with
  | zero => rfl
  | succ count ih =>
    simp only [fm_fetch_bytes]
    rw [fm_fetch_byte_drop]
    simp only
    rw [ih]

theorem fm_valid_addr_drop (buf : List Nat) (i p : Nat) (g : Globals) :
    fm_valid_addr buf (i + p) g = fm_valid_addr (buf.drop i) p g := by
  simp only [fm_valid_addr, fm_fetch_bytes_drop buf i p]
  have e : ∀ x, i + x - (i + p) = x - p := fun x => by omega
  simp only [e]

theorem fm_valid_data_drop (buf : List Nat) (i p sz : Nat) :
    fm_valid_data buf (i + p) sz = fm_valid_data (buf.drop i) p sz := by
  simp only [fm_valid_data, fm_fetch_bytes_drop buf i p]
  have e : ∀ x, i + x - (i + p) = x - p := fun x => by omega
  simp only [e]

theorem fm_valid_deld_drop (buf : List Nat) (i p sz : Nat) :
    fm_valid_deld buf (i + p) sz = fm_valid_deld (buf.drop i) p sz := by
  simp only [fm_valid_deld, fm_fetch_bytes_drop buf i p]
  have e : ∀ x, i + x - (i + p) = x - p := fun x => by omega
  simp only [e]

theorem fm_mark_drop (buf : List Nat) (i : Nat) (g : Globals) :
    fm_mark buf i g = fm_mark (buf.drop i) 0 g := by
  have hm : ∀ pat len, mark_match buf i pat len = mark_match (buf.drop i) 0 pat len :=
    fun pat len => mark_match_drop buf i 0 pat len
  simp only [fm_mark, fm_addr, fm_data, fm_deld, hm, fm_valid_addr_drop, fm_valid_data_drop,
    fm_valid_deld_drop, Nat.zero_add]

theorem fm_loop_eq_scan (fuel : Nat) (buf : List Nat) (n i : Nat) (g : Globals) :
    fm_loop fuel buf n i g = fm_scan fuel (buf.drop i) (n - i) g := by
  induction fuel generalizing buf i g with
  | zero => rfl
  | succ fuel ih =>
    simp only [fm_loop, fm_scan]
    rw [← fm_mark_drop]
    by_cases h : i < n
    · have h2 : 0 < n - i := by omega
      rw [if_pos h, if_pos h2, ih, mark_used_drop _ _ _ _ _ (by omega), List.drop_drop]
      have e1 : i + ((fm_mark buf i g).1 + 1) = i + (fm_mark buf i g).1 + 1 := by omega
      have e2 : n - i - ((fm_mark buf i g).1 + 1) = n - (i + (fm_mark buf i g).1 + 1) := by omega
      rw [e1, e2]
    · have h2 : ¬ 0 < n - i := by omega
      rw [if_neg h, if_neg h2]

/-- Iterations beyond `rem` are never used. -/
theorem fm_scan_fuel (rem : Nat) : ∀ (fuel : Nat) (s : List Nat) (g : Globals), rem ≤ fuel →
    fm_scan fuel s rem g = fm_scan rem s rem g := by
  induction rem using Nat.strong_induction_on with
  | _ rem ih =>
    intro fuel s g hf
    cases rem with
    | zero =>
      cases fuel with
      | zero => rfl
      | succ f => simp [fm_scan]
    | succ r =>
      cases fuel with
      | zero => omega
      | succ f =>
        simp only [fm_scan]
        rw [ih (r + 1 - ((fm_mark s 0 g).1 + 1)) (by omega) f _ _ (by omega),
          ih (r + 1 - ((fm_mark s 0 g).1 + 1)) (by omega) r _ _ (by omega)]

theorem fm_run_zero (s : List Nat) (g : Globals) : fm_run s 0 g = (g, []) := rfl

theorem fm_run_step (s : List Nat) (rem : Nat) (g : Globals) (h : 0 < rem) :
    fm_run s rem g =
      ((fm_run (s.drop ((fm_mark s 0 g).1 + 1)) (rem - ((fm_mark s 0 g).1 + 1))
          (fm_mark s 0 g).2.2.1).1,
        (fm_mark s 0 g).2.2.2 ++
          (fm_run (s.drop ((fm_mark s 0 g).1 + 1)) (rem - ((fm_mark s 0 g).1 + 1))
            (fm_mark s 0 g).2.2.1).2) := by
  cases rem with
  | zero => omega
  | succ r =>
    simp only [fm_run, fm_scan]
    rw [if_pos (by omega), fm_scan_fuel _ r _ _ (by omega)]

theorem fm_run_skip (s : List Nat) (rem : Nat) (g : Globals)
    (hm : fm_mark s 0 g = (0, 0, g, [])) :
    fm_run s rem g = fm_run (s.drop 1) (rem - 1) g := by
  cases rem with
  | zero => rfl
  | succ r =>
    rw [fm_run_step s (r + 1) g (by omega), hm]
    simp

theorem mark_match_false (s : List Nat) (off : Nat) (pat : List Nat) (len i : Nat)
    (hi : i < len) (hne : s.getD (off + i) 0 ≠ pat.getD i 0) :
    mark_match s off pat len = false := by
  unfold mark_match
  rw [List.all_eq_false]
  exact ⟨i, List.mem_range.2 hi, by simpa using hne⟩

theorem fm_mark_none (s : List Nat) (g : Globals)
    (h1 : mark_match s 0 FM_indx_mark 12 = false)
    (h2 : mark_match s 0 FM_addr_mark 12 = false)
    (h3 : mark_match s 0 FM_data_mark 12 = false)
    (h4 : mark_match s 0 FM_deld_mark 11 = false) :
    fm_mark s 0 g = (0, 0, g, []) := by
  simp [fm_mark, h1, h2, h3, h4]

theorem fm_mark_zero_head (R : List Nat) (g : Globals) :
    fm_mark (0 :: R) 0 g = (0, 0, g, []) := by
  apply fm_mark_none <;>
    exact mark_match_false _ 0 _ _ 0 (by decide)
      (by simp [FM_indx_mark, FM_addr_mark, FM_data_mark, FM_deld_mark])

theorem fm_run_skip_zeros (z : Nat) (R : List Nat) (rem : Nat) (g : Globals) :
    fm_run (List.replicate z 0 ++ R) rem g = fm_run R (rem - z) g := by
  induction z generalizing rem with
  | zero => simp
  | succ z ih =>
    rw [List.replicate_succ, List.cons_append, fm_run_skip _ _ _ (fm_mark_zero_head _ g)]
    simp only [List.drop_succ_cons, List.drop_zero]
    rw [ih]
    congr 1
    omega

theorem fm_mark_ones_head (a z : Nat) (R : List Nat) (g : Globals) (hz : 4 ≤ z) :
    fm_mark (List.replicate (a + 1) 1 ++ (List.replicate z 0 ++ R)) 0 g = (0, 0, g, []) := by
  obtain ⟨z, rfl⟩ : ∃ y, z = y + 4 := ⟨z - 4, by omega⟩
  rcases a with _ | _ | _ | a
  · apply fm_mark_none <;>
      exact mark_match_false _ 0 _ _ 1 (by decide) 
        (by simp [List.replicate_succ, FM_indx_mark, FM_addr_mark, FM_data_mark, FM_deld_mark])
  · apply fm_mark_none <;>
      exact mark_match_false _ 0 _ _ 2 (by decide) 
        (by simp [List.replicate_succ, FM_indx_mark, FM_addr_mark, FM_data_mark, FM_deld_mark])
  · apply fm_mark_none
    · exact mark_match_false _ 0 _ _ 4 (by decide) 
        (by simp [List.replicate_succ, FM_indx_mark, FM_addr_mark, FM_data_mark, FM_deld_mark])
    · exact mark_match_false _ 0 _ _ 6 (by decide) 
        (by simp [List.replicate_succ, FM_indx_mark, FM_addr_mark, FM_data_mark, FM_deld_mark])
    · exact mark_match_false _ 0 _ _ 6 (by decide) 
        (by simp [List.replicate_succ, FM_indx_mark, FM_addr_mark, FM_data_mark, FM_deld_mark])
    · exact mark_match_false _ 0 _ _ 6 (by decide) 
        (by simp [List.replicate_succ, FM_indx_mark, FM_addr_mark, FM_data_mark, FM_deld_mark])
  · apply fm_mark_none <;>
      exact mark_match_false _ 0 _ _ 3 (by decide) 
        (by simp [List.replicate_succ, FM_indx_mark, FM_addr_mark, FM_data_mark, FM_deld_mark])

theorem fm_run_skip_ones (a z : Nat) (R : List Nat) (rem : Nat) (g : Globals) (hz : 4 ≤ z) :
    fm_run (List.replicate a 1 ++ (List.replicate z 0 ++ R)) rem g =
      fm_run (List.replicate z 0 ++ R) (rem - a) g := by
  induction a generalizing rem with
  | zero => simp
  | succ a ih =>
    rw [fm_run_skip _ _ _ (fm_mark_ones_head a z R g hz)]
    rw [List.replicate_succ, List.cons_append]
    simp only [List.drop_succ_cons, List.drop_zero]
    rw [ih]
    congr 1
    omega

theorem fm_run_skip_gap (a z : Nat) (R : List Nat) (rem : Nat) (g : Globals) (hz : 4 ≤ z) :
    fm_run (List.replicate a 1 ++ (List.replicate z 0 ++ R)) rem g =
      fm_run R (rem - (a + z)) g := by
  rw [fm_run_skip_ones a z R rem g hz, fm_run_skip_zeros]
  congr 1
  omega

theorem crc_bytes_lt (F : List Nat) : ∀ b ∈ crc_bytes F, b < 256 := by
  intro b hb
  have h := crc16_lt F F.length
  simp only [crc_bytes, List.mem_cons, List.mem_singleton, List.not_mem_nil, or_false] at hb
  rcases hb with rfl | rfl
  · rw [Nat.shiftRight_eq_div_pow]; omega
  · have e : crc16 F F.length &&& 0xFF = crc16 F F.length % 256 :=
      Nat.and_pow_two_sub_one_eq_mod _ 8
    rw [e]; omega

theorem crc16_frame (F : List Nat) (n : Nat) (hn : n = F.length + 2) :
    crc16 (F ++ crc_bytes F) n = 0 := by
  subst hn
  exact crc16_append_crc F

theorem mark_match_self (pat R : List Nat) (len : Nat) (hl : len ≤ pat.length) :
    mark_match (pat ++ R) 0 pat len = true := by
  unfold mark_match
  rw [List.all_eq_true]
  intro i hi
  have hi2 : i < pat.length := by
    have := List.mem_range.1 hi
    omega
  rw [Nat.zero_add, List.getD_append _ _ _ _ hi2]
  simp

theorem fm_enc_bits_length_pos (B : Nat) : 0 < (fm_enc_bits (byte_bits B)).length := by
  simp only [byte_bits, fm_enc_bits, List.flatMap_cons, List.length_append]
  have : 0 < (if B.testBit 7 = true then [1, 1] else [0]).length := by split <;> simp
  omega

theorem fm_enc_length_pos (b : Nat) (bs : List Nat) : 0 < (fm_enc (b :: bs)).length := by
  simp only [fm_enc, List.flatMap_cons, List.length_append]
  have := fm_enc_bits_length_pos b
  omega

theorem fm_mark_indx (X : List Nat) (g : Globals) :
    fm_mark (FM_indx_mark ++ X) 0 g = (12, 73, sector_none g, []) := by
  simp [fm_mark, mark_match_self FM_indx_mark X 12 (by decide), fm_indx]

theorem fm_mark_addr (t sec c : Nat) (ht : t < 77) (hs : sec < 33) (hc : c < 4)
    (X : List Nat) (g : Globals) :
    fm_mark (FM_addr_mark ++
        (fm_enc ([t, 0, sec, c] ++ crc_bytes [0xFE, t, 0, sec, c]) ++ X)) 0 g =
      ((fm_enc ([t, 0, sec, c] ++ crc_bytes [0xFE, t, 0, sec, c])).length + 12, 65,
        { g with Last_track := t, Last_side := 0, Last_sector := sec, Last_size := 128 <<< c },
        []) := by
  have h1 : mark_match (FM_addr_mark ++
      (fm_enc ([t, 0, sec, c] ++ crc_bytes [0xFE, t, 0, sec, c]) ++ X)) 0 FM_indx_mark 12
        = false :=
    mark_match_false _ 0 _ _ 4 (by decide) (by simp [FM_indx_mark, FM_addr_mark])
  have hb : ∀ b ∈ [t, 0, sec, c] ++ crc_bytes [0xFE, t, 0, sec, c], b < 256 := by
    intro b hb
    rw [List.mem_append] at hb
    rcases hb with hb | hb
    · simp only [List.mem_cons, List.mem_singleton, List.not_mem_nil, or_false] at hb
      rcases hb with rfl | rfl | rfl | rfl <;> omega
    · exact crc_bytes_lt _ b hb
  have hf := fm_fetch_bytes_enc _ hb FM_addr_mark X
  have hl : ([t, 0, sec, c] ++ crc_bytes [0xFE, t, 0, sec, c]).length = 6 := rfl
  have hl2 : FM_addr_mark.length = 12 := rfl
  rw [hl, hl2] at hf
  have hcrc : crc16 (0xFE :: ([t, 0, sec, c] ++ crc_bytes [0xFE, t, 0, sec, c])) 7 = 0 :=
    crc16_frame [0xFE, t, 0, sec, c] 7 rfl
  have hpos := fm_enc_length_pos t ([0, sec, c] ++ crc_bytes [0xFE, t, 0, sec, c])
  have hpos2 : (fm_enc ([t, 0, sec, c] ++ crc_bytes [0xFE, t, 0, sec, c])).length ≠ 0 := by
    have e : [t, 0, sec, c] ++ crc_bytes [0xFE, t, 0, sec, c] =
        t :: ([0, sec, c] ++ crc_bytes [0xFE, t, 0, sec, c]) := rfl
    rw [e]; omega
  have hva : fm_valid_addr (FM_addr_mark ++
      (fm_enc ([t, 0, sec, c] ++ crc_bytes [0xFE, t, 0, sec, c]) ++ X)) 12 g =
      ((fm_enc ([t, 0, sec, c] ++ crc_bytes [0xFE, t, 0, sec, c])).length,
        { g with Last_track := t, Last_side := 0, Last_sector := sec,
                 Last_size := 128 <<< c }) := by
    unfold fm_valid_addr
    rw [hf]
    simp only [hcrc]
    simp [NTRACKS, NSIDES, NSECTORS, NSIZES, Nat.not_le.2 ht, Nat.not_le.2 hs, Nat.not_le.2 hc]
  simp only [fm_mark, h1, mark_match_self FM_addr_mark _ 12 (by decide), fm_addr, Nat.zero_add,
    hva, ne_eq, hpos2, not_false_eq_true, if_true, Bool.false_eq_true, if_false]

theorem fm_mark_data (D : List Nat) (hD : ∀ b ∈ D, b < 256) (hmax : D.length ≤ 1024)
    (X : List Nat) (g : Globals) (hg : g.Last_size = D.length) :
    fm_mark (FM_data_mark ++ (fm_enc (D ++ crc_bytes (0xFB :: D)) ++ X)) 0 g =
      ((fm_enc (D ++ crc_bytes (0xFB :: D))).length + 12, 68,
        sector_none { g with disk :=
          (disk_add g.disk g.Last_track g.Last_side g.Last_sector g.Last_size (some D)).1 },
        (disk_add g.disk g.Last_track g.Last_side g.Last_sector g.Last_size (some D)).2) := by
  have h1 : mark_match (FM_data_mark ++ (fm_enc (D ++ crc_bytes (0xFB :: D)) ++ X)) 0
      FM_indx_mark 12 = false :=
    mark_match_false _ 0 _ _ 4 (by decide) (by simp [FM_indx_mark, FM_data_mark])
  have h2 : mark_match (FM_data_mark ++ (fm_enc (D ++ crc_bytes (0xFB :: D)) ++ X)) 0
      FM_addr_mark 12 = false :=
    mark_match_false _ 0 _ _ 7 (by decide) (by simp [FM_addr_mark, FM_data_mark])
  have hb : ∀ b ∈ D ++ crc_bytes (0xFB :: D), b < 256 := by
    intro b hb
    rw [List.mem_append] at hb
    rcases hb with hb | hb
    · exact hD b hb
    · exact crc_bytes_lt _ b hb
  have hf := fm_fetch_bytes_enc _ hb FM_data_mark X
  have hl : (D ++ crc_bytes (0xFB :: D)).length = D.length + 2 := by simp [crc_bytes]
  have hl2 : FM_data_mark.length = 12 := rfl
  rw [hl, hl2] at hf
  have hcrc : crc16 (0xFB :: (D ++ crc_bytes (0xFB :: D))) (1 + D.length + 2) = 0 :=
    crc16_frame (0xFB :: D) _ (by simp; omega)
  have hpos : (fm_enc (D ++ crc_bytes (0xFB :: D))).length ≠ 0 := by
    cases D with
    | nil => exact Nat.pos_iff_ne_zero.1 (fm_enc_length_pos _ _)
    | cons d ds => exact Nat.pos_iff_ne_zero.1 (fm_enc_length_pos _ _)
  have hvd : fm_valid_data (FM_data_mark ++ (fm_enc (D ++ crc_bytes (0xFB :: D)) ++ X)) 12
      D.length = ((fm_enc (D ++ crc_bytes (0xFB :: D))).length, D) := by
    unfold fm_valid_data
    rw [if_neg (by simp only [MAX_SSIZE]; omega), hf]
    simp only [hcrc]
    simp
  simp only [fm_mark, h1, h2, mark_match_self FM_data_mark _ 12 (by decide), fm_data,
    Nat.zero_add, hg, hvd, ne_eq, hpos, not_false_eq_true, if_true, Bool.false_eq_true,
    if_false]

theorem lag_append (k : Nat) (A B : List Nat) :
    lag k (A ++ B) = lag k A ++ lag (carry k A) B := by
  induction A generalizing k with
  | nil => rfl
  | cons a A ih => simp [lag, carry, ih]

theorem carry_append (k : Nat) (A B : List Nat) :
    carry k (A ++ B) = carry (carry k A) B := by
  induction A generalizing k with
  | nil => rfl
  | cons a A ih => simp [carry, ih]

theorem lag_concat (k : Nat) (A : List Nat) : lag k A ++ [carry k A] = k :: A := by
  induction A generalizing k with
  | nil => rfl
  | cons a A ih => simp [lag, carry, ih]

theorem flux_from_bits (bits : List Bool) (k : Nat) (R : List Bool) :
    flux_from k (bits.flatMap (fun b => [true, b]) ++ R) =
      lag k (fm_iv_bits bits) ++ flux_from (carry k (fm_iv_bits bits)) R := by
  induction bits generalizing k with
  | nil => simp [fm_iv_bits, lag, carry]
  | cons b bs ih =>
    cases b
    · show flux_from k (true :: false :: (bs.flatMap (fun b => [true, b]) ++ R)) =
        lag k (2 :: fm_iv_bits bs) ++ flux_from (carry k (2 :: fm_iv_bits bs)) R
      simp only [flux_from, lag, carry]
      rw [ih]
      rfl
    · show flux_from k (true :: true :: (bs.flatMap (fun b => [true, b]) ++ R)) =
        lag k (1 :: 1 :: fm_iv_bits bs) ++ flux_from (carry k (1 :: 1 :: fm_iv_bits bs)) R
      simp only [flux_from, lag, carry]
      rw [ih]
      rfl

theorem fm_cells_byte_plain (d : Nat) :
    fm_cells_byte 0xFF d = (byte_bits d).flatMap (fun b => [true, b]) := by
  simp [fm_cells_byte, byte_bits]
  decide

theorem flux_from_item (cd : Nat × Nat) (h : fm_item_ok cd) (k : Nat) (R : List Bool) :
    flux_from k (fm_cells_byte cd.1 cd.2 ++ R) =
      lag k (fm_item_iv cd) ++ flux_from (carry k (fm_item_iv cd)) R := by
  rcases h with h | h | h | h
  · rcases cd with ⟨c, d⟩
    simp only at h
    subst h
    rw [fm_cells_byte_plain, flux_from_bits]
    simp [fm_item_iv]
  · subst h; rfl
  · subst h; rfl
  · subst h; rfl

theorem flux_from_items (items : List (Nat × Nat)) (h : ∀ cd ∈ items, fm_item_ok cd)
    (k : Nat) (R : List Bool) :
    flux_from k (fm_cells items ++ R) =
      lag k (items.flatMap fm_item_iv) ++
        flux_from (carry k (items.flatMap fm_item_iv)) R := by
  induction items generalizing k with
  | nil => simp [fm_cells, lag, carry]
  | cons cd items ih =>
    simp only [fm_cells, List.flatMap_cons, List.append_assoc]
    have := ih (fun x hx => h x (List.mem_cons_of_mem _ hx))
    simp only [fm_cells] at this
    rw [flux_from_item cd (h cd (List.mem_cons_self _ _)), this, lag_append, carry_append,
      List.append_assoc]

theorem fm_enc_append (A B : List Nat) : fm_enc (A ++ B) = fm_enc A ++ fm_enc B := by
  simp [fm_enc]

theorem fm_enc_ones (g : Nat) : fm_enc (List.replicate g 0xFF) = List.replicate (16 * g) 1 := by
  induction g with
  | zero => rfl
  | succ g ih =>
    rw [List.replicate_succ, show 0xFF :: List.replicate g 0xFF = [0xFF] ++ List.replicate g 0xFF
      from rfl, fm_enc_append, ih, show 16 * (g + 1) = 16 + 16 * g by omega, List.replicate_add]
    rfl

theorem fm_enc_zeros (g : Nat) : fm_enc (List.replicate g 0x00) = List.replicate (8 * g) 0 := by
  induction g with
  | zero => rfl
  | succ g ih =>
    rw [List.replicate_succ, show 0 :: List.replicate g 0 = [0] ++ List.replicate g 0
      from rfl, fm_enc_append, ih, show 8 * (g + 1) = 8 + 8 * g by omega, List.replicate_add]
    rfl

theorem fm_plain_stream (bs : List Nat) :
    (fm_plain bs).flatMap fm_item_stream = fm_enc bs := by
  induction bs with
  | nil => rfl
  | cons b bs ih =>
    simp only [fm_plain, List.map_cons, List.flatMap_cons, fm_enc] at ih ⊢
    rw [ih]
    congr 1
    simp only [fm_item_stream, fm_item_iv, if_true, fm_iv_bits, fm_enc_bits, List.map_flatMap]
    congr 1
    funext x
    cases x <;> simp [TWO_US, FM_SPLIT, THREE_US, ONE_US]

theorem fm_plain_ok (bs : List Nat) : ∀ cd ∈ fm_plain bs, fm_item_ok cd := by
  intro cd h
  simp only [fm_plain, List.mem_map] at h
  obtain ⟨b, _, rfl⟩ := h
  exact Or.inl rfl

theorem fm_stream_eq (init : List (Nat × Nat)) (h : ∀ cd ∈ init, fm_item_ok cd) :
    fm_stream (init ++ [(0xFF, 0xFF)]) =
      init.flatMap fm_item_stream ++ List.replicate 15 1 := by
  have hok : ∀ cd ∈ init ++ [(0xFF, 0xFF)], fm_item_ok cd := by
    intro cd hcd
    rw [List.mem_append] at hcd
    rcases hcd with hcd | hcd
    · exact h cd hcd
    · simp only [List.mem_singleton] at hcd
      subst hcd
      exact Or.inl rfl
  have hf := flux_from_items (init ++ [(0xFF, 0xFF)]) hok 0 []
  rw [List.append_nil] at hf
  have hiv : (init ++ [(0xFF, 0xFF)]).flatMap fm_item_iv =
      (init.flatMap fm_item_iv ++ List.replicate 15 1) ++ [1] := by
    rw [List.flatMap_append]
    simp only [List.flatMap_cons, List.flatMap_nil, List.append_nil, List.append_assoc]
    rfl
  have hc := lag_concat 0 ((init ++ [(0xFF, 0xFF)]).flatMap fm_item_iv)
  rw [hiv] at hc
  have hc2 : lag 0 (init.flatMap fm_item_iv ++ List.replicate 15 1 ++ [1]) ++
      [carry 0 (init.flatMap fm_item_iv ++ List.replicate 15 1 ++ [1])] =
      (0 :: (init.flatMap fm_item_iv ++ List.replicate 15 1)) ++ [1] := by
    rw [hc]; rfl
  have hlag := (List.append_inj' hc2 rfl).1
  have hflux : flux (fm_cells (init ++ [(0xFF, 0xFF)])) =
      init.flatMap fm_item_iv ++ List.replicate 15 1 := by
    unfold flux
    rw [hf, hiv]
    simp only [flux_from, List.append_nil]
    rw [hlag]
    rfl
  unfold fm_stream fm_samples
  rw [hflux, List.map_map, List.map_append, List.map_flatMap]
  congr 1

theorem drop_past_mark (M E X : List Nat) (c : Nat) (hc : c = E.length + M.length) :
    (M ++ (E ++ X)).drop (c + 1) = X.drop 1 := by
  subst hc
  rw [← List.append_assoc, show E.length + M.length + 1 = (M ++ E).length + 1 by
    rw [List.length_append]; omega, List.drop_append]

theorem fm_run_mark (s : List Nat) (rem : Nat) (g gn : Globals) (c tag : Nat)
    (hm : fm_mark s 0 g = (c, tag, gn, [])) (hrem : 0 < rem) :
    fm_run s rem g = fm_run (s.drop (c + 1)) (rem - (c + 1)) gn := by
  rw [fm_run_step s rem g hrem, hm]
  simp

theorem fm_run_drop_gap (a z : Nat) (R : List Nat) (rem : Nat) (g : Globals) (hz : 5 ≤ z) :
    fm_run ((List.replicate a 1 ++ (List.replicate z 0 ++ R)).drop 1) rem g =
      fm_run R (rem - (a + z - 1)) g := by
  cases a with
  | zero =>
    obtain ⟨z, rfl⟩ : ∃ y, z = y + 1 := ⟨z - 1, by omega⟩
    simp only [List.replicate_zero, List.nil_append, List.replicate_succ, List.cons_append,
      List.drop_succ_cons, List.drop_zero]
    rw [fm_run_skip_zeros]
    congr 1
    omega
  | succ a =>
    simp only [List.replicate_succ, List.cons_append, List.drop_succ_cons, List.drop_zero]
    rw [fm_run_skip_gap _ _ _ _ _ (by omega)]
    congr 1
    omega

theorem fm_decode_eq_run (samples : List Nat) (split : Nat) (g : Globals) :
    fm_decode samples split g =
      fm_run (samples.map (fun s => if s < split then 1 else 0) ++ List.replicate DECODE_PAD 0)
        samples.length g := by
  unfold fm_decode fm_run
  simp only []
  rw [fm_loop_eq_scan, List.drop_zero, Nat.sub_zero]

theorem fm_track_stream (g1 g2 g t s c : Nat) (D : List Nat) :
    fm_stream (fm_track g1 g2 (g + 1) t s c D) =
      List.replicate (16 * g1) 1 ++ (List.replicate 48 0 ++ (FM_indx_mark ++
      (List.replicate (16 * g2) 1 ++ (List.replicate 48 0 ++ (FM_addr_mark ++
      (fm_enc ([t, 0, s, c] ++ crc_bytes [0xFE, t, 0, s, c]) ++
      (List.replicate 176 1 ++ (List.replicate 48 0 ++ (FM_data_mark ++
      (fm_enc (D ++ crc_bytes (0xFB :: D)) ++
      (List.replicate (16 * g + 15) 1))))))))))) := by
  have e : fm_track g1 g2 (g + 1) t s c D =
      (fm_plain (List.replicate g1 0xFF ++ List.replicate 6 0x00) ++ [(0xD7, 0xFC)] ++
        fm_plain (List.replicate g2 0xFF ++ List.replicate 6 0x00) ++ [(0xC7, 0xFE)] ++
        fm_plain ([t, 0, s, c] ++ crc_bytes [0xFE, t, 0, s, c] ++
          List.replicate 11 0xFF ++ List.replicate 6 0x00) ++ [(0xC7, 0xFB)] ++
        fm_plain (D ++ crc_bytes (0xFB :: D) ++ List.replicate g 0xFF)) ++ [(0xFF, 0xFF)] := by
    simp only [fm_track, fm_plain, List.replicate_succ', List.map_append, List.append_assoc,
      List.map_cons, List.map_nil]
  rw [e, fm_stream_eq]
  · simp only [List.flatMap_append, fm_plain_stream, fm_enc_append, fm_enc_ones, fm_enc_zeros,
      List.flatMap_cons, List.flatMap_nil, List.append_nil, List.append_assoc]
    have m1 : fm_item_stream (0xD7, 0xFC) = FM_indx_mark := by decide
    have m2 : fm_item_stream (0xC7, 0xFE) = FM_addr_mark := by decide
    have m3 : fm_item_stream (0xC7, 0xFB) = FM_data_mark := by decide
    rw [m1, m2, m3, ← List.replicate_add]
  · intro cd hcd
    simp only [List.mem_append, List.mem_singleton] at hcd
    rcases hcd with ((((((h | h) | h) | h) | h) | h) | h)
    · exact fm_plain_ok _ cd h
    · exact Or.inr (Or.inl h)
    · exact fm_plain_ok _ cd h
    · exact Or.inr (Or.inr (Or.inl h))
    · exact fm_plain_ok _ cd h
    · exact Or.inr (Or.inr (Or.inr h))
    · exact fm_plain_ok _ cd h

theorem shift_size (c : Nat) (hc : c < 4) :
    128 <<< c = 128 ∨ 128 <<< c = 256 ∨ 128 <<< c = 512 ∨ 128 <<< c = 1024 := by
  rcases c with _ | _ | _ | _ | c
  · left; rfl
  · right; left; rfl
  · right; right; left; rfl
  · right; right; right; rfl
  · omega

theorem fm_decode_track_run (g1 g2 g t s c : Nat) (D : List Nat)
    (ht : t < 77) (hs : s < 33) (hc : c < 4)
    (hlen : D.length = 128 <<< c) (hD : ∀ b ∈ D, b < 256) :
    fm_decode (fm_samples (fm_cells (fm_track g1 g2 (g + 1) t s c D))) FM_SPLIT Globals_init =
      (⟨NTRACKS, NSIDES, NSECTORS, 0, Disk_set Disk_empty t s ⟨128 <<< c, some D⟩⟩, []) := by
  have hsz := shift_size c hc
  rw [fm_decode_eq_run]
  have hst := fm_track_stream g1 g2 g t s c D
  unfold fm_stream at hst
  have hn : (fm_samples (fm_cells (fm_track g1 g2 (g + 1) t s c D))).length =
      ((fm_samples (fm_cells (fm_track g1 g2 (g + 1) t s c D))).map
        (fun s => if s < FM_SPLIT then 1 else 0)).length := by
    rw [List.length_map]
  rw [hn, hst]
  simp only [List.length_append, List.length_replicate, List.append_assoc]
  have hi : FM_indx_mark.length = 12 := rfl
  have ha : FM_addr_mark.length = 12 := rfl
  have hd : FM_data_mark.length = 12 := rfl
  rw [hi, ha, hd]
  generalize hLh : (fm_enc ([t, 0, s, c] ++ crc_bytes [0xFE, t, 0, s, c])).length = Lh
  generalize hLd : (fm_enc (D ++ crc_bytes (0xFB :: D))).length = Ld
  -- leading gap and sync
  rw [fm_run_skip_gap _ _ _ _ _ (by omega)]
  -- index mark
  rw [fm_run_mark _ _ _ _ _ _ (fm_mark_indx _ _) (by omega)]
  rw [show (12 : Nat) + 1 = 0 + FM_indx_mark.length + 1 from rfl]
  rw [show FM_indx_mark ++ (List.replicate (16 * g2) 1 ++ (List.replicate 48 0 ++
        (FM_addr_mark ++ (fm_enc ([t, 0, s, c] ++ crc_bytes [0xFE, t, 0, s, c]) ++
        (List.replicate 176 1 ++ (List.replicate 48 0 ++ (FM_data_mark ++
        (fm_enc (D ++ crc_bytes (0xFB :: D)) ++ (List.replicate (16 * g + 15) 1 ++
         List.replicate DECODE_PAD 0))))))))) =
      FM_indx_mark ++ ([] ++ (List.replicate (16 * g2) 1 ++ (List.replicate 48 0 ++
        (FM_addr_mark ++ (fm_enc ([t, 0, s, c] ++ crc_bytes [0xFE, t, 0, s, c]) ++
        (List.replicate 176 1 ++ (List.replicate 48 0 ++ (FM_data_mark ++
        (fm_enc (D ++ crc_bytes (0xFB :: D)) ++ (List.replicate (16 * g + 15) 1 ++
         List.replicate DECODE_PAD 0)))))))))) from rfl]
  rw [drop_past_mark FM_indx_mark [] _ (0 + FM_indx_mark.length) rfl]
  rw [fm_run_drop_gap _ _ _ _ _ (by omega)]
  -- address mark
  rw [fm_run_mark _ _ _ _ _ _ (fm_mark_addr t s c ht hs hc _ _) (by rw [hi]; simp; omega)]
  rw [drop_past_mark FM_addr_mark _ _ _ (by rw [ha])]
  rw [fm_run_drop_gap _ _ _ _ _ (by omega)]
  -- data mark
  have hmax : D.length ≤ 1024 := by omega
  have hdata : fm_mark (FM_data_mark ++ (fm_enc (D ++ crc_bytes (0xFB :: D)) ++
      (List.replicate (16 * g + 15) 1 ++ List.replicate DECODE_PAD 0))) 0
      { Last_track := t, Last_side := 0, Last_sector := s, Last_size := 128 <<< c,
        disk := (sector_none Globals_init).disk } =
      (Ld + 12, 68,
        ⟨NTRACKS, NSIDES, NSECTORS, 0, Disk_set Disk_empty t s ⟨128 <<< c, some D⟩⟩, []) := by
    rw [fm_mark_data D hD hmax _ _ hlen.symm, hLd]
    simp only [sector_none, Globals_init]
    rw [disk_add_first Disk_empty t s (128 <<< c) D ht hs hsz hlen rfl]
  rw [fm_run_mark _ _ _ _ _ _ hdata (by rw [hi, hLh]; simp; omega)]
  rw [drop_past_mark FM_data_mark _ _ _ (by rw [hd, hLd])]
  rw [show 16 * g + 15 = (16 * g + 14) + 1 by omega, List.replicate_succ, List.cons_append,
    List.drop_succ_cons, List.drop_zero]
  rw [show List.replicate DECODE_PAD 0 = List.replicate DECODE_PAD 0 ++ [] by simp,
    fm_run_skip_ones _ _ _ _ _ (by decide)]
  rw [hi, hLh]
  have hz : 16 * g1 + (48 + (12 + (16 * g2 + (48 + (12 + (Lh + (176 + (48 + (12 + (Ld +
      (16 * g + 14 + 1))))))))))) - (16 * g1 + 48) - (0 + 12 + 1) - (16 * g2 + 48 - 1) -
      (Lh + 12 + 1) - (176 + 48 - 1) - (Ld + 12 + 1) - (16 * g + 14) = 0 := by omega
  rw [hz]
  rfl

/-! ## MFM decoder: byte fetch and scan loop -/

theorem mfm_fetch_bit_drop (buf : List Nat) (i p : Nat) :
    mfm_fetch_bit buf (i + p) = mfm_fetch_bit (buf.drop i) p := by
  simp only [mfm_fetch_bit, getD_drop, Nat.add_assoc]

theorem mfm_fetch_loop_drop (buf : List Nat) (i k a p : Nat) :
    mfm_fetch_loop buf k a (i + p) =
      ((mfm_fetch_loop (buf.drop i) k a p).1, i + (mfm_fetch_loop (buf.drop i) k a p).2.1,
        (mfm_fetch_loop (buf.drop i) k a p).2.2) := by
  induction k generalizing a p with
  | zero => rfl
  | succ k ih =>
    simp only [mfm_fetch_loop, mfm_fetch_bit_drop]
    rw [show i + p + 2 = i + (p + 2) by omega, ih]

theorem mfm_fetch_byte_drop (buf : List Nat) (i p : Nat) :
    mfm_fetch_byte buf (i + p) =
      ((mfm_fetch_byte (buf.drop i) p).1, i + (mfm_fetch_byte (buf.drop i) p).2.1,
        (mfm_fetch_byte (buf.drop i) p).2.2) := by
  simp only [mfm_fetch_byte, mfm_fetch_loop_drop]

theorem mfm_fetch_bytes_drop (buf : List Nat) (i p count : Nat) :
    mfm_fetch_bytes buf (i + p) count =
      ((mfm_fetch_bytes (buf.drop i) p count).1, i + (mfm_fetch_bytes (buf.drop i) p count).2.1,
        (mfm_fetch_bytes (buf.drop i) p count).2.2) := by
  induction count generalizing p with
  | zero => rfl
  | succ count ih =>
    simp only [mfm_fetch_bytes]
    rw [mfm_fetch_byte_drop]
    simp only
    rw [ih]

theorem mfm_valid_addr_drop (buf : List Nat) (i p : Nat) (g : Globals) :
    mfm_valid_addr buf (i + p) g = mfm_valid_addr (buf.drop i) p g := by
  simp only [mfm_valid_addr, mfm_fetch_bytes_drop buf i p]
  have e : ∀ x, i + x - (i + p) = x - p := fun x => by omega
  simp only [e]

theorem mfm_valid_data_drop (buf : List Nat) (i p sz : Nat) :
    mfm_valid_data buf (i + p) sz = mfm_valid_data (buf.drop i) p sz := by
  simp only [mfm_valid_data, mfm_fetch_bytes_drop buf i p]
  have e : ∀ x, i + x - (i + p) = x - p := fun x => by omega
  simp only [e]

theorem mfm_mark_drop (buf : List Nat) (i : Nat) (g : Globals) :
    mfm_mark buf i g = mfm_mark (buf.drop i) 0 g := by
  have h1 := mfm_fetch_bytes_drop buf i 0 4
  have h2 := mfm_valid_addr_drop buf i 0 g
  have h3 := mfm_valid_data_drop buf i 0 g.Last_size
  simp only [Nat.add_zero] at h1 h2 h3
  simp only [mfm_mark, mfm_addr, mfm_data, mfm_deld, h1, h2, h3]

theorem mfm_mark_used_le (s : List Nat) (g : Globals) :
    (mfm_mark s 0 g).2.1.1 ≤ (mfm_mark s 0 g).1 := by
  simp only [mfm_mark]
  split
  · exact Nat.le_refl _
  · split
    · split
      · exact Nat.le_refl _
      · exact Nat.zero_le _
    · split
      · split
        · exact Nat.le_refl _
        · exact Nat.zero_le _
      · split
        · split
          · exact Nat.le_refl _
          · exact Nat.zero_le _
        · exact Nat.zero_le _

theorem mfm_mark_pos (s : List Nat) (g : Globals) : 0 < (mfm_mark s 0 g).1 := by
  simp only [mfm_mark]
  split
  · exact Nat.succ_pos _
  · split
    · split
      · simp only; omega
      · exact Nat.succ_pos _
    · split
      · split
        · simp only; omega
        · exact Nat.succ_pos _
      · split
        · split
          · simp only; omega
          · exact Nat.succ_pos _
        · exact Nat.succ_pos _

theorem mfm_loop_eq_scan (fuel : Nat) (buf : List Nat) (n i : Nat) (g : Globals) :
    mfm_loop fuel buf n i g = mfm_scan fuel (buf.drop i) (n - i) g := by
  induction fuel generalizing buf i g with
  | zero => rfl
  | succ fuel ih =>
    simp only [mfm_loop, mfm_scan]
    rw [← mfm_mark_drop]
    by_cases h : i < n
    · have h2 : 0 < n - i := by omega
      have hle : (mfm_mark buf i g).2.1.1 ≤ (mfm_mark buf i g).1 := by
        rw [mfm_mark_drop]; exact mfm_mark_used_le _ _
      rw [if_pos h, if_pos h2, ih, mark_used_drop _ _ _ _ _ (by omega), List.drop_drop]
      have e2 : n - i - (mfm_mark buf i g).1 = n - (i + (mfm_mark buf i g).1) := by omega
      rw [e2]
    · have h2 : ¬ 0 < n - i := by omega
      rw [if_neg h, if_neg h2]

theorem mfm_scan_fuel (rem : Nat) : ∀ (fuel : Nat) (s : List Nat) (g : Globals), rem ≤ fuel →
    mfm_scan fuel s rem g = mfm_scan rem s rem g := by
  induction rem using Nat.strong_induction_on with
  | _ rem ih =>
    intro fuel s g hf
    cases rem with
    | zero =>
      cases fuel with
      | zero => rfl
      | succ f => simp [mfm_scan]
    | succ r =>
      cases fuel with
      | zero => omega
      | succ f =>
        have hp := mfm_mark_pos s g
        simp only [mfm_scan]
        rw [ih (r + 1 - (mfm_mark s 0 g).1) (by omega) f _ _ (by omega),
          ih (r + 1 - (mfm_mark s 0 g).1) (by omega) r _ _ (by omega)]

theorem mfm_run_zero (s : List Nat) (g : Globals) : mfm_run s 0 g = (g, []) := rfl

theorem mfm_run_step (s : List Nat) (rem : Nat) (g : Globals) (h : 0 < rem) :
    (mfm_run s rem g).1 =
      (mfm_run (s.drop (mfm_mark s 0 g).1) (rem - (mfm_mark s 0 g).1) (mfm_mark s 0 g).2.2.1).1 := by
  cases rem with
  | zero => omega
  | succ r =>
    have hp := mfm_mark_pos s g
    simp only [mfm_run, mfm_scan]
    rw [if_pos (by omega), mfm_scan_fuel _ r _ _ (by omega)]

theorem mfm_decode_eq_run (samples : List Nat) (lo hi : Nat) (g : Globals) :
    mfm_decode samples lo hi g =
      mfm_run (samples.flatMap (mfm_expand lo hi) ++ List.replicate DECODE_PAD 0)
        (samples.flatMap (mfm_expand lo hi)).length g := by
  unfold mfm_decode mfm_run
  simp only []
  rw [mfm_loop_eq_scan, List.drop_zero, Nat.sub_zero]

theorem mfm_fetch_loop_congr (b1 b2 : List Nat) (k a p : Nat)
    (h : ∀ i, p ≤ i → i < p + 2 * k → b1.getD i 0 = b2.getD i 0) :
    mfm_fetch_loop b1 k a p = mfm_fetch_loop b2 k a p := by
  induction k generalizing a p with
  | zero => rfl
  | succ k ih =>
    have e : mfm_fetch_bit b1 p = mfm_fetch_bit b2 p := by
      simp only [mfm_fetch_bit, h p (Nat.le_refl _) (by omega), h (p + 1) (by omega) (by omega)]
    simp only [mfm_fetch_loop, e]
    rw [ih _ _ (fun i h1 h2 => h i (by omega) (by omega))]

theorem mfm_fetch_byte_window (pre w R : List Nat) (hw : 16 ≤ w.length) :
    mfm_fetch_byte (pre ++ (w ++ R)) pre.length =
      ((mfm_fetch_byte w 0).1, pre.length + (mfm_fetch_byte w 0).2.1,
        (mfm_fetch_byte w 0).2.2) := by
  have h := mfm_fetch_byte_drop (pre ++ (w ++ R)) pre.length 0
  rw [Nat.add_zero, List.drop_left] at h
  rw [h]
  have e : mfm_fetch_byte (w ++ R) 0 = mfm_fetch_byte w 0 := by
    simp only [mfm_fetch_byte]
    rw [mfm_fetch_loop_congr (w ++ R) w 8 0 0
      (fun i _ h2 => List.getD_append _ _ _ _ (by omega))]
  rw [e]

theorem mfm_fetch_byte_encode : ∀ B < 256, ∀ p : Bool,
    mfm_fetch_byte (cell_vals (mfm_encode_byte p B)) 0 = (B, 16, []) := by
  set_option maxRecDepth 1000000 in decide

theorem mfm_encode_bits_length (p : Bool) (bits : List Bool) :
    (mfm_encode_bits p bits).length = 2 * bits.length := by
  induction bits generalizing p with
  | nil => rfl
  | cons b bs ih => simp [mfm_encode_bits, ih]; omega

theorem mfm_item_cells_length (p : Bool) (it : MfmItem) : (mfm_item_cells p it).length = 16 := by
  cases it with
  | plain b => simp [mfm_item_cells, mfm_encode_byte, mfm_encode_bits_length, byte_bits]
  | sync => simp [mfm_item_cells, mfm_encode_byte, mfm_encode_bits_length, byte_bits]

theorem mfm_cells_length (p : Bool) (items : List MfmItem) :
    (mfm_cells p items).length = 16 * items.length := by
  induction items generalizing p with
  | nil => rfl
  | cons it r ih => simp [mfm_cells, mfm_item_cells_length, ih]; omega

theorem mfm_cells_append (p : Bool) (A B : List MfmItem) :
    mfm_cells p (A ++ B) = mfm_cells p A ++ mfm_cells (mfm_last p A) B := by
  induction A generalizing p with
  | nil => rfl
  | cons a A ih =>
    show mfm_item_cells p a ++ mfm_cells (a.byte.testBit 0) (A ++ B) =
      (mfm_item_cells p a ++ mfm_cells (a.byte.testBit 0) A) ++
        mfm_cells (mfm_last (a.byte.testBit 0) A) B
    rw [ih, List.append_assoc]

theorem mfm_fetch_byte_item (p : Bool) (it : MfmItem) (h : mfm_item_ok it) :
    mfm_fetch_byte (cell_vals (mfm_item_cells p it)) 0 = (it.byte, 16, []) := by
  cases it with
  | plain b => exact mfm_fetch_byte_encode b h p
  | sync => cases p <;> rfl

theorem mfm_fetch_bytes_items (items : List MfmItem) (h : ∀ it ∈ items, mfm_item_ok it)
    (p : Bool) (pre R : List Nat) :
    mfm_fetch_bytes (pre ++ (cell_vals (mfm_cells p items) ++ R)) pre.length items.length =
      (items.map MfmItem.byte, pre.length + 16 * items.length, []) := by
  induction items generalizing p pre with
  | nil => rfl
  | cons it r ih =>
    have e1 : pre ++ (cell_vals (mfm_cells p (it :: r)) ++ R) =
        pre ++ (cell_vals (mfm_item_cells p it) ++
          (cell_vals (mfm_cells (it.byte.testBit 0) r) ++ R)) := by
      simp [mfm_cells, cell_vals]
    have e2 : pre ++ (cell_vals (mfm_item_cells p it) ++
          (cell_vals (mfm_cells (it.byte.testBit 0) r) ++ R)) =
        (pre ++ cell_vals (mfm_item_cells p it)) ++
          (cell_vals (mfm_cells (it.byte.testBit 0) r) ++ R) := by
      simp
    have hl : (pre ++ cell_vals (mfm_item_cells p it)).length = pre.length + 16 := by
      simp [cell_vals, mfm_item_cells_length]
    rw [List.length_cons, mfm_fetch_bytes, e1, mfm_fetch_byte_window _ _ _
      (by simp [cell_vals, mfm_item_cells_length]),
      mfm_fetch_byte_item p it (h it (List.mem_cons_self _ _))]
    simp only
    rw [e2, ← hl, ih (fun x hx => h x (List.mem_cons_of_mem _ hx)), hl]
    simp
    omega

theorem mfm_fetch_loop_pos (buf : List Nat) (k a p : Nat) :
    (mfm_fetch_loop buf k a p).2.1 = p + 2 * k := by
  induction k generalizing a p with
  | zero => rfl
  | succ k ih => simp only [mfm_fetch_loop, ih]; omega

theorem mfm_fetch_byte_pos (buf : List Nat) (p : Nat) :
    (mfm_fetch_byte buf p).2.1 = p + 16 := by
  simp only [mfm_fetch_byte, mfm_fetch_loop_pos]

theorem mfm_fetch_byte_congr (b1 b2 : List Nat) (p : Nat)
    (h : ∀ i, p ≤ i → i < p + 16 → b1.getD i 0 = b2.getD i 0) :
    mfm_fetch_byte b1 p = mfm_fetch_byte b2 p := by
  simp only [mfm_fetch_byte]
  rw [mfm_fetch_loop_congr b1 b2 8 0 p (fun i h1 h2 => h i h1 (by omega))]

theorem mfm_fetch_bytes_congr (b1 b2 : List Nat) (p count : Nat)
    (h : ∀ i, p ≤ i → i < p + 16 * count → b1.getD i 0 = b2.getD i 0) :
    mfm_fetch_bytes b1 p count = mfm_fetch_bytes b2 p count := by
  induction count generalizing p with
  | zero => rfl
  | succ count ih =>
    simp only [mfm_fetch_bytes]
    rw [mfm_fetch_byte_congr b1 b2 p (fun i h1 h2 => h i h1 (by omega))]
    rw [ih _ (fun i h1 h2 => h i (by rw [mfm_fetch_byte_pos] at h1; omega)
      (by rw [mfm_fetch_byte_pos] at h2; omega))]

theorem mfm_quiet_append (w R : List Nat) (hw : 32 ≤ w.length) :
    mfm_quiet (w ++ R) = mfm_quiet w := by
  simp only [mfm_quiet]
  rw [mfm_fetch_bytes_congr (w ++ R) w 0 2 (fun i _ h2 => List.getD_append _ _ _ _ (by omega))]

theorem mfm_quiet_all_succ (n : Nat) (x : Nat) (w : List Nat) :
    mfm_quiet_all (n + 1) (x :: w) = (mfm_quiet (x :: w) && mfm_quiet_all n w) := by
  simp only [mfm_quiet_all, List.range_succ_eq_map, List.all_cons, List.all_map, List.drop_zero]
  rfl

theorem mfm_mark_quiet (s : List Nat) (g : Globals) (h : mfm_quiet s = true) :
    (mfm_mark s 0 g).1 = 1 ∧ (mfm_mark s 0 g).2.2.1 = g := by
  have e2 : (mfm_fetch_bytes s 0 2).1 =
      [(mfm_fetch_byte s 0).1, (mfm_fetch_byte s (mfm_fetch_byte s 0).2.1).1] := rfl
  have e : (mfm_fetch_bytes s 0 4).1 =
      (mfm_fetch_byte s 0).1 :: (mfm_fetch_byte s (mfm_fetch_byte s 0).2.1).1 ::
        (mfm_fetch_bytes s (mfm_fetch_byte s (mfm_fetch_byte s 0).2.1).2.1 2).1 := rfl
  simp only [mfm_quiet, e2, Bool.and_eq_true, bne_iff_ne, ne_eq, List.cons.injEq, and_true,
    not_and_or] at h
  generalize (mfm_fetch_byte s 0).1 = x at *
  generalize (mfm_fetch_byte s (mfm_fetch_byte s 0).2.1).1 = y at *
  generalize (mfm_fetch_bytes s (mfm_fetch_byte s (mfm_fetch_byte s 0).2.1).2.1 2).1 = r at *
  have hA : ∀ z, mark_match (x :: y :: r) 0 [0xA1, 0xA1, 0xA1, z] 4 = false := by
    intro z
    rcases h.1 with h1 | h1
    · exact mark_match_false _ 0 _ _ 0 (by decide) (by simpa using h1)
    · exact mark_match_false _ 0 _ _ 1 (by decide) (by simpa using h1)
  have h1 : mark_match (x :: y :: r) 0 MFM_indx_mark 4 = false := by
    rcases h.2 with h1 | h1
    · exact mark_match_false _ 0 _ _ 0 (by decide) (by simpa [MFM_indx_mark] using h1)
    · exact mark_match_false _ 0 _ _ 1 (by decide) (by simpa [MFM_indx_mark] using h1)
  have h2 : mark_match (x :: y :: r) 0 MFM_addr_mark 4 = false := hA _
  have h3 : mark_match (x :: y :: r) 0 MFM_data_mark 4 = false := hA _
  have h4 : mark_match (x :: y :: r) 0 MFM_deld_mark 4 = false := hA _
  simp [mfm_mark, e, h1, h2, h3, h4]

theorem mfm_run_skip (s : List Nat) (rem : Nat) (g : Globals) (h : mfm_quiet s = true) :
    (mfm_run s rem g).1 = (mfm_run (s.drop 1) (rem - 1) g).1 := by
  cases rem with
  | zero => rfl
  | succ r =>
    have hm := mfm_mark_quiet s g h
    rw [mfm_run_step s (r + 1) g (by omega), hm.1, hm.2]

theorem mfm_skip_block (blk next T : List Nat) (hn : 31 ≤ next.length)
    (hq : mfm_quiet_all blk.length (blk ++ next) = true) (rem : Nat) (g : Globals) :
    (mfm_run (blk ++ (next ++ T)) rem g).1 = (mfm_run (next ++ T) (rem - blk.length) g).1 := by
  induction blk generalizing rem with
  | nil => rfl
  | cons x blk ih =>
    rw [List.length_cons, List.cons_append, mfm_quiet_all_succ, Bool.and_eq_true] at hq
    have hq0 : mfm_quiet ((x :: blk) ++ (next ++ T)) = true := by
      rw [← List.append_assoc, mfm_quiet_append _ _ (by simp; omega)]
      exact hq.1
    rw [mfm_run_skip _ _ _ hq0, List.cons_append, List.drop_succ_cons, List.drop_zero, ih hq.2]
    have e : rem - 1 - blk.length = rem - (x :: blk).length := by
      simp only [List.length_cons]; omega
    rw [e]

theorem mfm_skip_blocks (blk N T : List Nat) (m : Nat) (hb : blk.length = 16)
    (hN : 31 ≤ N.length) (hq3 : mfm_quiet_all 16 (blk ++ (blk ++ blk)) = true)
    (hq2 : mfm_quiet_all 16 (blk ++ (blk ++ N)) = true)
    (hq1 : mfm_quiet_all 16 (blk ++ N) = true) (rem : Nat) (g : Globals) :
    (mfm_run ((List.replicate m blk).flatten ++ (N ++ T)) rem g).1 =
      (mfm_run (N ++ T) (rem - 16 * m) g).1 := by
  induction m generalizing rem with
  | zero => rfl
  | succ m ih =>
    rw [List.replicate_succ, List.flatten_cons, List.append_assoc]
    rcases m with _ | _ | m
    · simp only [List.replicate_zero, List.flatten_nil, List.nil_append]
      rw [mfm_skip_block blk N T hN (by rw [hb]; exact hq1), hb]
    · have e : (List.replicate 1 blk).flatten ++ (N ++ T) = (blk ++ N) ++ T := by
        simp [List.replicate_succ]
      rw [e, mfm_skip_block blk (blk ++ N) T (by simp; omega) (by rw [hb]; exact hq2), ← e, ih,
        hb]
      have e2 : rem - 16 - 16 * (0 + 1) = rem - 16 * (0 + 1 + 1) := by omega
      rw [e2]
    · have e : (List.replicate (m + 1 + 1) blk).flatten ++ (N ++ T) =
          (blk ++ blk) ++ ((List.replicate m blk).flatten ++ (N ++ T)) := by
        simp [List.replicate_succ]
      rw [e, mfm_skip_block blk (blk ++ blk) _ (by simp; omega) (by rw [hb]; exact hq3), ← e,
        ih, hb]
      have e2 : rem - 16 - 16 * (m + 1 + 1) = rem - 16 * (m + 1 + 1 + 1) := by omega
      rw [e2]

theorem mfm_plain_ok (bs : List Nat) (h : ∀ b ∈ bs, b < 256) :
    ∀ it ∈ mfm_plain bs, mfm_item_ok it := by
  intro it hit
  simp only [mfm_plain, List.mem_map] at hit
  obtain ⟨b, hb, rfl⟩ := hit
  exact h b hb

theorem mfm_plain_byte (bs : List Nat) : (mfm_plain bs).map MfmItem.byte = bs := by
  induction bs with
  | nil => rfl
  | cons b bs ih =>
    simp only [mfm_plain, List.map_cons] at ih ⊢
    rw [ih]
    rfl

theorem cell_vals_append (A B : List Bool) : cell_vals (A ++ B) = cell_vals A ++ cell_vals B := by
  simp [cell_vals]

theorem mfm_fetch_bytes_prefix (A B : List MfmItem) (hA : ∀ it ∈ A, mfm_item_ok it)
    (p : Bool) (X : List Nat) :
    mfm_fetch_bytes (cell_vals (mfm_cells p (A ++ B)) ++ X) 0 A.length =
      (A.map MfmItem.byte, 16 * A.length, []) := by
  have h := mfm_fetch_bytes_items A hA p [] (cell_vals (mfm_cells (mfm_last p A) B) ++ X)
  simp only [List.nil_append, List.length_nil, Nat.zero_add] at h
  rw [mfm_cells_append, cell_vals_append, List.append_assoc, h]

theorem mfm_addr_items_ok (t s c : Nat) (ht : t < 77) (hs : s < 33) (hc : c < 4) :
    ∀ it ∈ mfm_addr_items t s c, mfm_item_ok it := by
  intro it hit
  simp only [mfm_addr_items, List.mem_append] at hit
  rcases hit with hit | hit
  · simp only [List.mem_cons, List.mem_singleton, List.not_mem_nil, or_false, or_self] at hit
    subst hit
    trivial
  · refine mfm_plain_ok _ ?_ it hit
    intro b hb
    rw [List.mem_append] at hb
    rcases hb with hb | hb
    · simp only [List.mem_cons, List.mem_singleton, List.not_mem_nil, or_false] at hb
      rcases hb with rfl | rfl | rfl | rfl | rfl <;> omega
    · exact crc_bytes_lt _ b hb

theorem mfm_data_items_ok (D : List Nat) (hD : ∀ b ∈ D, b < 256) :
    ∀ it ∈ mfm_data_items D, mfm_item_ok it := by
  intro it hit
  simp only [mfm_data_items, List.mem_append] at hit
  rcases hit with hit | hit
  · simp only [List.mem_cons, List.mem_singleton, List.not_mem_nil, or_false, or_self] at hit
    subst hit
    trivial
  · refine mfm_plain_ok _ ?_ it hit
    intro b hb
    rw [List.cons_append, List.mem_cons, List.mem_append] at hb
    rcases hb with rfl | hb | hb
    · decide
    · exact hD b hb
    · exact crc_bytes_lt _ b hb

theorem mfm_mark_addr (p : Bool) (t s c : Nat) (ht : t < 77) (hs : s < 33) (hc : c < 4)
    (X : List Nat) (g : Globals) :
    mfm_mark (cell_vals (mfm_cells p (mfm_addr_items t s c)) ++ X) 0 g =
      (160, (160, 65),
        { g with Last_track := t, Last_side := 0, Last_sector := s, Last_size := 128 <<< c },
        []) := by
  have hok := mfm_addr_items_ok t s c ht hs hc
  have e4 : mfm_addr_items t s c =
      [MfmItem.sync, MfmItem.sync, MfmItem.sync, MfmItem.plain 0xFE] ++
        mfm_plain ([t, 0, s, c] ++ crc_bytes [0xA1, 0xA1, 0xA1, 0xFE, t, 0, s, c]) := rfl
  have h4 := mfm_fetch_bytes_prefix
    [MfmItem.sync, MfmItem.sync, MfmItem.sync, MfmItem.plain 0xFE]
    (mfm_plain ([t, 0, s, c] ++ crc_bytes [0xA1, 0xA1, 0xA1, 0xFE, t, 0, s, c]))
    (fun it hit => hok it (by rw [e4]; exact List.mem_append_left _ hit)) p X
  rw [← e4] at h4
  have h10 := mfm_fetch_bytes_prefix (mfm_addr_items t s c) [] hok p X
  rw [List.append_nil] at h10
  have hl : (mfm_addr_items t s c).length = 10 := rfl
  have hbytes : (mfm_addr_items t s c).map MfmItem.byte =
      [0xA1, 0xA1, 0xA1, 0xFE, t, 0, s, c] ++ crc_bytes [0xA1, 0xA1, 0xA1, 0xFE, t, 0, s, c] := rfl
  rw [hl, hbytes] at h10
  have hcrc : crc16 ([0xA1, 0xA1, 0xA1, 0xFE, t, 0, s, c] ++
      crc_bytes [0xA1, 0xA1, 0xA1, 0xFE, t, 0, s, c]) 10 = 0 :=
    crc16_frame _ 10 rfl
  have hva : mfm_valid_addr (cell_vals (mfm_cells p (mfm_addr_items t s c)) ++ X) 0 g =
      (160, { g with Last_track := t, Last_side := 0, Last_sector := s,
                     Last_size := 128 <<< c }, []) := by
    unfold mfm_valid_addr
    rw [h10]
    simp only [hcrc]
    simp [NTRACKS, NSIDES, NSECTORS, NSIZES, Nat.not_le.2 ht, Nat.not_le.2 hs, Nat.not_le.2 hc]
  have m1 : mark_match [0xA1, 0xA1, 0xA1, 0xFE] 0 MFM_indx_mark 4 = false := by decide
  have m2 : mark_match [0xA1, 0xA1, 0xA1, 0xFE] 0 MFM_addr_mark 4 = true := by decide
  simp only [mfm_mark, mfm_addr, hva]
  simp only [List.length_cons, List.length_nil, List.map_cons, List.map_nil, MfmItem.byte] at h4
  rw [h4]
  simp [m1, m2]

theorem mfm_mark_data (p : Bool) (D : List Nat) (hD : ∀ b ∈ D, b < 256)
    (hmax : D.length ≤ 1024) (X : List Nat) (g : Globals) (hg : g.Last_size = D.length) :
    mfm_mark (cell_vals (mfm_cells p (mfm_data_items D)) ++ X) 0 g =
      (16 * (D.length + 6), (16 * (D.length + 6), 68),
        sector_none { g with disk :=
          (disk_add g.disk g.Last_track g.Last_side g.Last_sector D.length (some D)).1 },
        (disk_add g.disk g.Last_track g.Last_side g.Last_sector D.length (some D)).2) := by
  have hok := mfm_data_items_ok D hD
  have e4 : mfm_data_items D =
      [MfmItem.sync, MfmItem.sync, MfmItem.sync, MfmItem.plain 0xFB] ++
        mfm_plain (D ++ crc_bytes ([0xA1, 0xA1, 0xA1, 0xFB] ++ D)) := rfl
  have h4 := mfm_fetch_bytes_prefix
    [MfmItem.sync, MfmItem.sync, MfmItem.sync, MfmItem.plain 0xFB]
    (mfm_plain (D ++ crc_bytes ([0xA1, 0xA1, 0xA1, 0xFB] ++ D)))
    (fun it hit => hok it (by rw [e4]; exact List.mem_append_left _ hit)) p X
  rw [← e4] at h4
  have hall := mfm_fetch_bytes_prefix (mfm_data_items D) [] hok p X
  rw [List.append_nil] at hall
  have hl : (mfm_data_items D).length = 4 + D.length + 2 := by
    simp [mfm_data_items, mfm_plain, crc_bytes]; omega
  have hbytes : (mfm_data_items D).map MfmItem.byte =
      ([0xA1, 0xA1, 0xA1, 0xFB] ++ D) ++ crc_bytes ([0xA1, 0xA1, 0xA1, 0xFB] ++ D) := by
    rw [e4, List.map_append, mfm_plain_byte]
    rfl
  rw [hl, hbytes] at hall
  have hcrc : crc16 (([0xA1, 0xA1, 0xA1, 0xFB] ++ D) ++
      crc_bytes ([0xA1, 0xA1, 0xA1, 0xFB] ++ D)) (4 + D.length + 2) = 0 :=
    crc16_frame _ _ (by simp; omega)
  have hvd : mfm_valid_data (cell_vals (mfm_cells p (mfm_data_items D)) ++ X) 0 D.length =
      (16 * (D.length + 6), D, []) := by
    unfold mfm_valid_data
    rw [if_neg (by simp only [MAX_SSIZE]; omega), hall]
    simp only [hcrc]
    simp
    omega
  have m1 : mark_match [0xA1, 0xA1, 0xA1, 0xFB] 0 MFM_indx_mark 4 = false := by decide
  have m2 : mark_match [0xA1, 0xA1, 0xA1, 0xFB] 0 MFM_addr_mark 4 = false := by decide
  have m3 : mark_match [0xA1, 0xA1, 0xA1, 0xFB] 0 MFM_data_mark 4 = true := by decide
  simp only [mfm_mark, mfm_data, hg, hvd]
  simp only [List.length_cons, List.length_nil, List.map_cons, List.map_nil, MfmItem.byte] at h4
  rw [h4]
  simp [m1, m2, m3]

theorem mfm_expand_ticks (k : Nat) (h1 : 2 ≤ k) (h2 : k ≤ 4) :
    mfm_expand MFM_SPLIT_LO MFM_SPLIT_HI (k * TWO_US / 2) = rll_lead k := by
  have : k = 2 ∨ k = 3 ∨ k = 4 := by omega
  rcases this with rfl | rfl | rfl <;> decide

theorem rll_of_cells (cells : List Bool) (k : Nat) (hk : 1 ≤ k) (hok : rll_ok k cells = true) :
    mfm_rll cells k ++ rll_lead (cell_carry k cells) = rll_lead k ++ cell_vals cells := by
  induction cells generalizing k with
  | nil => simp [mfm_rll, flux_from, cell_carry, cell_vals]
  | cons b r ih =>
    cases b
    · simp only [rll_ok] at hok
      have := ih (k + 1) (by omega) hok
      simp only [mfm_rll, flux_from, cell_carry] at this ⊢
      rw [this]
      obtain ⟨j, rfl⟩ : ∃ j, k = j + 1 := ⟨k - 1, by omega⟩
      simp [rll_lead, cell_vals, List.replicate_succ']
    · simp only [rll_ok, Bool.and_eq_true, decide_eq_true_eq] at hok
      have := ih 1 (Nat.le_refl 1) hok.2
      simp only [mfm_rll, flux_from, cell_carry, List.map_cons, List.flatMap_cons] at this ⊢
      rw [mfm_expand_ticks k hok.1.1 hok.1.2, List.append_assoc, this]
      simp [rll_lead, cell_vals]

theorem rll_ok_append (k : Nat) (A B : List Bool) :
    rll_ok k (A ++ B) = (rll_ok k A && rll_ok (cell_carry k A) B) := by
  induction A generalizing k with
  | nil => simp [rll_ok, cell_carry]
  | cons a A ih =>
    cases a
    · simp only [List.cons_append, rll_ok, cell_carry, List.append_eq, ih]
    · simp only [List.cons_append, rll_ok, cell_carry, List.append_eq, ih, Bool.and_assoc]

theorem cell_carry_append (k : Nat) (A B : List Bool) :
    cell_carry k (A ++ B) = cell_carry (cell_carry k A) B := by
  induction A generalizing k with
  | nil => rfl
  | cons a A ih =>
    cases a
    · simp only [List.cons_append, cell_carry, List.append_eq, ih]
    · simp only [List.cons_append, cell_carry, List.append_eq, ih]

theorem rll_ok_bits (bits : List Bool) (p : Bool) (k : Nat) (h : st_ok p k) :
    rll_ok k (mfm_encode_bits p bits) = true ∧
      st_ok (last_bit p bits) (cell_carry k (mfm_encode_bits p bits)) := by
  induction bits generalizing p k with
  | nil => exact ⟨rfl, h⟩
  | cons b bs ih =>
    rcases h with ⟨rfl, rfl⟩ | ⟨rfl, rfl | rfl⟩ <;> cases b <;>
      simp only [mfm_encode_bits, rll_ok, cell_carry, last_bit, Bool.not_true, Bool.not_false,
        Bool.and_true, Bool.and_false, Bool.false_and, Bool.true_and] <;>
      first
      | exact ih _ _ (Or.inr ⟨rfl, Or.inr rfl⟩)
      | exact ih _ _ (Or.inr ⟨rfl, Or.inl rfl⟩)
      | exact ih _ _ (Or.inl ⟨rfl, rfl⟩)

theorem rll_ok_item (it : MfmItem) (p : Bool) (k : Nat) (h : st_ok p k) :
    rll_ok k (mfm_item_cells p it) = true ∧
      st_ok (it.byte.testBit 0) (cell_carry k (mfm_item_cells p it)) := by
  cases it with
  | plain b => exact rll_ok_bits (byte_bits b) p k h
  | sync =>
    rcases h with ⟨rfl, rfl⟩ | ⟨rfl, rfl | rfl⟩
    · exact ⟨by decide, Or.inl ⟨by decide, by decide⟩⟩
    · exact ⟨by decide, Or.inl ⟨by decide, by decide⟩⟩
    · exact ⟨by decide, Or.inl ⟨by decide, by decide⟩⟩

theorem rll_ok_items (items : List MfmItem) (p : Bool) (k : Nat) (h : st_ok p k) :
    rll_ok k (mfm_cells p items) = true ∧
      st_ok (mfm_last p items) (cell_carry k (mfm_cells p items)) := by
  induction items generalizing p k with
  | nil => exact ⟨rfl, h⟩
  | cons it r ih =>
    have h1 := rll_ok_item it p k h
    have h2 := ih _ _ h1.2
    simp only [mfm_cells, mfm_last, rll_ok_append, cell_carry_append, h1.1, h2.1, Bool.and_self]
    exact ⟨trivial, h2.2⟩

theorem mfm_skip_lead (blk0 blk N T : List Nat) (m : Nat) (hb : blk.length = 16)
    (hN : 31 ≤ N.length)
    (h03 : mfm_quiet_all blk0.length (blk0 ++ (blk ++ blk)) = true)
    (h02 : mfm_quiet_all blk0.length (blk0 ++ (blk ++ N)) = true)
    (h01 : mfm_quiet_all blk0.length (blk0 ++ N) = true)
    (hq3 : mfm_quiet_all 16 (blk ++ (blk ++ blk)) = true)
    (hq2 : mfm_quiet_all 16 (blk ++ (blk ++ N)) = true)
    (hq1 : mfm_quiet_all 16 (blk ++ N) = true) (rem : Nat) (g : Globals) :
    (mfm_run (blk0 ++ ((List.replicate m blk).flatten ++ (N ++ T))) rem g).1 =
      (mfm_run (N ++ T) (rem - (blk0.length + 16 * m)) g).1 := by
  have hs := mfm_skip_blocks blk N T m hb hN hq3 hq2 hq1
  rcases m with _ | _ | m
  · simp only [List.replicate_zero, List.flatten_nil, List.nil_append]
    rw [mfm_skip_block blk0 N T hN h01]
    rfl
  · have e : (List.replicate 1 blk).flatten ++ (N ++ T) = (blk ++ N) ++ T := by
      simp [List.replicate_succ]
    rw [e, mfm_skip_block blk0 (blk ++ N) T (by simp; omega) h02, ← e, hs]
    have e2 : rem - blk0.length - 16 * (0 + 1) = rem - (blk0.length + 16 * (0 + 1)) := by omega
    rw [e2]
  · have e : (List.replicate (m + 1 + 1) blk).flatten ++ (N ++ T) =
        (blk ++ blk) ++ ((List.replicate m blk).flatten ++ (N ++ T)) := by
      simp [List.replicate_succ]
    rw [e, mfm_skip_block blk0 (blk ++ blk) _ (by simp; omega) h03, ← e, hs]
    have e2 : rem - blk0.length - 16 * (m + 1 + 1) = rem - (blk0.length + 16 * (m + 1 + 1)) := by
      omega
    rw [e2]

set_option maxRecDepth 100000 in
theorem quiet_4E_3 : mfm_quiet_all 16 (c4E ++ (c4E ++ c4E)) = true := by decide

set_option maxRecDepth 100000 in
theorem quiet_4E_2 : mfm_quiet_all 16 (c4E ++ (c4E ++ (c00 ++ c00))) = true := by decide

set_option maxRecDepth 100000 in
theorem quiet_4E_1 : mfm_quiet_all 16 (c4E ++ (c00 ++ c00)) = true := by decide

set_option maxRecDepth 100000 in
theorem quiet_00_3 : mfm_quiet_all 16 (c00 ++ (c00 ++ c00)) = true := by decide

set_option maxRecDepth 100000 in
theorem quiet_00_2 : mfm_quiet_all 16 (c00 ++ (c00 ++ (cSync ++ cSync))) = true := by decide

set_option maxRecDepth 100000 in
theorem quiet_00_1 : mfm_quiet_all 16 (c00 ++ (cSync ++ cSync)) = true := by decide

set_option maxRecDepth 100000 in
theorem quiet_lead_3 (x : Nat) (hx : x = 0 ∨ x = 1) :
    mfm_quiet_all 16 ((x :: t4E) ++ (c4E ++ c4E)) = true := by
  rcases hx with rfl | rfl <;> decide

set_option maxRecDepth 100000 in
theorem quiet_lead_2 (x : Nat) (hx : x = 0 ∨ x = 1) :
    mfm_quiet_all 16 ((x :: t4E) ++ (c4E ++ (c00 ++ c00))) = true := by
  rcases hx with rfl | rfl <;> decide

set_option maxRecDepth 100000 in
theorem quiet_lead_1 (x : Nat) (hx : x = 0 ∨ x = 1) :
    mfm_quiet_all 16 ((x :: t4E) ++ (c00 ++ c00)) = true := by
  rcases hx with rfl | rfl <;> decide

set_option maxRecDepth 100000 in
theorem quiet_4E_end_2 :
    mfm_quiet_all 16 (c4E ++ (c4E ++ (e4E ++ List.replicate 18 0))) = true := by decide

set_option maxRecDepth 100000 in
theorem quiet_4E_end_1 : mfm_quiet_all 16 (c4E ++ (e4E ++ List.replicate 18 0)) = true := by
  decide

set_option maxRecDepth 100000 in
theorem quiet_lead_end_2 (x : Nat) (hx : x = 0 ∨ x = 1) :
    mfm_quiet_all 16 ((x :: t4E) ++ (c4E ++ (e4E ++ List.replicate 18 0))) = true := by
  rcases hx with rfl | rfl <;> decide

set_option maxRecDepth 100000 in
theorem quiet_lead_end_1 (x : Nat) (hx : x = 0 ∨ x = 1) :
    mfm_quiet_all 16 ((x :: t4E) ++ (e4E ++ List.replicate 18 0)) = true := by
  rcases hx with rfl | rfl <;> decide

set_option maxRecDepth 100000 in
theorem quiet_end : mfm_quiet_all 13 (e4E ++ List.replicate 31 0) = true := by decide

set_option maxRecDepth 100000 in
theorem quiet_short_end (x : Nat) (hx : x = 0 ∨ x = 1) :
    mfm_quiet_all 13 ((x :: u4E) ++ List.replicate 31 0) = true := by
  rcases hx with rfl | rfl <;> decide

theorem c00_two (m : Nat) (Y : List Nat) :
    (List.replicate (m + 2) c00).flatten ++ Y =
      (c00 ++ c00) ++ ((List.replicate m c00).flatten ++ Y) := by
  simp [List.replicate_succ]

theorem mfm_skip_sync (Y : List Nat) (rem : Nat) (g : Globals) :
    (mfm_run ((List.replicate 12 c00).flatten ++ (cSync ++ (cSync ++ Y))) rem g).1 =
      (mfm_run (cSync ++ (cSync ++ Y)) (rem - 192) g).1 := by
  have h := mfm_skip_blocks c00 (cSync ++ cSync) Y 12 rfl (by decide) quiet_00_3 quiet_00_2
    quiet_00_1 rem g
  rw [List.append_assoc] at h
  exact h

theorem mfm_skip_gap (m : Nat) (Y : List Nat) (rem : Nat) (g : Globals) :
    (mfm_run ((List.replicate m c4E).flatten ++
        ((List.replicate 12 c00).flatten ++ (cSync ++ (cSync ++ Y)))) rem g).1 =
      (mfm_run (cSync ++ (cSync ++ Y)) (rem - (16 * m + 192)) g).1 := by
  have h := mfm_skip_blocks c4E (c00 ++ c00)
    ((List.replicate 10 c00).flatten ++ (cSync ++ (cSync ++ Y))) m rfl (by decide) quiet_4E_3
    quiet_4E_2 quiet_4E_1 rem g
  rw [← c00_two 10] at h
  rw [h, mfm_skip_sync]
  have e : rem - 16 * m - 192 = rem - (16 * m + 192) := by omega
  rw [e]

theorem mfm_skip_lead_gap (x : Nat) (hx : x = 0 ∨ x = 1) (m : Nat) (Y : List Nat) (rem : Nat)
    (g : Globals) :
    (mfm_run ((x :: t4E) ++ ((List.replicate m c4E).flatten ++
        ((List.replicate 12 c00).flatten ++ (cSync ++ (cSync ++ Y))))) rem g).1 =
      (mfm_run (cSync ++ (cSync ++ Y)) (rem - (16 + 16 * m + 192)) g).1 := by
  have h := mfm_skip_lead (x :: t4E) c4E (c00 ++ c00)
    ((List.replicate 10 c00).flatten ++ (cSync ++ (cSync ++ Y))) m rfl (by decide)
    (quiet_lead_3 x hx) (quiet_lead_2 x hx) (quiet_lead_1 x hx) quiet_4E_3 quiet_4E_2
    quiet_4E_1 rem g
  rw [← c00_two 10] at h
  rw [h, mfm_skip_sync]
  have e : rem - ((x :: t4E).length + 16 * m) - 192 = rem - (16 + 16 * m + 192) := by
    simp [t4E]; omega
  rw [e]

theorem mfm_skip_final_short (x : Nat) (hx : x = 0 ∨ x = 1) (n : Nat) (g : Globals) :
    (mfm_run ((x :: u4E) ++ List.replicate (n + 31) 0) 13 g).1 = g := by
  have e : List.replicate (n + 31) 0 = List.replicate 31 0 ++ List.replicate n 0 := by
    rw [← List.replicate_add, Nat.add_comm]
  rw [e, mfm_skip_block (x :: u4E) (List.replicate 31 0) _ (by simp) (quiet_short_end x hx)]
  rfl

theorem mfm_skip_final_long (x : Nat) (hx : x = 0 ∨ x = 1) (m n : Nat) (g : Globals) :
    (mfm_run ((x :: t4E) ++ ((List.replicate m c4E).flatten ++
        (e4E ++ List.replicate (n + 31) 0))) (16 + 16 * m + 13) g).1 = g := by
  have e1 : e4E ++ List.replicate (n + 31) 0 =
      (e4E ++ List.replicate 18 0) ++ List.replicate (n + 13) 0 := by
    rw [List.append_assoc, ← List.replicate_add]
    congr 2
    omega
  have e2 : (e4E ++ List.replicate 18 0) ++ List.replicate (n + 13) 0 =
      e4E ++ (List.replicate 31 0 ++ List.replicate n 0) := by
    rw [List.append_assoc, ← List.replicate_add, ← List.replicate_add]
    congr 2
    omega
  rw [e1, mfm_skip_lead (x :: t4E) c4E (e4E ++ List.replicate 18 0) _ m rfl (by decide)
    (quiet_lead_3 x hx) (quiet_lead_end_2 x hx) (quiet_lead_end_1 x hx) quiet_4E_3
    quiet_4E_end_2 quiet_4E_end_1, e2,
    mfm_skip_block e4E (List.replicate 31 0) _ (by simp) quiet_end]
  have e3 : 16 + 16 * m + 13 - ((x :: t4E).length + 16 * m) - e4E.length = 0 := by
    simp [t4E, e4E]
  rw [e3]
  rfl

theorem mfm_last_plain_even (m B : Nat) (hB : B.testBit 0 = false) :
    mfm_last false (mfm_plain (List.replicate m B)) = false := by
  induction m with
  | zero => rfl
  | succ m ih =>
    simp only [List.replicate_succ, mfm_plain, List.map_cons, mfm_last, MfmItem.byte, hB]
    exact ih

theorem mfm_last_plain_succ (p : Bool) (m B : Nat) (hB : B.testBit 0 = false) :
    mfm_last p (mfm_plain (List.replicate (m + 1) B)) = false := by
  simp only [List.replicate_succ, mfm_plain, List.map_cons, mfm_last, MfmItem.byte, hB]
  exact mfm_last_plain_even m B hB

theorem cells_plain_even (m B : Nat) (hB : B.testBit 0 = false) :
    cell_vals (mfm_cells false (mfm_plain (List.replicate m B))) =
      (List.replicate m (cell_vals (mfm_encode_byte false B))).flatten := by
  induction m with
  | zero => rfl
  | succ m ih =>
    simp only [List.replicate_succ, mfm_plain, List.map_cons, mfm_cells, MfmItem.byte, hB,
      cell_vals_append, List.flatten_cons, mfm_item_cells]
    congr 1

theorem cells_plain_succ (p : Bool) (m B : Nat) (hB : B.testBit 0 = false) :
    cell_vals (mfm_cells p (mfm_plain (List.replicate (m + 1) B))) =
      cell_vals (mfm_encode_byte p B) ++
        (List.replicate m (cell_vals (mfm_encode_byte false B))).flatten := by
  simp only [List.replicate_succ, mfm_plain, List.map_cons, mfm_cells, MfmItem.byte, hB,
    cell_vals_append, mfm_item_cells]
  congr 1
  exact cells_plain_even m B hB

theorem enc_4E (p : Bool) : cell_vals (mfm_encode_byte p 0x4E) = (!p).toNat :: t4E := by
  cases p <;> rfl

theorem enc_4E_false : cell_vals (mfm_encode_byte false 0x4E) = c4E := rfl

theorem enc_00_false : cell_vals (mfm_encode_byte false 0x00) = c00 := rfl

theorem not_toNat (p : Bool) : (!p).toNat = 0 ∨ (!p).toNat = 1 := by
  cases p
  · right; rfl
  · left; rfl

theorem cells_sync2 (p : Bool) (rest : List MfmItem) :
    cell_vals (mfm_cells p (MfmItem.sync :: MfmItem.sync :: rest)) =
      cSync ++ (cSync ++ cell_vals (mfm_cells true rest)) := by
  cases p <;> simp only [mfm_cells, cell_vals_append] <;> rfl

theorem cell_carry_of_vals (cells : List Bool) (k : Nat) (V : List Nat)
    (h : cell_vals cells = V ++ [1, 0, 0]) : cell_carry k cells = 3 := by
  induction cells generalizing k V with
  | nil =>
    exfalso
    have := congrArg List.length h
    simp [cell_vals] at this
  | cons b r ih =>
    cases V with
    | nil =>
      simp only [cell_vals, List.map_cons, List.nil_append, List.cons.injEq] at h
      obtain ⟨hb, hr⟩ := h
      have hr2 : r = [false, false] := by
        match r, hr with
        | [false, false], _ => rfl
        | [], h => simp at h
        | [_], h => simp at h
        | true :: _ :: _, h => simp at h
        | false :: true :: _, h => simp at h
        | false :: false :: _ :: _, h => simp at h
      subst hr2
      cases b
      · simp at hb
      · rfl
    | cons v V =>
      simp only [cell_vals, List.map_cons, List.cons_append, List.cons.injEq] at h
      cases b
      · exact ih _ V h.2
      · exact ih _ V h.2

theorem mfm_rll_eq_vals (cells : List Bool) (V W : List Nat)
    (hhead : cell_vals cells = 1 :: W) (hc : cell_vals cells = V ++ [1, 0, 0])
    (hok : rll_ok 2 cells = true) :
    (mfm_samples cells).flatMap (mfm_expand MFM_SPLIT_LO MFM_SPLIT_HI) = V := by
  cases cells with
  | nil => simp [cell_vals] at hhead
  | cons b r =>
    cases b
    · simp [cell_vals] at hhead
    · have h := rll_of_cells (true :: r) 2 (by decide) hok
      rw [cell_carry_of_vals _ 2 V hc] at h
      have e1 : mfm_rll (true :: r) 2 =
          [1, 0] ++ (mfm_samples (true :: r)).flatMap (mfm_expand MFM_SPLIT_LO MFM_SPLIT_HI) := by
        simp only [mfm_rll, mfm_samples, flux, flux_from, List.map_cons, List.flatMap_cons,
          List.tail_cons]
        rfl
      have e2 : rll_lead 2 ++ cell_vals (true :: r) = [1, 0] ++ (V ++ [1, 0, 0]) := by
        rw [hc]
        rfl
      rw [e1, e2, List.append_assoc] at h
      exact List.append_cancel_right (List.append_cancel_left h)

theorem mfm_track_split (g1 g3 t s c : Nat) (D : List Nat) :
    mfm_track g1 g3 t s c D =
      mfm_plain (List.replicate g1 0x4E) ++ (mfm_plain (List.replicate 12 0x00) ++
      (mfm_addr_items t s c ++ (mfm_plain (List.replicate 22 0x4E) ++
      (mfm_plain (List.replicate 12 0x00) ++ (mfm_data_items D ++
        mfm_plain (List.replicate g3 0x4E)))))) := by
  simp only [mfm_track, mfm_addr_items, mfm_data_items, mfm_plain, List.map_append,
    List.map_cons, List.map_nil, List.append_assoc, List.cons_append, List.nil_append]

theorem mfm_track_vals (g1 g t s c : Nat) (D : List Nat) :
    cell_vals (mfm_cells false (mfm_track g1 (g + 1) t s c D)) =
      (List.replicate g1 c4E).flatten ++ ((List.replicate 12 c00).flatten ++
      (cell_vals (mfm_cells false (mfm_addr_items t s c)) ++
      (((!(mfm_last false (mfm_addr_items t s c))).toNat :: t4E) ++
      ((List.replicate 21 c4E).flatten ++ ((List.replicate 12 c00).flatten ++
      (cell_vals (mfm_cells false (mfm_data_items D)) ++
      (((!(mfm_last false (mfm_data_items D))).toNat :: t4E) ++
        (List.replicate g c4E).flatten))))))) := by
  have h4E : Nat.testBit 0x4E 0 = false := by decide
  have h00 : Nat.testBit 0x00 0 = false := by decide
  rw [mfm_track_split]
  simp only [mfm_cells_append, cell_vals_append, mfm_last_plain_even _ _ h4E,
    mfm_last_plain_even _ _ h00, mfm_last_plain_succ _ 21 _ h4E, cells_plain_even _ _ h4E,
    cells_plain_even _ _ h00, cells_plain_succ _ 21 _ h4E, cells_plain_succ _ g _ h4E, enc_4E,
    enc_4E_false, enc_00_false, List.append_assoc, List.cons_append]
  rfl

theorem mfm_run_mark (s : List Nat) (rem : Nat) (g gn : Globals) (c : Nat) (mk : Nat × Nat)
    (log : List Msg) (hm : mfm_mark s 0 g = (c, mk, gn, log)) (hrem : 0 < rem) :
    (mfm_run s rem g).1 = (mfm_run (s.drop c) (rem - c) gn).1 := by
  rw [mfm_run_step s rem g hrem, hm]

theorem mfm_addr_vals_length (p : Bool) (t s c : Nat) :
    (cell_vals (mfm_cells p (mfm_addr_items t s c))).length = 160 := by
  simp only [cell_vals, List.length_map, mfm_cells_length]
  rfl

theorem mfm_data_vals_length (p : Bool) (D : List Nat) :
    (cell_vals (mfm_cells p (mfm_data_items D))).length = 16 * (D.length + 6) := by
  simp only [cell_vals, List.length_map, mfm_cells_length]
  simp [mfm_data_items, mfm_plain, crc_bytes]

theorem mfm_run_sector (g1 t s c : Nat) (D : List Nat)
    (ht : t < 77) (hs : s < 33) (hc : c < 4)
    (hlen : D.length = 128 <<< c) (hD : ∀ b ∈ D, b < 256) (x : Nat) (hx : x = 0 ∨ x = 1)
    (FP : List Nat) (rem : Nat)
    (hrem : 16 * g1 + 192 + 160 + 16 + 336 + 192 + 16 * (D.length + 6) ≤ rem) :
    (mfm_run ((List.replicate g1 c4E).flatten ++ ((List.replicate 12 c00).flatten ++
      (cell_vals (mfm_cells false (mfm_addr_items t s c)) ++
      ((x :: t4E) ++
      ((List.replicate 21 c4E).flatten ++ ((List.replicate 12 c00).flatten ++
      (cell_vals (mfm_cells false (mfm_data_items D)) ++ FP)))))))
      rem Globals_init).1 =
    (mfm_run FP
      (rem - (16 * g1 + 192 + 160 + 16 + 336 + 192 + 16 * (D.length + 6)))
      ⟨NTRACKS, NSIDES, NSECTORS, 0, Disk_set Disk_empty t s ⟨128 <<< c, some D⟩⟩).1 := by
  have hsz := shift_size c hc
  have hmax : D.length ≤ 1024 := by omega
  have eA : ∀ X, cell_vals (mfm_cells false (mfm_addr_items t s c)) ++ X =
      cSync ++ (cSync ++ (cell_vals (mfm_cells true (MfmItem.sync ::
        mfm_plain ([0xFE, t, 0, s, c] ++ crc_bytes [0xA1, 0xA1, 0xA1, 0xFE, t, 0, s, c]))) ++
        X)) := by
    intro X
    have := cells_sync2 false (MfmItem.sync ::
      mfm_plain ([0xFE, t, 0, s, c] ++ crc_bytes [0xA1, 0xA1, 0xA1, 0xFE, t, 0, s, c]))
    rw [show mfm_addr_items t s c = MfmItem.sync :: MfmItem.sync :: (MfmItem.sync ::
      mfm_plain ([0xFE, t, 0, s, c] ++ crc_bytes [0xA1, 0xA1, 0xA1, 0xFE, t, 0, s, c]))
      from rfl, this, List.append_assoc, List.append_assoc]
  have eD : ∀ X, cell_vals (mfm_cells false (mfm_data_items D)) ++ X =
      cSync ++ (cSync ++ (cell_vals (mfm_cells true (MfmItem.sync ::
        mfm_plain (0xFB :: D ++ crc_bytes ([0xA1, 0xA1, 0xA1, 0xFB] ++ D)))) ++ X)) := by
    intro X
    have := cells_sync2 false (MfmItem.sync ::
      mfm_plain (0xFB :: D ++ crc_bytes ([0xA1, 0xA1, 0xA1, 0xFB] ++ D)))
    rw [show mfm_data_items D = MfmItem.sync :: MfmItem.sync :: (MfmItem.sync ::
      mfm_plain (0xFB :: D ++ crc_bytes ([0xA1, 0xA1, 0xA1, 0xFB] ++ D)))
      from rfl, this, List.append_assoc, List.append_assoc]
  -- leading gap and sync
  rw [eA, mfm_skip_gap, ← eA]
  -- address mark
  rw [mfm_run_mark _ _ _ _ _ _ _ (mfm_mark_addr false t s c ht hs hc _ _) (by omega),
    List.drop_left' (mfm_addr_vals_length false t s c)]
  -- gap and sync before the data mark
  rw [eD, mfm_skip_lead_gap x hx 21, ← eD]
  -- data mark
  have hdata : mfm_mark (cell_vals (mfm_cells false (mfm_data_items D)) ++ FP) 0
      ⟨t, 0, s, 128 <<< c, Globals_init.disk⟩ =
      (16 * (D.length + 6), (16 * (D.length + 6), 68),
        ⟨NTRACKS, NSIDES, NSECTORS, 0, Disk_set Disk_empty t s ⟨128 <<< c, some D⟩⟩, []) := by
    rw [mfm_mark_data false D hD hmax _ _ hlen.symm]
    simp only [sector_none, Globals_init]
    rw [disk_add_first Disk_empty t s D.length D ht hs (hlen ▸ hsz) rfl rfl, hlen]
  rw [mfm_run_mark _ _ _ _ _ _ _ hdata (by omega),
    List.drop_left' (mfm_data_vals_length false D)]
  have e : rem - (16 * g1 + 192) - 160 - (16 + 16 * 21 + 192) - 16 * (D.length + 6) =
      rem - (16 * g1 + 192 + 160 + 16 + 336 + 192 + 16 * (D.length + 6)) := by omega
  rw [e]

theorem gap_head (g1 : Nat) (R : List Nat) :
    ∃ W, (List.replicate g1 c4E).flatten ++ ((List.replicate 12 c00).flatten ++ R) = 1 :: W := by
  cases g1 with
  | zero => exact ⟨_, rfl⟩
  | succ g1 => exact ⟨_, rfl⟩

theorem gap_length (m : Nat) (blk : List Nat) (hb : blk.length = 16) :
    (List.replicate m blk).flatten.length = 16 * m := by
  induction m with
  | zero => rfl
  | succ m ih =>
    rw [List.replicate_succ, List.flatten_cons, List.length_append, ih, hb]
    omega

theorem mfm_run_whole (g1 t s c : Nat) (D : List Nat)
    (ht : t < 77) (hs : s < 33) (hc : c < 4)
    (hlen : D.length = 128 <<< c) (hD : ∀ b ∈ D, b < 256) (x : Nat) (hx : x = 0 ∨ x = 1)
    (F P : List Nat) (hF : ∀ gl, (mfm_run (F ++ P) F.length gl).1 = gl) :
    (mfm_run (((List.replicate g1 c4E).flatten ++ ((List.replicate 12 c00).flatten ++
        (cell_vals (mfm_cells false (mfm_addr_items t s c)) ++
        ((x :: t4E) ++ ((List.replicate 21 c4E).flatten ++ ((List.replicate 12 c00).flatten ++
        (cell_vals (mfm_cells false (mfm_data_items D)) ++ F))))))) ++ P)
      ((List.replicate g1 c4E).flatten ++ ((List.replicate 12 c00).flatten ++
        (cell_vals (mfm_cells false (mfm_addr_items t s c)) ++
        ((x :: t4E) ++ ((List.replicate 21 c4E).flatten ++ ((List.replicate 12 c00).flatten ++
        (cell_vals (mfm_cells false (mfm_data_items D)) ++ F))))))).length Globals_init).1 =
      ⟨NTRACKS, NSIDES, NSECTORS, 0, Disk_set Disk_empty t s ⟨128 <<< c, some D⟩⟩ := by
  have hA := mfm_addr_vals_length false t s c
  have hDm := mfm_data_vals_length false D
  have ht4 : t4E.length = 15 := rfl
  have hl : ((List.replicate g1 c4E).flatten ++ ((List.replicate 12 c00).flatten ++
        (cell_vals (mfm_cells false (mfm_addr_items t s c)) ++
        ((x :: t4E) ++ ((List.replicate 21 c4E).flatten ++ ((List.replicate 12 c00).flatten ++
        (cell_vals (mfm_cells false (mfm_data_items D)) ++ F))))))).length =
      16 * g1 + 192 + 160 + 16 + 336 + 192 + 16 * (D.length + 6) + F.length := by
    simp only [List.length_append, gap_length _ _ (rfl : c4E.length = 16),
      gap_length _ _ (rfl : c00.length = 16), hA, hDm, List.length_cons, ht4]
    omega
  rw [hl]
  simp only [List.append_assoc]
  rw [mfm_run_sector g1 t s c D ht hs hc hlen hD x hx _ _ (by omega)]
  have e : 16 * g1 + 192 + 160 + 16 + 336 + 192 + 16 * (D.length + 6) + F.length -
      (16 * g1 + 192 + 160 + 16 + 336 + 192 + 16 * (D.length + 6)) = F.length := by omega
  rw [e]
  exact hF _

theorem mfm_decode_track_run (g1 g t s c : Nat) (D : List Nat)
    (ht : t < 77) (hs : s < 33) (hc : c < 4)
    (hlen : D.length = 128 <<< c) (hD : ∀ b ∈ D, b < 256) :
    (mfm_decode (mfm_samples (mfm_cells false (mfm_track g1 (g + 1) t s c D)))
        MFM_SPLIT_LO MFM_SPLIT_HI Globals_init).1 =
      ⟨NTRACKS, NSIDES, NSECTORS, 0, Disk_set Disk_empty t s ⟨128 <<< c, some D⟩⟩ := by
  have hok : rll_ok 2 (mfm_cells false (mfm_track g1 (g + 1) t s c D)) = true :=
    (rll_ok_items _ false 2 (Or.inr ⟨rfl, Or.inl rfl⟩)).1
  have hv := mfm_track_vals g1 g t s c D
  have hx := not_toNat (mfm_last false (mfm_addr_items t s c))
  have hy := not_toNat (mfm_last false (mfm_data_items D))
  generalize (!(mfm_last false (mfm_addr_items t s c))).toNat = x at hv hx
  generalize (!(mfm_last false (mfm_data_items D))).toNat = y at hv hy
  obtain ⟨W, hW⟩ := gap_head g1 (cell_vals (mfm_cells false (mfm_addr_items t s c)) ++
      ((x :: t4E) ++ ((List.replicate 21 c4E).flatten ++ ((List.replicate 12 c00).flatten ++
      (cell_vals (mfm_cells false (mfm_data_items D)) ++
      ((y :: t4E) ++ (List.replicate g c4E).flatten))))))
  have hhead : cell_vals (mfm_cells false (mfm_track g1 (g + 1) t s c D)) = 1 :: W := by
    rw [hv, hW]
  have hpad : DECODE_PAD = 16353 + 31 := rfl
  rw [mfm_decode_eq_run, hpad]
  cases g with
  | zero =>
    have hc2 : cell_vals (mfm_cells false (mfm_track g1 (0 + 1) t s c D)) =
        ((List.replicate g1 c4E).flatten ++ ((List.replicate 12 c00).flatten ++
        (cell_vals (mfm_cells false (mfm_addr_items t s c)) ++
        ((x :: t4E) ++ ((List.replicate 21 c4E).flatten ++ ((List.replicate 12 c00).flatten ++
        (cell_vals (mfm_cells false (mfm_data_items D)) ++ (y :: u4E)))))))) ++ [1, 0, 0] := by
      rw [hv]
      simp only [List.replicate_zero, List.flatten_nil, List.append_nil, List.append_assoc]
      rfl
    rw [mfm_rll_eq_vals _ _ W hhead hc2 hok]
    exact mfm_run_whole g1 t s c D ht hs hc hlen hD x hx (y :: u4E) _
      (fun gl => mfm_skip_final_short y hy 16353 gl)
  | succ g =>
    have hc2 : cell_vals (mfm_cells false (mfm_track g1 (g + 1 + 1) t s c D)) =
        ((List.replicate g1 c4E).flatten ++ ((List.replicate 12 c00).flatten ++
        (cell_vals (mfm_cells false (mfm_addr_items t s c)) ++
        ((x :: t4E) ++ ((List.replicate 21 c4E).flatten ++ ((List.replicate 12 c00).flatten ++
        (cell_vals (mfm_cells false (mfm_data_items D)) ++
        ((y :: t4E) ++ ((List.replicate g c4E).flatten ++ e4E))))))))) ++ [1, 0, 0] := by
      rw [hv]
      simp only [List.replicate_succ', List.flatten_append, List.flatten_cons, List.flatten_nil,
        List.append_nil, List.append_assoc]
      rfl
    rw [mfm_rll_eq_vals _ _ W hhead hc2 hok]
    have hFl : ((y :: t4E) ++ ((List.replicate g c4E).flatten ++ e4E)).length =
        16 + 16 * g + 13 := by
      have h1 : t4E.length = 15 := rfl
      have h2 : e4E.length = 13 := rfl
      simp only [List.length_append, gap_length _ _ (rfl : c4E.length = 16), List.length_cons,
        h1, h2]
      omega
    refine mfm_run_whole g1 t s c D ht hs hc hlen hD x hx
      ((y :: t4E) ++ ((List.replicate g c4E).flatten ++ e4E)) _ (fun gl => ?_)
    rw [hFl, List.append_assoc, List.append_assoc]
    exact mfm_skip_final_long y hy g 16353 gl

/-! ## End-to-end decoding and the fetch rules -/

theorem replicate_lt (n v : Nat) (hv : v < 256) : ∀ b ∈ List.replicate n v, b < 256 := by
  intro b hb
  rw [List.eq_of_mem_replicate hb]
  exact hv

/-- C3. End-to-end FM decode: for every track `t < 77`, sector `s < 33`, size code
`c < 4` and data block `D` of `128 << c` bytes, running `fm_decode` with split
`FM_SPLIT` on the flux samples of the FM track image (gaps of `g1`, `g2` and
`g3 ≥ 1` bytes 0xFF), from the empty disk and a cleared header context, leaves an
image whose only present sector is `(t, s)`, of size `128 << c` and data `D`. -/
theorem fm_decode_track (g1 g2 g3 t s c : Nat) (D : List Nat) (hg3 : 1 ≤ g3)
    (ht : t < 77) (hs : s < 33) (hc : c < 4)
    (hlen : D.length = 128 <<< c) (hD : ∀ b ∈ D, b < 256) :
    (fm_decode (fm_samples (fm_cells (fm_track g1 g2 g3 t s c D))) FM_SPLIT
        Globals_init).1.disk t s = ⟨128 <<< c, some D⟩ ∧
    ∀ t' s', ¬ (t' = t ∧ s' = s) →
      (fm_decode (fm_samples (fm_cells (fm_track g1 g2 g3 t s c D))) FM_SPLIT
        Globals_init).1.disk t' s' = ⟨0, none⟩ := by
  obtain ⟨g, rfl⟩ : ∃ g, g3 = g + 1 := ⟨g3 - 1, by omega⟩
  rw [fm_decode_track_run g1 g2 g t s c D ht hs hc hlen hD]
  exact ⟨Disk_set_same _ _ _ _, fun t' s' h => Disk_set_other _ _ _ _ _ _ h⟩

/-- C3, at track 5, sector 3, 128 bytes of 0x00, with the gap lengths 40, 26 and
27 of the layout comment. -/
theorem fm_decode_track_witness :
    (fm_decode (fm_samples (fm_cells (fm_track 40 26 27 5 3 0 (List.replicate 128 0))))
        FM_SPLIT Globals_init).1.disk 5 3 = ⟨128 <<< 0, some (List.replicate 128 0)⟩ ∧
    ∀ t' s', ¬ (t' = 5 ∧ s' = 3) →
      (fm_decode (fm_samples (fm_cells (fm_track 40 26 27 5 3 0 (List.replicate 128 0))))
        FM_SPLIT Globals_init).1.disk t' s' = ⟨0, none⟩ :=
  fm_decode_track 40 26 27 5 3 0 (List.replicate 128 0) (by decide) (by decide) (by decide)
    (by decide) (List.length_replicate _ _) (replicate_lt 128 0 (by decide))

/-- C4. End-to-end MFM decode: for every track `t < 77`, sector `s < 33`, size
code `c < 4` and data block `D` of `128 << c` bytes, running `mfm_decode` with
`MFM_SPLIT_LO` and `MFM_SPLIT_HI` on the flux samples of the MFM track image
(gaps of `g1` and `g3 ≥ 1` bytes 0x4E), from the empty disk and a cleared header
context, leaves an image whose only present sector is `(t, s)`, of size
`128 << c` and data `D`. -/
theorem mfm_decode_track (g1 g3 t s c : Nat) (D : List Nat) (hg3 : 1 ≤ g3)
    (ht : t < 77) (hs : s < 33) (hc : c < 4)
    (hlen : D.length = 128 <<< c) (hD : ∀ b ∈ D, b < 256) :
    (mfm_decode (mfm_samples (mfm_cells false (mfm_track g1 g3 t s c D)))
        MFM_SPLIT_LO MFM_SPLIT_HI Globals_init).1.disk t s = ⟨128 <<< c, some D⟩ ∧
    ∀ t' s', ¬ (t' = t ∧ s' = s) →
      (mfm_decode (mfm_samples (mfm_cells false (mfm_track g1 g3 t s c D)))
        MFM_SPLIT_LO MFM_SPLIT_HI Globals_init).1.disk t' s' = ⟨0, none⟩ := by
  obtain ⟨g, rfl⟩ : ∃ g, g3 = g + 1 := ⟨g3 - 1, by omega⟩
  rw [mfm_decode_track_run g1 g t s c D ht hs hc hlen hD]
  exact ⟨Disk_set_same _ _ _ _, fun t' s' h => Disk_set_other _ _ _ _ _ _ h⟩

/-- C4, at track 10, sector 1, 256 bytes of 0xAA, with the gap lengths 80 and 54
of the layout comment. -/
theorem mfm_decode_track_witness :
    (mfm_decode (mfm_samples (mfm_cells false (mfm_track 80 54 10 1 1
        (List.replicate 256 0xAA)))) MFM_SPLIT_LO MFM_SPLIT_HI Globals_init).1.disk 10 1 =
        ⟨128 <<< 1, some (List.replicate 256 0xAA)⟩ ∧
    ∀ t' s', ¬ (t' = 10 ∧ s' = 1) →
      (mfm_decode (mfm_samples (mfm_cells false (mfm_track 80 54 10 1 1
        (List.replicate 256 0xAA)))) MFM_SPLIT_LO MFM_SPLIT_HI Globals_init).1.disk t' s' =
        ⟨0, none⟩ :=
  mfm_decode_track 80 54 10 1 1 (List.replicate 256 0xAA) (by decide) (by decide) (by decide)
    (by decide) (List.length_replicate _ _) (replicate_lt 256 0xAA (by decide))

/-- C5 as stated fails: fetching at the start of the sixteen interleaved
clock-data bits of the byte 0x00 (all-ones clock) does not return 0x00. -/
theorem fm_fetch_cells_counterexample :
    ¬ ((fm_fetch_byte (cell_vals (fm_cells_byte 0xFF 0x00)) 0).1 = 0x00) := by
  decide

set_option maxRecDepth 100000 in
/-- C5, amended. For every byte `B`, the sixteen interleaved clock-data bits of
`B` (all-ones clock, clock bit first) followed by the next byte's clock bit,
rendered as the stream `fm_decode` builds from the flux intervals (1 for an
interval of one half-cell, 0 for two half-cells), are fetched back as `B` by
`fm_fetch_byte`. -/
theorem fm_fetch_inverts_flux : ∀ B, B < 256 →
    (fm_fetch_byte ((fm_samples (fm_cells_byte 0xFF B ++ [true])).map
      (fun s => if s < FM_SPLIT then 1 else 0)) 0).1 = B := by
  decide

/-- C5 amended, at the byte 0x00. -/
theorem fm_fetch_inverts_flux_witness :
    (fm_fetch_byte ((fm_samples (fm_cells_byte 0xFF 0x00 ++ [true])).map
      (fun s => if s < FM_SPLIT then 1 else 0)) 0).1 = 0x00 :=
  fm_fetch_inverts_flux 0x00 (by decide)

/-- C6. MFM pair rule round trip: for every byte `B` and preceding data bit `d8`,
`mfm_fetch_byte` on the sixteen MFM half-cells of `B` returns `B`, advances
exactly 16 positions and prints no invalid-pair line. -/
theorem mfm_pair_rule (B : Nat) (hB : B < 256) (d8 : Bool) :
    mfm_fetch_byte (cell_vals (mfm_encode_byte d8 B)) 0 = (B, 16, []) :=
  mfm_fetch_byte_encode B hB d8

/-- C6, at the byte 0xA1 after a 1 data bit. -/
theorem mfm_pair_rule_witness :
    mfm_fetch_byte (cell_vals (mfm_encode_byte true 0xA1)) 0 = (0xA1, 16, []) :=
  mfm_pair_rule 0xA1 (by decide) true

/-! ## Format detection, mark handlers and repeated captures -/

/-! ## Format detection -/

theorem sample_to_us_lt (s : Nat) : sample_to_us s < MAX_US := by
  unfold sample_to_us
  simp only [MAX_US]
  split <;> omega

theorem sample_to_us_round (s : Nat) (h : s + 18 < 2 ^ 32) :
    sample_to_us s = min 5 (round_us s) := by
  have e1 : ONE_US = 37 := rfl
  unfold sample_to_us round_us
  simp only [e1, MAX_US]
  rw [Nat.mod_eq_of_lt (by omega)]
  split <;> omega

theorem sample_to_us_wrap_range (s : Nat) (h1 : s < 2 ^ 32) (h2 : 2 ^ 32 ≤ s + 18) :
    sample_to_us s = 0 ∧ min 5 (round_us s) = 5 := by
  have e1 : ONE_US = 37 := rfl
  unfold sample_to_us round_us
  simp only [e1, MAX_US]
  have : (s + 37 / 2) % 2 ^ 32 = s + 18 - 2 ^ 32 := by omega
  rw [this]
  constructor
  · split <;> omega
  · omega

/-- Claim C13, at the sample `4294967295`: the 32-bit sum `s + 18` wraps to 17, so
`sample_to_us` puts the sample in bucket 0, while the nearest integer to `s / 37`
clamped to 5 is 5. -/
theorem sample_to_us_wraps :
    sample_to_us 4294967295 = 0 ∧ min 5 (round_us 4294967295) = 5 := by
  decide

theorem histogram_fold_length (l : List Nat) (h : List Nat) :
    (l.foldl (fun h x => h.set (sample_to_us x) (h.getD (sample_to_us x) 0 + 1)) h).length
      = h.length := by
  induction l generalizing h with
  | nil => rfl
  | cons x xs ih => simp only [List.foldl_cons]; rw [ih, List.length_set]

theorem histogram_fold_count (l : List Nat) (h : List Nat) (k : Nat) (hk : k < h.length) :
    (l.foldl (fun h x => h.set (sample_to_us x) (h.getD (sample_to_us x) 0 + 1)) h).getD k 0
      = h.getD k 0 + l.countP (fun x => sample_to_us x == k) := by
  induction l generalizing h with
  | nil => simp
  | cons x xs ih =>
    simp only [List.foldl_cons]
    rw [ih _ (by rw [List.length_set]; exact hk), List.countP_cons]
    by_cases e : sample_to_us x = k
    · subst e
      simp only [List.getD_eq_getElem?_getD, List.getElem?_set_self hk, beq_self_eq_true,
        if_true, Option.getD_some]
      omega
    · have e2 : (sample_to_us x == k) = false := by simpa using e
      simp only [List.getD_eq_getElem?_getD, List.getElem?_set_ne e, e2]
      simp

theorem histogram_fill_three (samples : List Nat) :
    (histogram_fill samples samples.length).getD 3 0
      = samples.countP (fun x => sample_to_us x == 3) := by
  unfold histogram_fill
  rw [List.take_length, histogram_fold_count _ _ 3 (by simp [MAX_US])]
  simp [MAX_US]

theorem determine_format_eq (samples : List Nat) (hmax : samples.length ≤ MAX_SAMPLES) :
    determine_format samples samples.length =
      if samples.countP (fun x => sample_to_us x == 3) * 100 / samples.length > 5
      then TT_MFM else TT_FM := by
  unfold determine_format
  simp only [histogram_fill_three]
  have h1 : samples.countP (fun x => sample_to_us x == 3) ≤ samples.length :=
    List.countP_le_length _
  have h2 : MAX_SAMPLES = 200000 := rfl
  rw [Nat.mod_eq_of_lt (by omega)]

/-- Claim C12, counterexample: of these 17 samples one falls in bucket 3, which
is more than 5 % (`100 * 1 > 5 * 17`), and `determine_format` answers FM. -/
theorem determine_format_counterexample :
    determine_format (112 :: List.replicate 16 75) 17 = TT_FM ∧
      (112 :: List.replicate 16 75).length = 17 ∧
      100 * (112 :: List.replicate 16 75).countP (fun x => sample_to_us x == 3) > 5 * 17 := by
  decide

/-- Claim C12, amended: for every sequence of `n` samples, `0 < n ≤ MAX_SAMPLES`,
`determine_format` returns MFM if and only if the whole-number percentage
`(100 * h3) / n` exceeds 5, that is `100 * h3 ≥ 6 * n`, where `h3` counts the
samples `s` with `sample_to_us s = 3`; it returns FM otherwise. -/
theorem determine_format_threshold (samples : List Nat) (hn : 0 < samples.length)
    (hmax : samples.length ≤ MAX_SAMPLES) :
    (determine_format samples samples.length = TT_MFM ↔
      6 * samples.length ≤ 100 * samples.countP (fun x => sample_to_us x == 3)) ∧
    (determine_format samples samples.length = TT_FM ↔
      100 * samples.countP (fun x => sample_to_us x == 3) < 6 * samples.length) := by
  rw [determine_format_eq samples hmax]
  have key : samples.countP (fun x => sample_to_us x == 3) * 100 / samples.length > 5 ↔
      6 * samples.length ≤ 100 * samples.countP (fun x => sample_to_us x == 3) := by
    rw [gt_iff_lt, Nat.lt_iff_add_one_le, Nat.le_div_iff_mul_le hn]
    omega
  by_cases h : samples.countP (fun x => sample_to_us x == 3) * 100 / samples.length > 5
  · have h2 := key.1 h
    simp only [h, if_true, TT_MFM, TT_FM]
    constructor
    · simp [h2]
    · constructor
      · intro h3; omega
      · intro h3; omega
  · have h2 : ¬ 6 * samples.length ≤ 100 * samples.countP (fun x => sample_to_us x == 3) :=
      fun h3 => h (key.2 h3)
    simp only [h, if_false, TT_MFM, TT_FM]
    constructor
    · constructor
      · intro h3; omega
      · intro h3; omega
    · simp; omega

theorem determine_format_threshold_witness :
    (determine_format (List.replicate 3 112 ++ List.replicate 47 75) 50 = TT_MFM ↔
      6 * 50 ≤ 100 * (List.replicate 3 112 ++ List.replicate 47 75).countP
        (fun x => sample_to_us x == 3)) ∧
    (determine_format (List.replicate 3 112 ++ List.replicate 47 75) 50 = TT_FM ↔
      100 * (List.replicate 3 112 ++ List.replicate 47 75).countP
        (fun x => sample_to_us x == 3) < 6 * 50) :=
  determine_format_threshold (List.replicate 3 112 ++ List.replicate 47 75)
    (by decide) (by decide)

/-! ## Mark handlers -/

theorem fm_fetch_step_pos (buf : List Nat) (st : Nat × Nat) :
    st.2 < (fm_fetch_step buf st).2 := by
  unfold fm_fetch_step
  simp only
  split <;> omega

theorem fm_fetch_iterate_pos (buf : List Nat) (k : Nat) (st : Nat × Nat) :
    st.2 + k ≤ ((fm_fetch_step buf)^[k] st).2 := by
  induction k generalizing st with
  | zero => simp
  | succ k ih =>
    rw [Function.iterate_succ_apply]
    have h1 := fm_fetch_step_pos buf st
    have h2 := ih (fm_fetch_step buf st)
    omega

theorem fm_fetch_byte_pos (buf : List Nat) (p : Nat) : p + 8 ≤ (fm_fetch_byte buf p).2 :=
  fm_fetch_iterate_pos buf 8 (0, p)

theorem fm_fetch_bytes_pos (buf : List Nat) (p count : Nat) :
    p + 8 * count ≤ (fm_fetch_bytes buf p count).2 := by
  induction count generalizing p with
  | zero => simp [fm_fetch_bytes]
  | succ k ih =>
    simp only [fm_fetch_bytes]
    have h1 := fm_fetch_byte_pos buf p
    have h2 := ih (fm_fetch_byte buf p).2
    omega

theorem fm_fetch_bytes_length (buf : List Nat) (p count : Nat) :
    (fm_fetch_bytes buf p count).1.length = count := by
  induction count generalizing p with
  | zero => simp [fm_fetch_bytes]
  | succ k ih => simp only [fm_fetch_bytes, List.length_cons, ih]

theorem fm_fetch_bytes_lt (buf : List Nat) (p count : Nat) :
    ∀ b ∈ (fm_fetch_bytes buf p count).1, b < 256 := by
  induction count generalizing p with
  | zero => simp [fm_fetch_bytes]
  | succ k ih =>
    simp only [fm_fetch_bytes, List.mem_cons]
    rintro b (rfl | hb)
    · exact Nat.mod_lt _ (by decide)
    · exact ih _ b hb

theorem fm_valid_addr_eq (buf : List Nat) (p : Nat) (g : Globals) :
    fm_valid_addr buf p g =
      if crc16 (0xFE :: (fm_fetch_bytes buf p 6).1) 7 = 0 ∧
        (fm_fetch_bytes buf p 6).1.getD 0 0 < 77 ∧ (fm_fetch_bytes buf p 6).1.getD 1 0 < 1 ∧
        (fm_fetch_bytes buf p 6).1.getD 2 0 < 33 ∧ (fm_fetch_bytes buf p 6).1.getD 3 0 < 4
      then
        ((fm_fetch_bytes buf p 6).2 - p,
         ⟨(fm_fetch_bytes buf p 6).1.getD 0 0, (fm_fetch_bytes buf p 6).1.getD 1 0,
          (fm_fetch_bytes buf p 6).1.getD 2 0, 128 <<< (fm_fetch_bytes buf p 6).1.getD 3 0,
          g.disk⟩)
      else (0, g) := by
  unfold fm_valid_addr
  simp only [List.getD_cons_succ, NTRACKS, NSIDES, NSECTORS, NSIZES, ge_iff_le, ne_eq]
  generalize (fm_fetch_bytes buf p 6).1 = bs
  generalize (fm_fetch_bytes buf p 6).2 = e
  by_cases h0 : crc16 (0xFE :: bs) 7 = 0
  · by_cases h1 : bs.getD 0 0 < 77
    · by_cases h2 : bs.getD 1 0 < 1
      · by_cases h3 : bs.getD 2 0 < 33
        · by_cases h4 : bs.getD 3 0 < 4
          · rw [if_neg (not_not.2 h0), if_neg (Nat.not_le.2 h1), if_neg (Nat.not_le.2 h2),
              if_neg (Nat.not_le.2 h3), if_neg (Nat.not_le.2 h4), if_pos ⟨h0, h1, h2, h3, h4⟩]
          · rw [if_neg (not_not.2 h0), if_neg (Nat.not_le.2 h1), if_neg (Nat.not_le.2 h2),
              if_neg (Nat.not_le.2 h3), if_pos (Nat.not_lt.1 h4), if_neg (fun h => h4 h.2.2.2.2)]
        · rw [if_neg (not_not.2 h0), if_neg (Nat.not_le.2 h1), if_neg (Nat.not_le.2 h2),
            if_pos (Nat.not_lt.1 h3), if_neg (fun h => h3 h.2.2.2.1)]
      · rw [if_neg (not_not.2 h0), if_neg (Nat.not_le.2 h1), if_pos (Nat.not_lt.1 h2),
          if_neg (fun h => h2 h.2.2.1)]
    · rw [if_neg (not_not.2 h0), if_pos (Nat.not_lt.1 h1), if_neg (fun h => h1 h.2.1)]
  · rw [if_pos h0, if_neg (fun h => h0 h.1)]

/-- Claim C14: `fm_addr` at position `p` (just after an address mark) fetches six
bytes `b1..b6` and returns a non-zero count if and only if
`crc16 [0xFE, b1, .., b6] = 0`, `b1 < 77`, `b2 < 1`, `b3 < 33` and `b4 < 4`.  On
success the header context is `(b1, b2, b3, 128 << b4)` and the count is the
number of positions the six fetches consumed, at least 48; on failure the
count is 0 and the context is the sentinel `(77, 1, 33, 0)`.  The disk image is
untouched either way. -/
theorem fm_addr_validation (buf : List Nat) (p : Nat) (g : Globals) :
    ((fm_addr buf p g).1 ≠ 0 ↔
      (crc16 (0xFE :: (fm_fetch_bytes buf p 6).1) 7 = 0 ∧
        (fm_fetch_bytes buf p 6).1.getD 0 0 < 77 ∧ (fm_fetch_bytes buf p 6).1.getD 1 0 < 1 ∧
        (fm_fetch_bytes buf p 6).1.getD 2 0 < 33 ∧ (fm_fetch_bytes buf p 6).1.getD 3 0 < 4)) ∧
    ((fm_addr buf p g).1 ≠ 0 →
      fm_addr buf p g =
        ((fm_fetch_bytes buf p 6).2 - p,
         ⟨(fm_fetch_bytes buf p 6).1.getD 0 0, (fm_fetch_bytes buf p 6).1.getD 1 0,
          (fm_fetch_bytes buf p 6).1.getD 2 0, 128 <<< (fm_fetch_bytes buf p 6).1.getD 3 0,
          g.disk⟩) ∧
      48 ≤ (fm_fetch_bytes buf p 6).2 - p) ∧
    ((fm_addr buf p g).1 = 0 → (fm_addr buf p g).2 = ⟨77, 1, 33, 0, g.disk⟩) := by
  have hpos := fm_fetch_bytes_pos buf p 6
  have hne : (fm_fetch_bytes buf p 6).2 - p ≠ 0 := by omega
  unfold fm_addr
  rw [fm_valid_addr_eq]
  by_cases h : crc16 (0xFE :: (fm_fetch_bytes buf p 6).1) 7 = 0 ∧
        (fm_fetch_bytes buf p 6).1.getD 0 0 < 77 ∧ (fm_fetch_bytes buf p 6).1.getD 1 0 < 1 ∧
        (fm_fetch_bytes buf p 6).1.getD 2 0 < 33 ∧ (fm_fetch_bytes buf p 6).1.getD 3 0 < 4
  · rw [if_pos h]
    have e : ((fm_fetch_bytes buf p 6).2 - p,
      (⟨(fm_fetch_bytes buf p 6).1.getD 0 0, (fm_fetch_bytes buf p 6).1.getD 1 0,
        (fm_fetch_bytes buf p 6).1.getD 2 0, 128 <<< (fm_fetch_bytes buf p 6).1.getD 3 0,
        g.disk⟩ : Globals)).1 ≠ 0 := hne
    rw [if_pos e]
    exact ⟨⟨fun _ => h, fun _ => hne⟩, fun _ => ⟨rfl, by omega⟩, fun h0 => absurd h0 hne⟩
  · rw [if_neg h]
    have e : ¬ (((0 : Nat), g).1 ≠ 0) := fun h0 => h0 rfl
    rw [if_neg e]
    exact ⟨⟨fun h0 => absurd rfl h0, fun h0 => absurd h0 h⟩, fun h0 => absurd rfl h0,
      fun _ => rfl⟩

set_option maxRecDepth 100000 in
theorem fm_addr_validation_witness :
    (fm_addr (fm_enc ([5, 0, 3, 0] ++ crc_bytes [0xFE, 5, 0, 3, 0])) 0 Globals_init).1 ≠ 0 ∧
    (fm_addr (fm_enc ([5, 0, 3, 0] ++ crc_bytes [0xFE, 5, 0, 3, 0])) 0 Globals_init).2.Last_track = 5 ∧
    (fm_addr [] 0 Globals_init).1 = 0 ∧
    (fm_addr [] 0 Globals_init).2.Last_track = 77 :=
  ⟨by decide,
   by rw [((fm_addr_validation (fm_enc ([5, 0, 3, 0] ++ crc_bytes [0xFE, 5, 0, 3, 0])) 0
        Globals_init).2.1 (by decide)).1]; decide,
   by decide,
   by rw [(fm_addr_validation [] 0 Globals_init).2.2 (by decide)]⟩

theorem fm_valid_data_crc (buf : List Nat) (p size : Nat)
    (h : crc16 (0xFB :: (fm_fetch_bytes buf p (size + 2)).1) (1 + size + 2) ≠ 0) :
    fm_valid_data buf p size = (0, []) := by
  unfold fm_valid_data
  split
  · rfl
  · simp only [if_pos h]

theorem mfm_valid_data_crc (buf : List Nat) (p size : Nat)
    (h : crc16 (mfm_fetch_bytes buf p (4 + size + 2)).1 (4 + size + 2) ≠ 0) :
    (mfm_valid_data buf p size).1 = 0 := by
  unfold mfm_valid_data
  split
  · rfl
  · simp only [if_pos h]

theorem fm_data_fail (buf : List Nat) (p : Nat) (g : Globals)
    (h : (fm_valid_data buf p g.Last_size).1 = 0) : fm_data buf p g = (0, g, []) := by
  unfold fm_data
  simp only [h, ne_eq, not_true_eq_false, if_false]

theorem fm_deld_fail (buf : List Nat) (p : Nat) (g : Globals)
    (h : (fm_valid_deld buf p g.Last_size).1 = 0) : fm_deld buf p g = (0, g, []) := by
  unfold fm_deld
  simp only [h, ne_eq, not_true_eq_false, if_false]

theorem mfm_data_fail (buf : List Nat) (p : Nat) (g : Globals)
    (h : (mfm_valid_data buf p g.Last_size).1 = 0) :
    mfm_data buf p g = (0, g, (mfm_valid_data buf p g.Last_size).2.2) := by
  unfold mfm_data
  simp only [h, ne_eq, not_true_eq_false, if_false]

theorem mfm_deld_fail (buf : List Nat) (p : Nat) (g : Globals)
    (h : (mfm_valid_data buf p g.Last_size).1 = 0) :
    mfm_deld buf p g = (0, g, (mfm_valid_data buf p g.Last_size).2.2) := by
  unfold mfm_deld
  simp only [h, ne_eq, not_true_eq_false, if_false]

theorem fm_data_zero (buf : List Nat) (p : Nat) (g : Globals) (h : (fm_data buf p g).1 = 0) :
    (fm_valid_data buf p g.Last_size).1 = 0 := by
  unfold fm_data at h
  by_cases e : (fm_valid_data buf p g.Last_size).1 = 0
  · exact e
  · simp only [ne_eq, e, not_false_eq_true, if_true] at h

theorem fm_deld_zero (buf : List Nat) (p : Nat) (g : Globals) (h : (fm_deld buf p g).1 = 0) :
    (fm_valid_deld buf p g.Last_size).1 = 0 := by
  unfold fm_deld at h
  by_cases e : (fm_valid_deld buf p g.Last_size).1 = 0
  · exact e
  · simp only [ne_eq, e, not_false_eq_true, if_true] at h

theorem mfm_data_zero (buf : List Nat) (p : Nat) (g : Globals) (h : (mfm_data buf p g).1 = 0) :
    (mfm_valid_data buf p g.Last_size).1 = 0 := by
  unfold mfm_data at h
  by_cases e : (mfm_valid_data buf p g.Last_size).1 = 0
  · exact e
  · simp only [ne_eq, e, not_false_eq_true, if_true] at h

theorem mfm_deld_zero (buf : List Nat) (p : Nat) (g : Globals) (h : (mfm_deld buf p g).1 = 0) :
    (mfm_valid_data buf p g.Last_size).1 = 0 := by
  unfold mfm_deld at h
  by_cases e : (mfm_valid_data buf p g.Last_size).1 = 0
  · exact e
  · simp only [ne_eq, e, not_false_eq_true, if_true] at h

/-- Claim C15: whatever the stream, the position, the header context and the disk
image, a non-zero CRC-16 over the mark byte(s) and the `size + 2` bytes fetched
after a data mark (over `0xFB` followed by the fetched bytes in `fm_data`, over
the `4 + size + 2` fetched bytes in `mfm_data`) makes the handler return 0 and
leave the globals, the disk image among them, as they were: nothing is
committed. -/
theorem data_crc_gate (buf : List Nat) (p : Nat) (g : Globals) :
    (crc16 (0xFB :: (fm_fetch_bytes buf p (g.Last_size + 2)).1) (1 + g.Last_size + 2) ≠ 0 →
      (fm_data buf p g).1 = 0 ∧ (fm_data buf p g).2.1 = g ∧
        (fm_data buf p g).2.1.disk = g.disk ∧ (fm_data buf p g).2.2 = []) ∧
    (crc16 (mfm_fetch_bytes buf p (4 + g.Last_size + 2)).1 (4 + g.Last_size + 2) ≠ 0 →
      (mfm_data buf p g).1 = 0 ∧ (mfm_data buf p g).2.1 = g ∧
        (mfm_data buf p g).2.1.disk = g.disk) := by
  constructor
  · intro h
    have e := fm_data_fail buf p g (by rw [fm_valid_data_crc buf p _ h])
    rw [e]
    exact ⟨rfl, rfl, rfl, rfl⟩
  · intro h
    have e := mfm_data_fail buf p g (mfm_valid_data_crc buf p _ h)
    rw [e]
    exact ⟨rfl, rfl, rfl⟩

set_option maxRecDepth 100000 in
theorem data_crc_gate_witness :
    ((fm_data [] 0 ⟨5, 0, 3, 128, Disk_empty⟩).1 = 0 ∧
      (fm_data [] 0 ⟨5, 0, 3, 128, Disk_empty⟩).2.1.disk = Disk_empty) ∧
    ((mfm_data [] 0 ⟨5, 0, 3, 128, Disk_empty⟩).1 = 0 ∧
      (mfm_data [] 0 ⟨5, 0, 3, 128, Disk_empty⟩).2.1.disk = Disk_empty) :=
  ⟨⟨((data_crc_gate [] 0 ⟨5, 0, 3, 128, Disk_empty⟩).1 (by decide)).1,
    ((data_crc_gate [] 0 ⟨5, 0, 3, 128, Disk_empty⟩).1 (by decide)).2.2.1⟩,
   ⟨((data_crc_gate [] 0 ⟨5, 0, 3, 128, Disk_empty⟩).2 (by decide)).1,
    ((data_crc_gate [] 0 ⟨5, 0, 3, 128, Disk_empty⟩).2 (by decide)).2.2⟩⟩

/-- When validation of a data or deleted-data field fails (the handler returns
0) in `fm_data`, `fm_deld`, `mfm_data` or `mfm_deld`, the header context
afterwards is what it was before the call, not the sentinel: the globals are
unchanged as a whole.  The source calls `sector_none` in these four handlers
only inside `if (consumed)`, while `fm_addr` and `mfm_addr` have
`else sector_none();`. -/
theorem data_failure_keeps_context (buf : List Nat) (p : Nat) (g : Globals) :
    ((fm_data buf p g).1 = 0 → (fm_data buf p g).2.1 = g) ∧
    ((fm_deld buf p g).1 = 0 → (fm_deld buf p g).2.1 = g) ∧
    ((mfm_data buf p g).1 = 0 → (mfm_data buf p g).2.1 = g) ∧
    ((mfm_deld buf p g).1 = 0 → (mfm_deld buf p g).2.1 = g) := by
  refine ⟨fun h => ?_, fun h => ?_, fun h => ?_, fun h => ?_⟩
  · rw [fm_data_fail buf p g (fm_data_zero buf p g h)]
  · rw [fm_deld_fail buf p g (fm_deld_zero buf p g h)]
  · rw [mfm_data_fail buf p g (mfm_data_zero buf p g h)]
  · rw [mfm_deld_fail buf p g (mfm_deld_zero buf p g h)]

set_option maxRecDepth 100000 in
theorem data_failure_keeps_context_witness :
    (fm_data [] 0 ⟨5, 0, 3, 128, Disk_empty⟩).2.1.Last_sector = 3 ∧
    (fm_deld [] 0 ⟨5, 0, 3, 128, Disk_empty⟩).2.1.Last_sector = 3 ∧
    (mfm_data [] 0 ⟨5, 0, 3, 128, Disk_empty⟩).2.1.Last_sector = 3 ∧
    (mfm_deld [] 0 ⟨5, 0, 3, 128, Disk_empty⟩).2.1.Last_sector = 3 :=
  ⟨by rw [(data_failure_keeps_context [] 0 ⟨5, 0, 3, 128, Disk_empty⟩).1 (by decide)],
   by rw [(data_failure_keeps_context [] 0 ⟨5, 0, 3, 128, Disk_empty⟩).2.1 (by decide)],
   by rw [(data_failure_keeps_context [] 0 ⟨5, 0, 3, 128, Disk_empty⟩).2.2.1 (by decide)],
   by rw [(data_failure_keeps_context [] 0 ⟨5, 0, 3, 128, Disk_empty⟩).2.2.2 (by decide)]⟩

theorem disk_add_sentinel (disk : Disk) (data : Option (List Nat)) :
    (disk_add disk NTRACKS NSIDES NSECTORS 0 data).1 = disk := by
  unfold disk_add
  simp [NTRACKS]

theorem fm_data_disk_sentinel (buf : List Nat) (p : Nat) (g : Globals)
    (h1 : g.Last_track = NTRACKS) (h2 : g.Last_side = NSIDES) (h3 : g.Last_sector = NSECTORS)
    (h4 : g.Last_size = 0) : (fm_data buf p g).2.1.disk = g.disk := by
  unfold fm_data
  by_cases e : (fm_valid_data buf p g.Last_size).1 = 0
  · simp only [e, ne_eq, not_true_eq_false, if_false]
  · simp only [e, ne_eq, not_false_eq_true, if_true, sector_none]
    rw [h1, h2, h3, h4]
    exact disk_add_sentinel _ _

theorem fm_deld_disk_sentinel (buf : List Nat) (p : Nat) (g : Globals)
    (h1 : g.Last_track = NTRACKS) (h2 : g.Last_side = NSIDES) (h3 : g.Last_sector = NSECTORS)
    (h4 : g.Last_size = 0) : (fm_deld buf p g).2.1.disk = g.disk := by
  unfold fm_deld
  by_cases e : (fm_valid_deld buf p g.Last_size).1 = 0
  · simp only [e, ne_eq, not_true_eq_false, if_false]
  · simp only [e, ne_eq, not_false_eq_true, if_true, sector_none]
    rw [h1, h2, h3, h4]
    exact disk_add_sentinel _ _

theorem mfm_data_disk_sentinel (buf : List Nat) (p : Nat) (g : Globals)
    (h1 : g.Last_track = NTRACKS) (h2 : g.Last_side = NSIDES) (h3 : g.Last_sector = NSECTORS)
    (h4 : g.Last_size = 0) : (mfm_data buf p g).2.1.disk = g.disk := by
  unfold mfm_data
  by_cases e : (mfm_valid_data buf p g.Last_size).1 = 0
  · simp only [e, ne_eq, not_true_eq_false, if_false]
  · simp only [e, ne_eq, not_false_eq_true, if_true, sector_none]
    rw [h1, h2, h3, h4]
    exact disk_add_sentinel _ _

theorem mfm_deld_disk_sentinel (buf : List Nat) (p : Nat) (g : Globals)
    (h1 : g.Last_track = NTRACKS) (h2 : g.Last_side = NSIDES) (h3 : g.Last_sector = NSECTORS)
    (h4 : g.Last_size = 0) : (mfm_deld buf p g).2.1.disk = g.disk := by
  unfold mfm_deld
  by_cases e : (mfm_valid_data buf p g.Last_size).1 = 0
  · simp only [e, ne_eq, not_true_eq_false, if_false]
  · simp only [e, ne_eq, not_false_eq_true, if_true, sector_none]
    rw [h1, h2, h3, h4]
    exact disk_add_sentinel _ _

/-- Claim C17: when the header context is the sentinel `(77, 1, 33, 0)`, each of
`fm_data`, `fm_deld`, `mfm_data` and `mfm_deld` leaves the disk image unchanged,
whatever the stream and the position, also when the CRC-16 over the fetched
bytes is zero and the handler goes on to call `disk_add`. -/
theorem data_without_address (buf : List Nat) (p : Nat) (g : Globals)
    (h1 : g.Last_track = 77) (h2 : g.Last_side = 1) (h3 : g.Last_sector = 33)
    (h4 : g.Last_size = 0) :
    (fm_data buf p g).2.1.disk = g.disk ∧ (fm_deld buf p g).2.1.disk = g.disk ∧
    (mfm_data buf p g).2.1.disk = g.disk ∧ (mfm_deld buf p g).2.1.disk = g.disk :=
  ⟨fm_data_disk_sentinel buf p g h1 h2 h3 h4, fm_deld_disk_sentinel buf p g h1 h2 h3 h4,
   mfm_data_disk_sentinel buf p g h1 h2 h3 h4, mfm_deld_disk_sentinel buf p g h1 h2 h3 h4⟩

set_option maxRecDepth 100000 in
theorem data_without_address_witness :
    crc16 (0xFB :: (fm_fetch_bytes (fm_enc (crc_bytes [0xFB])) 0 2).1) 3 = 0 ∧
    (fm_data (fm_enc (crc_bytes [0xFB])) 0 Globals_init).1 ≠ 0 ∧
    (fm_data (fm_enc (crc_bytes [0xFB])) 0 Globals_init).2.1.disk = Disk_empty ∧
    (mfm_data (fm_enc (crc_bytes [0xFB])) 0 Globals_init).2.1.disk = Disk_empty :=
  ⟨by decide, by decide,
   (data_without_address (fm_enc (crc_bytes [0xFB])) 0 Globals_init rfl rfl rfl rfl).1,
   (data_without_address (fm_enc (crc_bytes [0xFB])) 0 Globals_init rfl rfl rfl rfl).2.2.1⟩

set_option maxRecDepth 100000 in
/-- Claim C18, counterexample: the slot holds 128 bytes `0x00` and the call brings
256 bytes `0x01`; the size differs, and `disk_add` prints the size line and the
data line. -/
theorem disk_add_diagnostics_counterexample :
    (disk_add (Disk_set Disk_empty 0 1 ⟨128, some (List.replicate 128 0)⟩) 0 0 1 256
      (some (List.replicate 256 1))).2 = [Msg.inconsistent_size, Msg.inconsistent_data] := by
  decide

/-- Claim C18, amended: for a slot that holds `sd` (its size is `sd.length`) and a
valid call `disk_add(t, 0, sec, size, data)` whose data pointer has at least
`sd.length` readable bytes, the image is unchanged, the call prints
"Inconsistent sector size" exactly when `size` differs from the stored size, and,
independently of that, prints "Inconsistent sector data" exactly when the first
`sd.length` bytes at the data pointer differ from the stored bytes.  A call
with the stored size and the stored bytes prints nothing. -/
theorem disk_add_diagnostics (disk : Disk) (t sec size : Nat) (sd d : List Nat)
    (ht : t < 77) (hs : sec < 33) (hsz : valid_size size = true)
    (hslot : disk t sec = ⟨sd.length, some sd⟩) (_hd : sd.length ≤ d.length) :
    (disk_add disk t 0 sec size (some d)).1 = disk ∧
    (disk_add disk t 0 sec size (some d)).2 =
      (if sd.length ≠ size then [Msg.inconsistent_size] else []) ++
      (if sd ≠ d.take sd.length then [Msg.inconsistent_data] else []) ∧
    (sd.length = size → sd = d.take sd.length →
      (disk_add disk t 0 sec size (some d)).2 = []) := by
  have hocc : ¬ ((disk t sec).size = 0 ∧ (disk t sec).data = none) := by
    rw [hslot]; simp
  have hlog : (disk_add disk t 0 sec size (some d)).2 =
      (if sd.length ≠ size then [Msg.inconsistent_size] else []) ++
      (if sd ≠ d.take sd.length then [Msg.inconsistent_data] else []) := by
    unfold disk_add
    have hv : ¬ (t ≥ NTRACKS ∨ 0 ≥ NSIDES ∨ sec ≥ NSECTORS ∨ valid_size size = false) := by
      simp only [NTRACKS, NSIDES, NSECTORS, hsz]
      simp
      omega
    rw [if_neg hv]
    simp only [hslot, reduceCtorEq, and_false, if_false, Option.getD_some, List.take_length]
  refine ⟨disk_add_occupied disk t 0 sec size (some d) hocc, hlog, ?_⟩
  intro e1 e2
  rw [hlog, if_neg (not_not.2 e1), if_neg (not_not.2 e2)]
  rfl

set_option maxRecDepth 100000 in
theorem disk_add_diagnostics_witness :
    (disk_add (Disk_set Disk_empty 0 1 ⟨128, some (List.replicate 128 0)⟩) 0 0 1 128
      (some (List.replicate 128 1))).2 = [Msg.inconsistent_data] := by
  have h := (disk_add_diagnostics
    (Disk_set Disk_empty 0 1 ⟨128, some (List.replicate 128 0)⟩) 0 1 128
    (List.replicate 128 0) (List.replicate 128 1) (by decide) (by decide) (by decide)
    (by simp [Disk_set]) (by simp)).2.1
  rw [h]
  decide

set_option maxRecDepth 100000 in
/-- Claim C19, counterexample: the deleted-data pattern of the source has eleven
entries, and the scanner takes the deleted-data branch (tag `d`, 100) on the
eleven entries `11100010001` followed by a 0, which the twelve-entry pattern
`111000100011` does not match. -/
theorem FM_deld_mark_counterexample :
    FM_deld_mark.length = 11 ∧ FM_deld_mark ≠ [1,1,1,0,0,0,1,0,0,0,1,1] ∧
    (fm_mark [1,1,1,0,0,0,1,0,0,0,1,0] 0 Globals_init).2.1 = 100 ∧
    mark_match [1,1,1,0,0,0,1,0,0,0,1,0] 0 [1,1,1,0,0,0,1,0,0,0,1,1] 12 = false := by
  decide

set_option maxRecDepth 100000 in
/-- Claim C19, amended: the index, address and data patterns the FM scanner
matches are each exactly 12 entries long and are `111011011100` (data 0xFC,
clock 0xD7), `111000111110` (data 0xFE, clock 0xC7) and `111000101111` (data
0xFB, clock 0xC7); each is the interval stream of its clock and data byte up
to the first transition of the next byte. -/
theorem FM_mark_table :
    FM_indx_mark = [1,1,1,0,1,1,0,1,1,1,0,0] ∧ FM_indx_mark.length = 12 ∧
    FM_addr_mark = [1,1,1,0,0,0,1,1,1,1,1,0] ∧ FM_addr_mark.length = 12 ∧
    FM_data_mark = [1,1,1,0,0,0,1,0,1,1,1,1] ∧ FM_data_mark.length = 12 ∧
    (fm_stream [(0xD7, 0xFC), (0xFF, 0xFF)]).take 12 = FM_indx_mark ∧
    (fm_stream [(0xC7, 0xFE), (0xFF, 0xFF)]).take 12 = FM_addr_mark ∧
    (fm_stream [(0xC7, 0xFB), (0xFF, 0xFF)]).take 12 = FM_data_mark := by
  decide

theorem crc16_step_split (c b : Nat) :
    crc16_step c b = ((c % 256) <<< 8) ^^^ crc16_step 0 (((c >>> 8) ^^^ b) % 256) := by
  unfold crc16_step
  have h16 : (65536 : Nat) = 2 ^ 16 := by norm_num
  have e2 : (c <<< 8) % 65536 = (c % 256) <<< 8 := by
    simp only [Nat.shiftLeft_eq]; omega
  have e3 : ((0 : Nat) <<< 8) = 0 := by simp
  simp only [Nat.zero_shiftRight, Nat.zero_xor, Nat.mod_mod, e3]
  generalize ((c >>> 8) ^^^ b) % 256 = x0
  generalize (x0 ^^^ (x0 >>> 4)) % 256 = x1
  rw [h16, xor_mod_two_pow, xor_mod_two_pow, xor_mod_two_pow, Nat.mod_mod, Nat.mod_mod,
    Nat.mod_mod, xor_mod_two_pow, xor_mod_two_pow, Nat.mod_mod, Nat.mod_mod, Nat.mod_mod,
    ← h16, e2]
  simp only [Nat.xor_assoc]

set_option maxRecDepth 100000 in
theorem crc16_step_zero_inv : ∀ x, x < 256 →
    ((crc16_step 0 x % 256) ^^^ (((crc16_step 0 x % 256) <<< 5) % 256)) ^^^
      (((crc16_step 0 x % 256) ^^^ (((crc16_step 0 x % 256) <<< 5) % 256)) >>> 4) = x := by
  decide

theorem crc16_step_zero_inj (x y : Nat) (hx : x < 256) (hy : y < 256)
    (h : crc16_step 0 x % 256 = crc16_step 0 y % 256) : x = y := by
  rw [← crc16_step_zero_inv x hx, ← crc16_step_zero_inv y hy, h]

theorem crc16_step_low (c b : Nat) :
    crc16_step c b % 256 = crc16_step 0 (((c >>> 8) ^^^ b) % 256) % 256 := by
  rw [crc16_step_split c b]
  have h8 : (256 : Nat) = 2 ^ 8 := by norm_num
  rw [h8, xor_mod_two_pow, ← h8]
  have : ((c % 256) <<< 8) % 256 = 0 := by simp only [Nat.shiftLeft_eq]; omega
  rw [this, Nat.zero_xor]

theorem xor_left_cancel (a b c : Nat) (h : a ^^^ b = a ^^^ c) : b = c := by
  have := congrArg (fun t => a ^^^ t) h
  simpa [← Nat.xor_assoc] using this

theorem xor_right_cancel (a b c : Nat) (h : b ^^^ a = c ^^^ a) : b = c := by
  rw [Nat.xor_comm b, Nat.xor_comm c] at h
  exact xor_left_cancel a b c h

theorem crc16_step_inj_byte (c b d : Nat) (hc : c < 65536) (hb : b < 256) (hd : d < 256)
    (h : crc16_step c b = crc16_step c d) : b = d := by
  have hh : c >>> 8 < 256 := by rw [Nat.shiftRight_eq_div_pow]; omega
  have h1 : (c >>> 8) ^^^ b < 256 := @Nat.xor_lt_two_pow _ _ 8 hh hb
  have h2 : (c >>> 8) ^^^ d < 256 := @Nat.xor_lt_two_pow _ _ 8 hh hd
  have e : crc16_step c b % 256 = crc16_step c d % 256 := by rw [h]
  rw [crc16_step_low c b, crc16_step_low c d, Nat.mod_eq_of_lt h1, Nat.mod_eq_of_lt h2] at e
  exact xor_left_cancel _ _ _ (crc16_step_zero_inj _ _ h1 h2 e)

theorem crc16_step_inj_crc (c e b : Nat) (hc : c < 65536) (he : e < 65536) (hb : b < 256)
    (h : crc16_step c b = crc16_step e b) : c = e := by
  have hh : c >>> 8 < 256 := by rw [Nat.shiftRight_eq_div_pow]; omega
  have hh2 : e >>> 8 < 256 := by rw [Nat.shiftRight_eq_div_pow]; omega
  have h1 : (c >>> 8) ^^^ b < 256 := @Nat.xor_lt_two_pow _ _ 8 hh hb
  have h2 : (e >>> 8) ^^^ b < 256 := @Nat.xor_lt_two_pow _ _ 8 hh2 hb
  have e1 : crc16_step c b % 256 = crc16_step e b % 256 := by rw [h]
  rw [crc16_step_low c b, crc16_step_low e b, Nat.mod_eq_of_lt h1, Nat.mod_eq_of_lt h2] at e1
  have e2 := crc16_step_zero_inj _ _ h1 h2 e1
  have e3 : c >>> 8 = e >>> 8 := xor_right_cancel _ _ _ e2
  rw [crc16_step_split c b, crc16_step_split e b, e2] at h
  have e4 : (c % 256) <<< 8 = (e % 256) <<< 8 := xor_right_cancel _ _ _ h
  simp only [Nat.shiftLeft_eq, Nat.shiftRight_eq_div_pow] at e3 e4
  omega

theorem crc16_fold_lt (C : List Nat) (c : Nat) (hc : c < 65536) :
    C.foldl crc16_step c < 65536 := by
  induction C generalizing c with
  | nil => exact hc
  | cons x xs ih => exact ih _ (crc16_step_lt c x)

theorem crc16_fold_inj (C : List Nat) (hC : ∀ x ∈ C, x < 256) (c e : Nat)
    (hc : c < 65536) (he : e < 65536) (h : C.foldl crc16_step c = C.foldl crc16_step e) :
    c = e := by
  induction C generalizing c e with
  | nil => exact h
  | cons x xs ih =>
    simp only [List.foldl_cons] at h
    have hx : x < 256 := hC x (List.mem_cons_self _ _)
    have := ih (fun y hy => hC y (List.mem_cons_of_mem _ hy)) _ _ (crc16_step_lt c x)
      (crc16_step_lt e x) h
    exact crc16_step_inj_crc c e x hc he hx this

theorem crc16_one_byte (A C : List Nat) (b d : Nat) (hC : ∀ x ∈ C, x < 256)
    (hb : b < 256) (hd : d < 256) (hne : b ≠ d) :
    crc16 (A ++ b :: C) (A ++ b :: C).length ≠ crc16 (A ++ d :: C) (A ++ d :: C).length := by
  unfold crc16
  rw [List.take_length, List.take_length, List.foldl_append, List.foldl_append,
    List.foldl_cons, List.foldl_cons]
  intro h
  have hA : A.foldl crc16_step 0xFFFF < 65536 := crc16_fold_lt A _ (by decide)
  have h1 := crc16_fold_inj C hC _ _ (crc16_step_lt _ _) (crc16_step_lt _ _) h
  exact hne (crc16_step_inj_byte _ b d hA hb hd h1)

theorem crc16_one_byte_differs (F G : List Nat) (hF : ∀ x ∈ F, x < 256)
    (hG : ∀ x ∈ G, x < 256) (hd : one_byte_differs F G) :
    crc16 F F.length ≠ crc16 G G.length := by
  obtain ⟨A, b, c, C, rfl, rfl, hne⟩ := hd
  refine crc16_one_byte A C b c (fun x hx => hF x ?_) (hF b ?_) (hG c ?_) hne
  · simp [hx]
  · simp
  · simp

theorem one_byte_differs_length (F G : List Nat) (hd : one_byte_differs F G) :
    F.length = G.length := by
  obtain ⟨A, b, c, C, rfl, rfl, _⟩ := hd
  simp

/-- Claim C20: for every byte sequence `F` with `crc16 F = 0` and every byte
sequence `G` (of the same length) that differs from `F` in exactly one byte,
`crc16 G` is not 0.  Hence, when the bytes fetched after an FM data mark,
preceded by `0xFB`, differ in exactly one byte from such an `F`, `fm_data`
returns 0, leaves the globals and the disk image as they were and prints
nothing: the sector is not stored. -/
theorem crc16_single_byte (F G : List Nat) (hF : ∀ x ∈ F, x < 256)
    (hG : ∀ x ∈ G, x < 256) (hcrc : crc16 F F.length = 0) (hd : one_byte_differs F G) :
    G.length = F.length ∧ crc16 G G.length ≠ 0 ∧
    ∀ buf p g, G = 0xFB :: (fm_fetch_bytes buf p (g.Last_size + 2)).1 →
      fm_data buf p g = (0, g, []) ∧ (fm_data buf p g).2.1.disk = g.disk := by
  have h1 := crc16_one_byte_differs F G hF hG hd
  rw [hcrc] at h1
  refine ⟨(one_byte_differs_length F G hd).symm, fun h => h1 h.symm, ?_⟩
  intro buf p g hG2
  have hlen : G.length = 1 + g.Last_size + 2 := by
    rw [hG2, List.length_cons, fm_fetch_bytes_length]; omega
  have hne : crc16 (0xFB :: (fm_fetch_bytes buf p (g.Last_size + 2)).1) (1 + g.Last_size + 2)
      ≠ 0 := by
    rw [← hG2, ← hlen]
    exact fun h => h1 h.symm
  have e := fm_data_fail buf p g (by rw [fm_valid_data_crc buf p _ hne])
  rw [e]
  exact ⟨rfl, rfl⟩

set_option maxRecDepth 100000 in
theorem crc16_single_byte_witness :
    crc16 [0xFB, 0x11, 0x22, 0xEB, 0x5D] 5 = 0 ∧ crc16 [0xFB, 0x11, 0x23, 0xEB, 0x5D] 5 ≠ 0 :=
  ⟨by decide,
   (crc16_single_byte [0xFB, 0x11, 0x22, 0xEB, 0x5D] [0xFB, 0x11, 0x23, 0xEB, 0x5D]
     (by decide) (by decide) (by decide)
     ⟨[0xFB, 0x11], 0x22, 0x23, [0xEB, 0x5D], rfl, rfl, by decide⟩).2.1⟩

/-! ## Replaying a sequence of `disk_add` calls -/

theorem disk_add_all_nil (d : Disk) : disk_add_all d [] = d := rfl

theorem disk_add_all_cons (d : Disk) (c : AddCall) (cs : List AddCall) :
    disk_add_all d (c :: cs) =
      disk_add_all (disk_add d c.track c.side c.sector c.size c.data).1 cs := rfl

theorem disk_add_all_append (d : Disk) (cs1 cs2 : List AddCall) :
    disk_add_all d (cs1 ++ cs2) = disk_add_all (disk_add_all d cs1) cs2 := by
  unfold disk_add_all
  rw [List.foldl_append]

theorem disk_add_logs_append (cs1 cs2 : List AddCall) (d : Disk) :
    disk_add_logs d (cs1 ++ cs2) =
      disk_add_logs d cs1 ++ disk_add_logs (disk_add_all d cs1) cs2 := by
  induction cs1 generalizing d with
  | nil => rfl
  | cons c cs ih =>
    simp only [List.cons_append, disk_add_logs, disk_add_all_cons, List.append_eq, ih,
      List.append_assoc]

theorem inconsistencies_append (l1 l2 : List Msg) :
    inconsistencies (l1 ++ l2) = inconsistencies l1 ++ inconsistencies l2 := by
  unfold inconsistencies
  rw [List.filter_append]

theorem inconsistencies_fetch (pre : List Msg) (h : ∀ m ∈ pre, m = Msg.invalid_mfm_bit) :
    inconsistencies pre = [] := by
  unfold inconsistencies
  rw [List.filter_eq_nil_iff]
  intro m hm
  rw [h m hm]
  decide

theorem mem_inconsistencies (log : List Msg) :
    (Msg.inconsistent_size ∈ inconsistencies log ↔ Msg.inconsistent_size ∈ log) ∧
    (Msg.inconsistent_data ∈ inconsistencies log ↔ Msg.inconsistent_data ∈ log) := by
  unfold inconsistencies
  simp [List.mem_filter, is_inconsistency]

theorem disk_ext_refl (d : Disk) : disk_ext d d := fun _ _ _ => rfl

theorem disk_ext_trans (d e f : Disk) (h1 : disk_ext d e) (h2 : disk_ext e f) :
    disk_ext d f := by
  intro t s h
  have e1 := h1 t s h
  rw [← e1]
  exact h2 t s (by rw [e1]; exact h)

theorem occupied_ne (x : sector_t) (h : ¬ (x.size = 0 ∧ x.data = none)) : x ≠ ⟨0, none⟩ := by
  intro e
  rw [e] at h
  exact h ⟨rfl, rfl⟩

theorem disk_ext_add (d : Disk) (track side sector size : Nat) (data : Option (List Nat)) :
    disk_ext d (disk_add d track side sector size data).1 :=
  fun t s h => disk_add_keeps d track side sector size data t s (occupied_ne _ h)

theorem disk_ext_add_all (cs : List AddCall) (d : Disk) : disk_ext d (disk_add_all d cs) :=
  fun t s h => disk_add_all_keeps cs d t s (occupied_ne _ h)

/-- A call repeated on an image that keeps the occupied slots of its first
result changes nothing and prints what it printed the first time. -/
theorem disk_add_replay (d e : Disk) (track side sector size : Nat)
    (data : Option (List Nat))
    (h : disk_ext (disk_add d track side sector size data).1 e) :
    disk_add e track side sector size data = (e, (disk_add d track side sector size data).2) := by
  unfold disk_add at h ⊢
  by_cases hv : track ≥ NTRACKS ∨ side ≥ NSIDES ∨ sector ≥ NSECTORS ∨ valid_size size = false
  · simp only [if_pos hv]
  · simp only [if_neg hv] at h ⊢
    cases data with
    | none => rfl
    | some dd =>
      simp only at h ⊢
      by_cases he : (d track sector).size = 0 ∧ (d track sector).data = none
      · simp only [if_pos he] at h ⊢
        have e1 := h track sector (by rw [Disk_set_same]; simp)
        rw [Disk_set_same] at e1
        have e2 : ¬ ((e track sector).size = 0 ∧ (e track sector).data = none) := by
          rw [e1]; simp
        simp only [e1, reduceCtorEq, and_false, if_false]
      · simp only [if_neg he] at h ⊢
        have e1 := h track sector he
        have e2 : ¬ ((e track sector).size = 0 ∧ (e track sector).data = none) := by
          rw [e1]; exact he
        simp only [e1, if_neg he]

theorem disk_add_all_replay (cs : List AddCall) (d e : Disk)
    (h : disk_ext (disk_add_all d cs) e) :
    disk_add_all e cs = e ∧ disk_add_logs e cs = disk_add_logs d cs := by
  induction cs generalizing d with
  | nil => exact ⟨rfl, rfl⟩
  | cons c cs ih =>
    rw [disk_add_all_cons] at h
    have h1 : disk_ext (disk_add d c.track c.side c.sector c.size c.data).1 e :=
      disk_ext_trans _ _ _ (disk_ext_add_all cs _) h
    have h2 := disk_add_replay d e c.track c.side c.sector c.size c.data h1
    have h3 := ih _ h
    rw [disk_add_all_cons, h2]
    simp only [disk_add_logs, h2]
    exact ⟨h3.1, by rw [h3.2]⟩

theorem disk_add_all_twice (cs : List AddCall) (d : Disk) :
    disk_add_all (disk_add_all d cs) cs = disk_add_all d cs ∧
    disk_add_logs (disk_add_all d cs) cs = disk_add_logs d cs :=
  disk_add_all_replay cs d _ (disk_ext_refl _)

/-! ## The calls a decoder run makes do not depend on the image -/

theorem fm_addr_calls (buf : List Nat) (p a b c e : Nat) :
    ∃ k a1 b1 c1 e1, ∀ d : Disk, fm_addr buf p ⟨a, b, c, e, d⟩ = (k, ⟨a1, b1, c1, e1, d⟩) := by
  unfold fm_addr
  simp only [fm_valid_addr_eq]
  split
  · rename_i h
    refine ⟨(fm_fetch_bytes buf p 6).2 - p, (fm_fetch_bytes buf p 6).1.getD 0 0,
      (fm_fetch_bytes buf p 6).1.getD 1 0, (fm_fetch_bytes buf p 6).1.getD 2 0,
      128 <<< (fm_fetch_bytes buf p 6).1.getD 3 0, fun d => ?_⟩
    have hpos := fm_fetch_bytes_pos buf p 6
    have hne : (fm_fetch_bytes buf p 6).2 - p ≠ 0 := by omega
    simp only [ne_eq, hne, not_false_eq_true, if_true]
  · exact ⟨0, 77, 1, 33, 0, fun d => rfl⟩

theorem fm_data_calls (buf : List Nat) (p a b c e : Nat) :
    ∃ cs k a1 b1 c1 e1, ∀ d : Disk, fm_data buf p ⟨a, b, c, e, d⟩ =
      (k, ⟨a1, b1, c1, e1, disk_add_all d cs⟩, disk_add_logs d cs) := by
  unfold fm_data
  by_cases h : (fm_valid_data buf p e).1 = 0
  · refine ⟨[], 0, a, b, c, e, fun d => ?_⟩
    simp only [h, ne_eq, not_true_eq_false, if_false]
    rfl
  · refine ⟨[⟨a, b, c, e, some (fm_valid_data buf p e).2⟩], (fm_valid_data buf p e).1,
      77, 1, 33, 0, fun d => ?_⟩
    simp only [h, ne_eq, not_false_eq_true, if_true, disk_add_logs, List.append_nil]
    rfl

theorem fm_deld_calls (buf : List Nat) (p a b c e : Nat) :
    ∃ cs k a1 b1 c1 e1, ∀ d : Disk, fm_deld buf p ⟨a, b, c, e, d⟩ =
      (k, ⟨a1, b1, c1, e1, disk_add_all d cs⟩, disk_add_logs d cs) := by
  unfold fm_deld
  by_cases h : (fm_valid_deld buf p e).1 = 0
  · refine ⟨[], 0, a, b, c, e, fun d => ?_⟩
    simp only [h, ne_eq, not_true_eq_false, if_false]
    rfl
  · refine ⟨[⟨a, b, c, e, some (fm_valid_deld buf p e).2⟩], (fm_valid_deld buf p e).1,
      77, 1, 33, 0, fun d => ?_⟩
    simp only [h, ne_eq, not_false_eq_true, if_true, disk_add_logs, List.append_nil]
    rfl

theorem fm_mark_calls (buf : List Nat) (i a b c e : Nat) :
    ∃ cs k tag a1 b1 c1 e1, ∀ d : Disk, fm_mark buf i ⟨a, b, c, e, d⟩ =
      (k, tag, ⟨a1, b1, c1, e1, disk_add_all d cs⟩, disk_add_logs d cs) := by
  unfold fm_mark
  by_cases h1 : mark_match buf i FM_indx_mark 12 = true
  · exact ⟨[], 12, 73, 77, 1, 33, 0, fun d => by simp only [h1, if_true]; rfl⟩
  · by_cases h2 : mark_match buf i FM_addr_mark 12 = true
    · obtain ⟨k, a1, b1, c1, e1, h⟩ := fm_addr_calls buf (i + 12) a b c e
      exact ⟨[], _, 65, a1, b1, c1, e1, fun d => by simp only [h1, h2, if_true, if_false, h d]; rfl⟩
    · by_cases h3 : mark_match buf i FM_data_mark 12 = true
      · obtain ⟨cs, k, a1, b1, c1, e1, h⟩ := fm_data_calls buf (i + 12) a b c e
        exact ⟨cs, _, 68, a1, b1, c1, e1, fun d => by
          simp only [h1, h2, h3, if_true, if_false, Bool.false_eq_true, h d]; rfl⟩
      · by_cases h4 : mark_match buf i FM_deld_mark 11 = true
        · obtain ⟨cs, k, a1, b1, c1, e1, h⟩ := fm_deld_calls buf (i + 11) a b c e
          exact ⟨cs, _, 100, a1, b1, c1, e1,
            fun d => by
            simp only [h1, h2, h3, h4, if_true, if_false, Bool.false_eq_true, h d]; rfl⟩
        · exact ⟨[], 0, 0, a, b, c, e, fun d => by simp only [h1, h2, h3, h4, if_false]; rfl⟩

theorem fm_loop_calls (fuel : Nat) (buf : List Nat) (n i a b c e : Nat) :
    ∃ cs, ∀ d : Disk, (fm_loop fuel buf n i ⟨a, b, c, e, d⟩).1.disk = disk_add_all d cs ∧
      inconsistencies (fm_loop fuel buf n i ⟨a, b, c, e, d⟩).2 =
        inconsistencies (disk_add_logs d cs) := by
  induction fuel generalizing buf i a b c e with
  | zero => exact ⟨[], fun d => ⟨rfl, rfl⟩⟩
  | succ fuel ih =>
    by_cases hi : i < n
    · obtain ⟨cs1, k, tag, a1, b1, c1, e1, h1⟩ := fm_mark_calls buf i a b c e
      obtain ⟨cs2, h2⟩ := ih (mark_used buf i k tag) (i + k + 1) a1 b1 c1 e1
      refine ⟨cs1 ++ cs2, fun d => ?_⟩
      have h3 := h2 (disk_add_all d cs1)
      simp only [fm_loop, if_pos hi, h1 d]
      rw [disk_add_all_append, disk_add_logs_append, inconsistencies_append,
        inconsistencies_append, h3.1, h3.2]
      exact ⟨rfl, rfl⟩
    · exact ⟨[], fun d => by simp only [fm_loop, if_neg hi]; exact ⟨rfl, rfl⟩⟩

theorem fm_decode_calls (samples : List Nat) (split a b c e : Nat) :
    ∃ cs, ∀ d : Disk, (fm_decode samples split ⟨a, b, c, e, d⟩).1.disk = disk_add_all d cs ∧
      inconsistencies (fm_decode samples split ⟨a, b, c, e, d⟩).2 =
        inconsistencies (disk_add_logs d cs) := by
  unfold fm_decode
  exact fm_loop_calls _ _ _ _ a b c e

theorem mfm_fetch_bit_msgs (buf : List Nat) (p : Nat) :
    ∀ m ∈ (mfm_fetch_bit buf p).2, m = Msg.invalid_mfm_bit := by
  unfold mfm_fetch_bit
  simp only
  split
  · simp
  · split
    · simp
    · simp

theorem mfm_fetch_loop_msgs (buf : List Nat) (k byte p : Nat) :
    ∀ m ∈ (mfm_fetch_loop buf k byte p).2.2, m = Msg.invalid_mfm_bit := by
  induction k generalizing byte p with
  | zero => simp [mfm_fetch_loop]
  | succ k ih =>
    simp only [mfm_fetch_loop, List.mem_append]
    rintro m (h | h)
    · exact mfm_fetch_bit_msgs buf p m h
    · exact ih _ _ m h

theorem mfm_fetch_bytes_msgs (buf : List Nat) (p count : Nat) :
    ∀ m ∈ (mfm_fetch_bytes buf p count).2.2, m = Msg.invalid_mfm_bit := by
  induction count generalizing p with
  | zero => simp [mfm_fetch_bytes]
  | succ k ih =>
    simp only [mfm_fetch_bytes, List.mem_append]
    rintro m (h | h)
    · exact mfm_fetch_loop_msgs buf 8 0 p m h
    · exact ih _ m h

theorem mfm_valid_data_msgs (buf : List Nat) (p size : Nat) :
    ∀ m ∈ (mfm_valid_data buf p size).2.2, m = Msg.invalid_mfm_bit := by
  unfold mfm_valid_data
  split
  · simp
  · simp only
    split
    · exact mfm_fetch_bytes_msgs buf p _
    · exact mfm_fetch_bytes_msgs buf p _

theorem mfm_valid_addr_eq (buf : List Nat) (p : Nat) (g : Globals) :
    mfm_valid_addr buf p g =
      if crc16 (mfm_fetch_bytes buf p 10).1 10 = 0 ∧
        (mfm_fetch_bytes buf p 10).1.getD 4 0 < 77 ∧ (mfm_fetch_bytes buf p 10).1.getD 5 0 < 1 ∧
        (mfm_fetch_bytes buf p 10).1.getD 6 0 < 33 ∧ (mfm_fetch_bytes buf p 10).1.getD 7 0 < 4
      then
        ((mfm_fetch_bytes buf p 10).2.1 - p,
         ⟨(mfm_fetch_bytes buf p 10).1.getD 4 0, (mfm_fetch_bytes buf p 10).1.getD 5 0,
          (mfm_fetch_bytes buf p 10).1.getD 6 0, 128 <<< (mfm_fetch_bytes buf p 10).1.getD 7 0,
          g.disk⟩, (mfm_fetch_bytes buf p 10).2.2)
      else (0, g, (mfm_fetch_bytes buf p 10).2.2) := by
  unfold mfm_valid_addr
  simp only [NTRACKS, NSIDES, NSECTORS, NSIZES, ge_iff_le, ne_eq]
  generalize (mfm_fetch_bytes buf p 10).1 = bs
  generalize (mfm_fetch_bytes buf p 10).2.1 = e
  generalize (mfm_fetch_bytes buf p 10).2.2 = ms
  by_cases h0 : crc16 bs 10 = 0
  · by_cases h1 : bs.getD 4 0 < 77
    · by_cases h2 : bs.getD 5 0 < 1
      · by_cases h3 : bs.getD 6 0 < 33
        · by_cases h4 : bs.getD 7 0 < 4
          · rw [if_neg (not_not.2 h0), if_neg (Nat.not_le.2 h1), if_neg (Nat.not_le.2 h2),
              if_neg (Nat.not_le.2 h3), if_neg (Nat.not_le.2 h4), if_pos ⟨h0, h1, h2, h3, h4⟩]
          · rw [if_neg (not_not.2 h0), if_neg (Nat.not_le.2 h1), if_neg (Nat.not_le.2 h2),
              if_neg (Nat.not_le.2 h3), if_pos (Nat.not_lt.1 h4), if_neg (fun h => h4 h.2.2.2.2)]
        · rw [if_neg (not_not.2 h0), if_neg (Nat.not_le.2 h1), if_neg (Nat.not_le.2 h2),
            if_pos (Nat.not_lt.1 h3), if_neg (fun h => h3 h.2.2.2.1)]
      · rw [if_neg (not_not.2 h0), if_neg (Nat.not_le.2 h1), if_pos (Nat.not_lt.1 h2),
          if_neg (fun h => h2 h.2.2.1)]
    · rw [if_neg (not_not.2 h0), if_pos (Nat.not_lt.1 h1), if_neg (fun h => h1 h.2.1)]
  · rw [if_pos h0, if_neg (fun h => h0 h.1)]

theorem mfm_addr_calls (buf : List Nat) (p a b c e : Nat) :
    ∃ k a1 b1 c1 e1 pre, (∀ m ∈ pre, m = Msg.invalid_mfm_bit) ∧
      ∀ d : Disk, mfm_addr buf p ⟨a, b, c, e, d⟩ = (k, ⟨a1, b1, c1, e1, d⟩, pre) := by
  unfold mfm_addr
  simp only [mfm_valid_addr_eq]
  split
  · by_cases hne : (mfm_fetch_bytes buf p 10).2.1 - p = 0
    · refine ⟨(mfm_fetch_bytes buf p 10).2.1 - p, 77, 1, 33, 0,
        (mfm_fetch_bytes buf p 10).2.2, mfm_fetch_bytes_msgs buf p 10, fun d => ?_⟩
      simp only [ne_eq, hne, not_true_eq_false, if_false]
      rfl
    · refine ⟨(mfm_fetch_bytes buf p 10).2.1 - p, (mfm_fetch_bytes buf p 10).1.getD 4 0,
        (mfm_fetch_bytes buf p 10).1.getD 5 0, (mfm_fetch_bytes buf p 10).1.getD 6 0,
        128 <<< (mfm_fetch_bytes buf p 10).1.getD 7 0, (mfm_fetch_bytes buf p 10).2.2,
        mfm_fetch_bytes_msgs buf p 10, fun d => ?_⟩
      simp only [ne_eq, hne, not_false_eq_true, if_true]
  · exact ⟨0, 77, 1, 33, 0, (mfm_fetch_bytes buf p 10).2.2, mfm_fetch_bytes_msgs buf p 10,
      fun d => rfl⟩

theorem mfm_data_calls (buf : List Nat) (p a b c e : Nat) :
    ∃ cs k a1 b1 c1 e1 pre, (∀ m ∈ pre, m = Msg.invalid_mfm_bit) ∧
      ∀ d : Disk, mfm_data buf p ⟨a, b, c, e, d⟩ =
        (k, ⟨a1, b1, c1, e1, disk_add_all d cs⟩, pre ++ disk_add_logs d cs) := by
  unfold mfm_data
  by_cases h : (mfm_valid_data buf p e).1 = 0
  · refine ⟨[], 0, a, b, c, e, (mfm_valid_data buf p e).2.2, mfm_valid_data_msgs buf p e,
      fun d => ?_⟩
    simp only [h, ne_eq, not_true_eq_false, if_false, disk_add_logs, List.append_nil]
    rfl
  · refine ⟨[⟨a, b, c, e, some (mfm_valid_data buf p e).2.1⟩], (mfm_valid_data buf p e).1,
      77, 1, 33, 0, (mfm_valid_data buf p e).2.2, mfm_valid_data_msgs buf p e, fun d => ?_⟩
    simp only [h, ne_eq, not_false_eq_true, if_true, disk_add_logs, List.append_nil]
    rfl

theorem mfm_deld_calls (buf : List Nat) (p a b c e : Nat) :
    ∃ cs k a1 b1 c1 e1 pre, (∀ m ∈ pre, m = Msg.invalid_mfm_bit) ∧
      ∀ d : Disk, mfm_deld buf p ⟨a, b, c, e, d⟩ =
        (k, ⟨a1, b1, c1, e1, disk_add_all d cs⟩, pre ++ disk_add_logs d cs) :=
  mfm_data_calls buf p a b c e

theorem msgs_append (l1 l2 : List Msg) (h1 : ∀ m ∈ l1, m = Msg.invalid_mfm_bit)
    (h2 : ∀ m ∈ l2, m = Msg.invalid_mfm_bit) : ∀ m ∈ l1 ++ l2, m = Msg.invalid_mfm_bit := by
  intro m hm
  rcases List.mem_append.1 hm with h | h
  · exact h1 m h
  · exact h2 m h

theorem mfm_mark_calls (buf : List Nat) (i a b c e : Nat) :
    ∃ cs k mk a1 b1 c1 e1 pre, (∀ m ∈ pre, m = Msg.invalid_mfm_bit) ∧
      ∀ d : Disk, mfm_mark buf i ⟨a, b, c, e, d⟩ =
        (k, mk, ⟨a1, b1, c1, e1, disk_add_all d cs⟩, pre ++ disk_add_logs d cs) := by
  have hmk := mfm_fetch_bytes_msgs buf i 4
  unfold mfm_mark
  simp only
  by_cases h1 : mark_match (mfm_fetch_bytes buf i 4).1 0 MFM_indx_mark 4 = true
  · exact ⟨[], 64, (64, 73), 77, 1, 33, 0, _, hmk, fun d => by
      simp only [h1, if_true, disk_add_logs, List.append_nil]; rfl⟩
  · by_cases h2 : mark_match (mfm_fetch_bytes buf i 4).1 0 MFM_addr_mark 4 = true
    · obtain ⟨k, a1, b1, c1, e1, pre, hp, h⟩ := mfm_addr_calls buf i a b c e
      by_cases hk : k = 0
      · exact ⟨[], 1, (0, 65), a1, b1, c1, e1, _, msgs_append _ _ hmk hp, fun d => by
          simp only [h1, h2, if_true, if_false, Bool.false_eq_true, h d, hk, ne_eq,
            not_true_eq_false, disk_add_logs, List.append_nil]; rfl⟩
      · exact ⟨[], k, (k, 65), a1, b1, c1, e1, _, msgs_append _ _ hmk hp, fun d => by
          simp only [h1, h2, if_true, if_false, Bool.false_eq_true, h d, hk, ne_eq,
            not_false_eq_true, disk_add_logs, List.append_nil]; rfl⟩
    · by_cases h3 : mark_match (mfm_fetch_bytes buf i 4).1 0 MFM_data_mark 4 = true
      · obtain ⟨cs, k, a1, b1, c1, e1, pre, hp, h⟩ := mfm_data_calls buf i a b c e
        by_cases hk : k = 0
        · exact ⟨cs, 1, (0, 68), a1, b1, c1, e1, _, msgs_append _ _ hmk hp, fun d => by
            simp only [h1, h2, h3, if_true, if_false, Bool.false_eq_true, h d, hk, ne_eq,
              not_true_eq_false, List.append_assoc]⟩
        · exact ⟨cs, k, (k, 68), a1, b1, c1, e1, _, msgs_append _ _ hmk hp, fun d => by
            simp only [h1, h2, h3, if_true, if_false, Bool.false_eq_true, h d, hk, ne_eq,
              not_false_eq_true, List.append_assoc]⟩
      · by_cases h4 : mark_match (mfm_fetch_bytes buf i 4).1 0 MFM_deld_mark 4 = true
        · obtain ⟨cs, k, a1, b1, c1, e1, pre, hp, h⟩ := mfm_deld_calls buf i a b c e
          by_cases hk : k = 0
          · exact ⟨cs, 1, (0, 100), a1, b1, c1, e1, _, msgs_append _ _ hmk hp, fun d => by
              simp only [h1, h2, h3, h4, if_true, if_false, Bool.false_eq_true, h d, hk, ne_eq,
                not_true_eq_false, List.append_assoc]⟩
          · exact ⟨cs, k, (k, 100), a1, b1, c1, e1, _, msgs_append _ _ hmk hp, fun d => by
              simp only [h1, h2, h3, h4, if_true, if_false, Bool.false_eq_true, h d, hk, ne_eq,
                not_false_eq_true, List.append_assoc]⟩
        · exact ⟨[], 1, (0, 0), a, b, c, e, _, hmk, fun d => by
            simp only [h1, h2, h3, h4, if_false, Bool.false_eq_true, disk_add_logs,
              List.append_nil]; rfl⟩

theorem mfm_loop_calls (fuel : Nat) (buf : List Nat) (n i a b c e : Nat) :
    ∃ cs, ∀ d : Disk, (mfm_loop fuel buf n i ⟨a, b, c, e, d⟩).1.disk = disk_add_all d cs ∧
      inconsistencies (mfm_loop fuel buf n i ⟨a, b, c, e, d⟩).2 =
        inconsistencies (disk_add_logs d cs) := by
  induction fuel generalizing buf i a b c e with
  | zero => exact ⟨[], fun d => ⟨rfl, rfl⟩⟩
  | succ fuel ih =>
    by_cases hi : i < n
    · obtain ⟨cs1, k, mk, a1, b1, c1, e1, pre, hp, h1⟩ := mfm_mark_calls buf i a b c e
      obtain ⟨cs2, h2⟩ := ih (mark_used buf i mk.1 mk.2) (i + k) a1 b1 c1 e1
      refine ⟨cs1 ++ cs2, fun d => ?_⟩
      have h3 := h2 (disk_add_all d cs1)
      simp only [mfm_loop, if_pos hi, h1 d]
      rw [disk_add_all_append, disk_add_logs_append, inconsistencies_append,
        inconsistencies_append, inconsistencies_append, inconsistencies_fetch pre hp,
        h3.1, h3.2]
      exact ⟨rfl, rfl⟩
    · exact ⟨[], fun d => by simp only [mfm_loop, if_neg hi]; exact ⟨rfl, rfl⟩⟩

theorem mfm_decode_calls (samples : List Nat) (lo hi a b c e : Nat) :
    ∃ cs, ∀ d : Disk, (mfm_decode samples lo hi ⟨a, b, c, e, d⟩).1.disk = disk_add_all d cs ∧
      inconsistencies (mfm_decode samples lo hi ⟨a, b, c, e, d⟩).2 =
        inconsistencies (disk_add_logs d cs) := by
  unfold mfm_decode
  exact mfm_loop_calls _ _ _ _ a b c e

theorem mfm_decode_mem_calls (samples : List Nat) (lo hi : Nat) (junk : List Nat)
    (a b c e : Nat) :
    ∃ cs, ∀ d : Disk,
      (mfm_decode_mem samples lo hi junk ⟨a, b, c, e, d⟩).1.disk = disk_add_all d cs ∧
      inconsistencies (mfm_decode_mem samples lo hi junk ⟨a, b, c, e, d⟩).2 =
        inconsistencies (disk_add_logs d cs) := by
  unfold mfm_decode_mem
  exact mfm_loop_calls _ _ _ _ a b c e

theorem process_calls (samples junk : List Nat) :
    ∃ cs, ∀ g : Globals, (process samples junk g).1.disk = disk_add_all g.disk cs ∧
      inconsistencies (process samples junk g).2 =
        inconsistencies (disk_add_logs g.disk cs) := by
  unfold process
  by_cases hn : (samples.take MAX_SAMPLES).length = 0
  · exact ⟨[], fun g => by simp only [hn, if_true]; exact ⟨rfl, rfl⟩⟩
  · by_cases hf : determine_format (samples.take MAX_SAMPLES) (samples.take MAX_SAMPLES).length
        = TT_FM
    · obtain ⟨cs, h⟩ := fm_decode_calls (samples.take MAX_SAMPLES) FM_SPLIT 77 1 33 0
      exact ⟨cs, fun g => by simp only [hn, hf, if_true, if_false]; exact h g.disk⟩
    · by_cases hm : determine_format (samples.take MAX_SAMPLES)
          (samples.take MAX_SAMPLES).length = TT_MFM
      · obtain ⟨cs, h⟩ := mfm_decode_mem_calls (samples.take MAX_SAMPLES) MFM_SPLIT_LO
          MFM_SPLIT_HI junk 77 1 33 0
        exact ⟨cs, fun g => by simp only [hn, hf, hm, if_true, if_false]; exact h g.disk⟩
      · exact ⟨[], fun g => by simp only [hn, hf, hm, if_false]; exact ⟨rfl, rfl⟩⟩

theorem process_again (samples junk : List Nat) (g : Globals) :
    (process samples junk (process samples junk g).1).1.disk = (process samples junk g).1.disk ∧
    inconsistencies (process samples junk (process samples junk g).1).2 =
      inconsistencies (process samples junk g).2 := by
  obtain ⟨cs, h⟩ := process_calls samples junk
  have h1 := h g
  have h2 := h (process samples junk g).1
  have h3 := disk_add_all_twice cs g.disk
  exact ⟨by rw [h2.1, h1.1, h3.1], by rw [h2.2, h1.2, h1.1, h3.2]⟩

/-! ### The FM track image as an input of `process` -/

theorem flux_from_le (cells : List Bool) (d : Nat) :
    ∀ x ∈ flux_from d cells, x ≤ d + cells.length := by
  induction cells generalizing d with
  | nil => simp [flux_from]
  | cons b r ih =>
    cases b with
    | true =>
      simp only [flux_from, List.mem_cons, List.length_cons]
      rintro x (rfl | hx)
      · omega
      · have := ih 1 x hx
        omega
    | false =>
      simp only [flux_from, List.length_cons]
      intro x hx
      have := ih (d + 1) x hx
      omega

theorem flux_from_length_le (cells : List Bool) (d : Nat) :
    (flux_from d cells).length ≤ cells.length := by
  induction cells generalizing d with
  | nil => simp [flux_from]
  | cons b r ih =>
    cases b with
    | true =>
      simp only [flux_from, List.length_cons]
      have := ih 1
      omega
    | false =>
      simp only [flux_from, List.length_cons]
      have := ih (d + 1)
      omega

theorem fm_samples_length_le (cells : List Bool) : (fm_samples cells).length ≤ cells.length := by
  unfold fm_samples flux
  rw [List.length_map, List.length_tail]
  have := flux_from_length_le cells 0
  omega

theorem fm_samples_bucket (cells : List Bool) (hl : cells.length ≤ 50000000) :
    ∀ x ∈ fm_samples cells, sample_to_us x ≠ 3 := by
  intro x hx
  unfold fm_samples flux at hx
  obtain ⟨d, hd, rfl⟩ := List.mem_map.1 hx
  have h1 := flux_from_le cells 0 d (List.mem_of_mem_tail hd)
  have e1 : ONE_US = 37 := rfl
  have e2 : TWO_US = 75 := rfl
  unfold sample_to_us
  simp only [e1, e2, MAX_US]
  rw [Nat.mod_eq_of_lt (by omega)]
  split <;> omega

theorem determine_format_fm (samples : List Nat) (hmax : samples.length ≤ MAX_SAMPLES)
    (h : ∀ x ∈ samples, sample_to_us x ≠ 3) :
    determine_format samples samples.length = TT_FM := by
  rw [determine_format_eq samples hmax]
  have h0 : samples.countP (fun x => sample_to_us x == 3) = 0 := by
    rw [List.countP_eq_zero]
    intro x hx
    simpa using h x hx
  rw [h0]
  simp

theorem process_fm_samples (cells : List Bool) (junk : List Nat) (g : Globals)
    (hl : cells.length ≤ MAX_SAMPLES) (hne : fm_samples cells ≠ []) :
    process (fm_samples cells) junk g =
      fm_decode (fm_samples cells) FM_SPLIT (sector_none g) := by
  have e0 : MAX_SAMPLES = 200000 := rfl
  have h1 : (fm_samples cells).length ≤ MAX_SAMPLES :=
    Nat.le_trans (fm_samples_length_le cells) hl
  have h2 : (fm_samples cells).take MAX_SAMPLES = fm_samples cells := List.take_of_length_le h1
  have h3 : (fm_samples cells).length ≠ 0 := fun h => hne (List.length_eq_zero.1 h)
  unfold process
  simp only [h2, h3, if_false,
    determine_format_fm _ h1 (fm_samples_bucket cells (by omega)), if_true]

theorem fm_cells_length (items : List (Nat × Nat)) : (fm_cells items).length = 16 * items.length := by
  induction items with
  | nil => rfl
  | cons x xs ih =>
    unfold fm_cells at ih ⊢
    rw [List.flatMap_cons, List.length_append, ih]
    simp only [fm_cells_byte, List.length_cons, List.length_nil]
    omega

theorem process_fm_track_first (junk : List Nat) :
    process (fm_samples (fm_cells (fm_track 40 26 27 5 3 0 (List.replicate 128 0)))) junk
        Globals_init =
      (⟨NTRACKS, NSIDES, NSECTORS, 0,
        Disk_set Disk_empty 5 3 ⟨128 <<< 0, some (List.replicate 128 0)⟩⟩, []) := by
  have hrun := fm_decode_track_run 40 26 26 5 3 0 (List.replicate 128 0) (by decide) (by decide)
    (by decide) (List.length_replicate _ _) (replicate_lt 128 0 (by decide))
  have hlen : (fm_cells (fm_track 40 26 27 5 3 0 (List.replicate 128 0))).length
      ≤ MAX_SAMPLES := by
    have e : (fm_track 40 26 27 5 3 0 (List.replicate 128 0)).length = 261 := by
      simp only [fm_track, fm_plain, crc_bytes, List.length_append, List.length_map,
        List.length_replicate, List.length_cons, List.length_nil]
    rw [fm_cells_length, e]
    decide
  by_cases hne : fm_samples (fm_cells (fm_track 40 26 27 5 3 0 (List.replicate 128 0))) = []
  · rw [hne] at hrun
    have : (fm_decode [] FM_SPLIT Globals_init).1.disk 5 3 = ⟨0, none⟩ := by decide
    rw [hrun] at this
    simp [Disk_set] at this
  · rw [process_fm_samples _ _ _ hlen hne]
    exact hrun

/-- When both passes find the same bytes behind the zero pad of `mfm_decode`
(and on every FM track, where nothing behind the pad is read): for every sample
sequence, every starting disk image and every header context, running `process`
on the same samples a second time, right after the first, leaves exactly the
disk image the first run left; and when the first run printed neither
"Inconsistent sector size" nor "Inconsistent sector data", the second run
prints neither.  Under that hypothesis no call of either run meets a slot of
another size, so `disk_add` compares only bytes its handler wrote
(`disk_add_tail`). -/
theorem process_same_memory_twice (samples junk : List Nat) (g : Globals) :
    (process samples junk (process samples junk g).1).1.disk = (process samples junk g).1.disk ∧
    (Msg.inconsistent_size ∉ (process samples junk g).2 →
      Msg.inconsistent_data ∉ (process samples junk g).2 →
      Msg.inconsistent_size ∉ (process samples junk (process samples junk g).1).2 ∧
      Msg.inconsistent_data ∉ (process samples junk (process samples junk g).1).2) := by
  have h := process_again samples junk g
  refine ⟨h.1, ?_⟩
  intro hs hdt
  rw [← (mem_inconsistencies _).1, ← (mem_inconsistencies _).2, h.2,
    (mem_inconsistencies _).1, (mem_inconsistencies _).2]
  exact ⟨hs, hdt⟩

theorem process_same_memory_twice_fm (junk : List Nat) :
    (process (fm_samples (fm_cells (fm_track 40 26 27 5 3 0 (List.replicate 128 0)))) junk
      Globals_init).1.disk 5 3 = ⟨128, some (List.replicate 128 0)⟩ ∧
    (process (fm_samples (fm_cells (fm_track 40 26 27 5 3 0 (List.replicate 128 0)))) junk
      (process (fm_samples (fm_cells (fm_track 40 26 27 5 3 0 (List.replicate 128 0)))) junk
        Globals_init).1).1.disk =
    (process (fm_samples (fm_cells (fm_track 40 26 27 5 3 0 (List.replicate 128 0)))) junk
      Globals_init).1.disk ∧
    Msg.inconsistent_size ∉
      (process (fm_samples (fm_cells (fm_track 40 26 27 5 3 0 (List.replicate 128 0)))) junk
        (process (fm_samples (fm_cells (fm_track 40 26 27 5 3 0 (List.replicate 128 0)))) junk
          Globals_init).1).2 ∧
    Msg.inconsistent_data ∉
      (process (fm_samples (fm_cells (fm_track 40 26 27 5 3 0 (List.replicate 128 0)))) junk
        (process (fm_samples (fm_cells (fm_track 40 26 27 5 3 0 (List.replicate 128 0)))) junk
          Globals_init).1).2 :=
  ⟨by rw [process_fm_track_first]; simp [Disk_set],
   (process_same_memory_twice _ junk Globals_init).1,
   (process_same_memory_twice _ junk Globals_init).2 (by rw [process_fm_track_first]; simp)
     (by rw [process_fm_track_first]; simp)⟩

/-! ## The FM fetch rule on the decoder's stream -/

theorem fm_enc_bits_length (bits : List Bool) :
    (fm_enc_bits bits).length = bits.length + bits.count true := by
  induction bits with
  | nil => rfl
  | cons b bs ih =>
    have e : fm_enc_bits (b :: bs) = (if b then [1, 1] else [0]) ++ fm_enc_bits bs := by
      simp [fm_enc_bits]
    rw [e, List.length_append, ih]
    cases b
    · simp
      omega
    · simp
      omega

theorem fm_enc_byte_length (B : Nat) : (fm_enc_bits (byte_bits B)).length = 8 + popcount B := by
  rw [fm_enc_bits_length]
  rfl

/-- Claim C25: with `enc B` the stream in which, MSB first, a data bit 1 of the
byte `B` is the two entries 1,1 and a data bit 0 is the single entry 0, for
every byte `B` and every following stream `R`, `fm_fetch_byte` at the start of
`enc B ++ R` returns `B` and advances exactly `8 + popcount B` positions; and for
every list of bytes `bs`, `fm_fetch_bytes` at the start of
`enc B1 ++ .. ++ enc Bk ++ R` returns `bs` and stops exactly at the start of `R`. -/
theorem fm_fetch_enc (B : Nat) (hB : B < 256) (bs : List Nat) (hbs : ∀ b ∈ bs, b < 256)
    (R : List Nat) :
    fm_fetch_byte (fm_enc_bits (byte_bits B) ++ R) 0 = (B, 8 + popcount B) ∧
    fm_fetch_bytes (fm_enc bs ++ R) 0 bs.length = (bs, (fm_enc bs).length) ∧
    (fm_enc bs ++ R).drop (fm_fetch_bytes (fm_enc bs ++ R) 0 bs.length).2 = R := by
  have h1 := fm_fetch_byte_enc B hB [] R
  have h2 := fm_fetch_bytes_enc bs hbs [] R
  simp only [List.nil_append, List.length_nil, Nat.zero_add] at h1 h2
  refine ⟨by rw [h1, fm_enc_byte_length], h2, ?_⟩
  rw [h2]
  simp

set_option maxRecDepth 100000 in
/-- Claim C25, at the byte 0xA5 and the bytes `FE 05 00`, followed by `0 1 1`. -/
theorem fm_fetch_enc_witness :
    fm_fetch_byte (fm_enc_bits (byte_bits 0xA5) ++ [0, 1, 1]) 0 = (0xA5, 8 + popcount 0xA5) ∧
    fm_fetch_bytes (fm_enc [0xFE, 0x05, 0x00] ++ [0, 1, 1]) 0 3 =
      ([0xFE, 0x05, 0x00], (fm_enc [0xFE, 0x05, 0x00]).length) :=
  ⟨(fm_fetch_enc 0xA5 (by decide) [0xFE, 0x05, 0x00] (by decide) [0, 1, 1]).1,
   (fm_fetch_enc 0xA5 (by decide) [0xFE, 0x05, 0x00] (by decide) [0, 1, 1]).2.1⟩

/-! ## The RLL expansion of `mfm_decode` -/

theorem mfm_expand_spec (s : Nat) :
    mfm_expand MFM_SPLIT_LO MFM_SPLIT_HI s =
      1 :: List.replicate (if s < 93 then 1 else if s < 130 then 2 else 3) 0 := by
  have e1 : MFM_SPLIT_LO = 93 := rfl
  have e2 : MFM_SPLIT_HI = 130 := rfl
  unfold mfm_expand
  rw [e1, e2]
  by_cases h1 : s < 93
  · rw [if_neg (by omega), if_neg (by omega), if_pos h1]; rfl
  · by_cases h2 : s < 130
    · rw [if_neg (by omega), if_pos (by omega), if_neg h1, if_pos h2]; rfl
    · rw [if_pos (by omega), if_neg h1, if_neg h2]; rfl

theorem rll_spec_eq (samples : List Nat) :
    samples.flatMap (mfm_expand MFM_SPLIT_LO MFM_SPLIT_HI) = rll_spec 93 130 samples := by
  unfold rll_spec
  congr 1
  funext s
  exact mfm_expand_spec s

theorem rll_spec_length (lo hi : Nat) (samples : List Nat) :
    2 * samples.length ≤ (rll_spec lo hi samples).length ∧
    (rll_spec lo hi samples).length ≤ 4 * samples.length := by
  induction samples with
  | nil => exact ⟨Nat.le_refl _, Nat.le_refl _⟩
  | cons s ss ih =>
    have e : rll_spec lo hi (s :: ss) =
        (1 :: List.replicate (if s < lo then 1 else if s < hi then 2 else 3) 0) ++
          rll_spec lo hi ss := by
      simp [rll_spec]
    rw [e]
    simp only [List.length_append, List.length_cons, List.length_replicate]
    split
    · omega
    · split <;> omega

/-- Claim C22, counterexample: the sample 130 lies below the 131 of the text, and
`mfm_decode` as invoked by `process` expands it to a 1 followed by three 0s, not
two: the upper threshold `MFM_SPLIT_HI` of the source evaluates to 130. -/
theorem mfm_expand_counterexample :
    MFM_SPLIT_HI = 130 ∧
    [130].flatMap (mfm_expand MFM_SPLIT_LO MFM_SPLIT_HI) = [1, 0, 0, 0] ∧
    rll_spec 93 131 [130] = [1, 0, 0] ∧
    ∀ g, mfm_decode [130] MFM_SPLIT_LO MFM_SPLIT_HI g =
      mfm_loop 4 ([1, 0, 0, 0] ++ List.replicate DECODE_PAD 0) 4 0 g :=
  ⟨rfl, rfl, rfl, fun _ => rfl⟩

/-- Claim C22, amended: for every sample sequence of length `n`, the RLL stream
`mfm_decode` builds when invoked by `process` (thresholds `MFM_SPLIT_LO = 93` and
`MFM_SPLIT_HI = 130`) is the in-order concatenation, over the samples `s`, of a
1 followed by one 0 when `s < 93`, two 0s when `93 ≤ s < 130` and three 0s when
`s ≥ 130`; `nact` is the length of that stream, the scan runs over the stream
followed by `DECODE_PAD` zeros, and `2 n ≤ nact ≤ 4 n`. -/
theorem mfm_decode_expansion (samples : List Nat) (g : Globals) :
    MFM_SPLIT_LO = 93 ∧ MFM_SPLIT_HI = 130 ∧
    mfm_decode samples MFM_SPLIT_LO MFM_SPLIT_HI g =
      mfm_loop (rll_spec 93 130 samples).length
        (rll_spec 93 130 samples ++ List.replicate DECODE_PAD 0)
        (rll_spec 93 130 samples).length 0 g ∧
    2 * samples.length ≤ (rll_spec 93 130 samples).length ∧
    (rll_spec 93 130 samples).length ≤ 4 * samples.length := by
  refine ⟨rfl, rfl, ?_, rll_spec_length 93 130 samples⟩
  unfold mfm_decode
  simp only [rll_spec_eq]

/-! ## Display -/

theorem sector_filled_iff (d : List Nat) (n : Nat) (hn : n ≤ d.length) :
    sector_filled d n = true ↔ ∀ b ∈ d.take n, b = d.getD 0 0 := by
  unfold sector_filled
  rw [List.all_eq_true]
  constructor
  · intro h b hb
    obtain ⟨i, hi, rfl⟩ := List.getElem_of_mem hb
    rw [List.length_take] at hi
    have hi2 : i < d.length := by omega
    have hin : i < n := by omega
    rw [List.getElem_take]
    by_cases h0 : i = 0
    · subst h0
      simp [List.getD_eq_getElem?_getD, List.getElem?_eq_getElem hi2]
    · have hm : i ∈ List.range' 1 (n - 1) := by
        rw [List.mem_range']
        exact ⟨i - 1, by omega, by omega⟩
      have := h i hm
      simp only [beq_iff_eq] at this
      rw [this]
      simp [List.getD_eq_getElem?_getD, List.getElem?_eq_getElem hi2]
  · intro h i hi
    rw [List.mem_range'] at hi
    obtain ⟨k, hk, rfl⟩ := hi
    rw [show 1 + 1 * k = k + 1 by omega]
    have hi2 : k + 1 < d.length := by omega
    have hm : d[k + 1] ∈ d.take n := by
      rw [List.mem_take_iff_getElem]
      exact ⟨k + 1, by rw [Nat.lt_min]; exact ⟨by omega, hi2⟩, rfl⟩
    have := h _ hm
    simp only [beq_iff_eq]
    rw [← this, List.getD_eq_getElem?_getD, List.getElem?_eq_getElem hi2]
    rfl

theorem take_head (d : List Nat) (n : Nat) (hn : n ≤ d.length) (h0 : n ≠ 0) :
    d.getD 0 0 ∈ d.take n := by
  cases d with
  | nil => simp at hn; exact absurd hn h0
  | cons x xs =>
    obtain ⟨m, rfl⟩ : ∃ m, n = m + 1 := ⟨n - 1, by omega⟩
    simp

theorem uniform_iff_filled (d : List Nat) (n : Nat) (hn : n ≤ d.length) (h0 : n ≠ 0) (v : Nat) :
    (∀ b ∈ d.take n, b = v) ↔ (sector_filled d n = true ∧ d.getD 0 0 = v) := by
  rw [sector_filled_iff d n hn]
  constructor
  · intro h
    have hx := h _ (take_head d n hn h0)
    exact ⟨fun b hb => by rw [h b hb, hx], hx⟩
  · rintro ⟨h, rfl⟩
    exact h

theorem human_show_present (sz : Nat) (d : List Nat) (track sector : Nat) (h0 : sz ≠ 0) :
    human_show ⟨sz, some d⟩ track sector =
      if sector_filled d sz then
        if d.getD 0 0 = 0 then ⟨track, sector, sz, Status.ZERO, []⟩
        else ⟨track, sector, sz, Status.FILL (d.getD 0 0), []⟩
      else ⟨track, sector, sz, Status.DATA, sector_dump d sz⟩ := by
  unfold human_show
  simp only [h0, reduceCtorEq, or_self, if_false, Option.getD_some]

/-- Claim C24: `human_show` prints `Status:MISSING` if and only if the record is
empty (size 0 or no data).  For a present record (its `size` bytes readable) it
prints `ZERO` iff all `size` bytes are 0x00, `FILL=0xHH` iff all `size` bytes
equal the same non-zero value `HH`, and `DATA` otherwise, i.e. iff the bytes are
not all equal; the dump follows `DATA` and nothing follows the other three. -/
theorem human_show_status (s : sector_t) (track sector : Nat) :
    ((human_show s track sector).status = Status.MISSING ↔ (s.size = 0 ∨ s.data = none)) ∧
    ∀ d, s.data = some d → s.size ≠ 0 → s.size ≤ d.length →
      ((human_show s track sector).status = Status.ZERO ↔ ∀ b ∈ d.take s.size, b = 0) ∧
      (∀ v, (human_show s track sector).status = Status.FILL v ↔
        (v ≠ 0 ∧ ∀ b ∈ d.take s.size, b = v)) ∧
      ((human_show s track sector).status = Status.DATA ↔
        ¬ ∃ v, ∀ b ∈ d.take s.size, b = v) ∧
      ((human_show s track sector).status = Status.DATA →
        (human_show s track sector).dump = sector_dump d s.size) ∧
      ((human_show s track sector).status ≠ Status.DATA →
        (human_show s track sector).dump = []) := by
  constructor
  · unfold human_show
    by_cases hm : s.size = 0 ∨ s.data = none
    · simp only [hm, if_true]
    · simp only [hm, if_false, iff_false]
      split
      · split <;> simp
      · simp
  · intro d hd h0 hn
    obtain ⟨sz, dt⟩ := s
    simp only at hd h0 hn
    subst hd
    rw [human_show_present sz d track sector h0]
    have hu := uniform_iff_filled d sz hn h0
    by_cases hf : sector_filled d sz = true
    · by_cases hx : d.getD 0 0 = 0
      · rw [if_pos hf, if_pos hx]
        refine ⟨⟨fun _ => (hu 0).2 ⟨hf, hx⟩, fun _ => rfl⟩, fun v => ?_, ?_, ?_, ?_⟩
        · constructor
          · intro h; exact absurd h (by simp)
          · rintro ⟨hv, h⟩
            exact absurd (((hu v).1 h).2.symm.trans hx) hv
        · constructor
          · intro h; exact absurd h (by simp)
          · intro h; exact absurd ⟨0, (hu 0).2 ⟨hf, hx⟩⟩ h
        · intro h; exact absurd h (by simp)
        · intro _; rfl
      · rw [if_pos hf, if_neg hx]
        refine ⟨⟨fun h => absurd h (by simp), fun h => absurd ((hu 0).1 h).2 hx⟩,
          fun v => ?_, ?_, ?_, ?_⟩
        · constructor
          · intro h
            have hv : d.getD 0 0 = v := by simpa using h
            exact ⟨by rw [← hv]; exact hx, (hu v).2 ⟨hf, hv⟩⟩
          · rintro ⟨_, h⟩
            rw [((hu v).1 h).2]
        · constructor
          · intro h; exact absurd h (by simp)
          · intro h; exact absurd ⟨_, (hu _).2 ⟨hf, rfl⟩⟩ h
        · intro h; exact absurd h (by simp)
        · intro _; rfl
    · rw [if_neg hf]
      refine ⟨⟨fun h => absurd h (by simp), fun h => absurd ((hu 0).1 h).1 hf⟩,
        fun v => ?_, ?_, ?_, ?_⟩
      · constructor
        · intro h; exact absurd h (by simp)
        · rintro ⟨_, h⟩; exact absurd ((hu v).1 h).1 hf
      · constructor
        · rintro _ ⟨v, h⟩; exact hf ((hu v).1 h).1
        · intro _; rfl
      · intro _; rfl
      · intro h; exact absurd rfl h

set_option maxRecDepth 100000 in
/-- Claim C24, at four records: 128 bytes 0x00, 128 bytes 0xE5, 127 bytes 0x00
followed by 0x01, and the empty record. -/
theorem human_show_status_witness :
    (human_show ⟨128, some (List.replicate 128 0)⟩ 5 3).status = Status.ZERO ∧
    (human_show ⟨128, some (List.replicate 128 0xE5)⟩ 5 3).status = Status.FILL 0xE5 ∧
    (human_show ⟨128, some (List.replicate 127 0 ++ [1])⟩ 5 3).status = Status.DATA ∧
    (human_show ⟨0, none⟩ 5 3).status = Status.MISSING :=
  ⟨((human_show_status ⟨128, some (List.replicate 128 0)⟩ 5 3).2 (List.replicate 128 0) rfl
      (by decide) (by decide)).1.2 (by decide),
   (((human_show_status ⟨128, some (List.replicate 128 0xE5)⟩ 5 3).2 (List.replicate 128 0xE5)
      rfl (by decide) (by decide)).2.1 0xE5).2 (by decide),
   ((human_show_status ⟨128, some (List.replicate 127 0 ++ [1])⟩ 5 3).2
      (List.replicate 127 0 ++ [1]) rfl (by decide) (by decide)).2.2.1.2
      (by
        rintro ⟨v, h⟩
        have h1 := h 0 (by decide)
        have h2 := h 1 (by decide)
        omega),
   (human_show_status ⟨0, none⟩ 5 3).1.2 (Or.inl rfl)⟩

/-! ## The FM decoder stays inside its buffer -/

theorem mark_match_reads_from_lt (buf : List Nat) (off : Nat) (pat : List Nat) (k i : Nat) :
    ∀ r ∈ mark_match_reads_from buf off pat k i, r < off + i + k := by
  induction k generalizing i with
  | zero => simp [mark_match_reads_from]
  | succ k ih =>
    intro r hr
    simp only [mark_match_reads_from, List.mem_cons] at hr
    rcases hr with rfl | hr
    · omega
    · split at hr
      · simp at hr
      · have := ih (i + 1) r hr
        omega

theorem mark_match_reads_lt (buf : List Nat) (off : Nat) (pat : List Nat) (len : Nat) :
    ∀ r ∈ mark_match_reads buf off pat len, r < off + len := by
  intro r hr
  have := mark_match_reads_from_lt buf off pat len 0 r hr
  omega

theorem fm_fetch_step_bound (buf : List Nat) (n b : Nat) (hP : ∀ q, n ≤ q → buf.getD q 0 = 0)
    (st : Nat × Nat) (hb : st.2 ≤ b) (hn : n ≤ b) :
    (∀ r ∈ fm_fetch_step_reads buf st.2, r ≤ b) ∧ (fm_fetch_step buf st).2 ≤ b + 1 := by
  constructor
  · intro r hr
    unfold fm_fetch_step_reads at hr
    split at hr
    · rename_i h1
      have hlt : st.2 < n := by
        by_contra hc
        rw [hP st.2 (by omega)] at h1
        exact absurd h1 (by decide)
      simp only [List.mem_cons, List.mem_singleton, List.not_mem_nil, or_false] at hr
      rcases hr with rfl | rfl <;> omega
    · simp only [List.mem_singleton] at hr
      omega
  · unfold fm_fetch_step
    simp only
    split
    · rename_i h1
      have hlt : st.2 + 1 < n := by
        by_contra hc
        rw [hP (st.2 + 1) (by omega)] at h1
        exact absurd h1.2 (by decide)
      omega
    · omega

theorem fm_fetch_reads_bound (buf : List Nat) (n : Nat) (hP : ∀ q, n ≤ q → buf.getD q 0 = 0)
    (k b : Nat) (st : Nat × Nat) (hb : st.2 ≤ b) (hn : n ≤ b) :
    (∀ r ∈ fm_fetch_reads buf k st, r < b + k) ∧ ((fm_fetch_step buf)^[k] st).2 ≤ b + k := by
  induction k generalizing b st with
  | zero => exact ⟨by simp [fm_fetch_reads], hb⟩
  | succ k ih =>
    have h1 := fm_fetch_step_bound buf n b hP st hb hn
    have h2 := ih (b + 1) (fm_fetch_step buf st) h1.2 (by omega)
    constructor
    · intro r hr
      simp only [fm_fetch_reads, List.mem_append] at hr
      rcases hr with hr | hr
      · have := h1.1 r hr
        omega
      · have := h2.1 r hr
        omega
    · rw [Function.iterate_succ_apply]
      have := h2.2
      omega

theorem fm_fetch_bytes_reads_bound (buf : List Nat) (n : Nat)
    (hP : ∀ q, n ≤ q → buf.getD q 0 = 0) (count b p : Nat) (hb : p ≤ b) (hn : n ≤ b) :
    ∀ r ∈ fm_fetch_bytes_reads buf p count, r < b + 8 * count := by
  induction count generalizing b p with
  | zero => simp [fm_fetch_bytes_reads]
  | succ k ih =>
    intro r hr
    have h1 := fm_fetch_reads_bound buf n hP 8 b (0, p) hb hn
    simp only [fm_fetch_bytes_reads, List.mem_append] at hr
    rcases hr with hr | hr
    · have := h1.1 r hr
      omega
    · have h2 : (fm_fetch_byte buf p).2 ≤ b + 8 := h1.2
      have := ih (b + 8) (fm_fetch_byte buf p).2 h2 (by omega) r hr
      omega

theorem fm_valid_data_reads_bound (buf : List Nat) (n : Nat)
    (hP : ∀ q, n ≤ q → buf.getD q 0 = 0) (p size : Nat) (hp : p ≤ n + 12) :
    ∀ r ∈ fm_valid_data_reads buf p size, r < n + 8220 := by
  intro r hr
  unfold fm_valid_data_reads at hr
  have e : MAX_SSIZE = 1024 := rfl
  split at hr
  · simp at hr
  · have := fm_fetch_bytes_reads_bound buf n hP (size + 2) (n + 12) p hp (by omega) r hr
    omega

theorem fm_mark_reads_bound (buf : List Nat) (n i : Nat) (g : Globals)
    (hP : ∀ q, n ≤ q → buf.getD q 0 = 0) (hi : i < n) :
    ∀ r ∈ fm_mark_reads buf i g, r < n + 8220 := by
  have hm : ∀ pat len, len ≤ 12 → ∀ r ∈ mark_match_reads buf i pat len, r < n + 8220 := by
    intro pat len hl r hr
    have := mark_match_reads_lt buf i pat len r hr
    omega
  have ha : ∀ r ∈ fm_valid_addr_reads buf (i + 12), r < n + 8220 := by
    intro r hr
    have := fm_fetch_bytes_reads_bound buf n hP 6 (n + 12) (i + 12) (by omega) (by omega) r hr
    omega
  have hd := fm_valid_data_reads_bound buf n hP (i + 12) g.Last_size (by omega)
  have hdd := fm_valid_data_reads_bound buf n hP (i + 11) g.Last_size (by omega)
  intro r hr
  unfold fm_mark_reads at hr
  rcases List.mem_append.1 hr with h | h
  · exact hm _ _ (by omega) r h
  · split at h
    · simp at h
    · rcases List.mem_append.1 h with h | h
      · exact hm _ _ (by omega) r h
      · split at h
        · exact ha r h
        · rcases List.mem_append.1 h with h | h
          · exact hm _ _ (by omega) r h
          · split at h
            · exact hd r h
            · rcases List.mem_append.1 h with h | h
              · exact hm _ _ (by omega) r h
              · split at h
                · exact hdd r h
                · simp at h

theorem mark_used_getD (buf : List Nat) (i c tag q : Nat) (hq : i + c ≤ q) :
    (mark_used buf i c tag).getD q 0 = buf.getD q 0 := by
  have h := mark_used_drop buf i c tag q hq
  have e1 := getD_drop (mark_used buf i c tag) q 0
  have e2 := getD_drop buf q 0
  rw [Nat.add_zero] at e1 e2
  rw [← e1, ← e2, h]

theorem fm_loop_reads_bound (n : Nat) (fuel : Nat) (buf : List Nat) (i : Nat) (g : Globals)
    (hP : i < n → ∀ q, n ≤ q → buf.getD q 0 = 0) :
    ∀ r ∈ fm_loop_reads fuel buf n i g, r < n + 8220 := by
  induction fuel generalizing buf i g with
  | zero => simp [fm_loop_reads]
  | succ fuel ih =>
    intro r hr
    unfold fm_loop_reads at hr
    split at hr
    · rename_i hi
      simp only at hr
      rcases List.mem_append.1 hr with h | h
      · exact fm_mark_reads_bound buf n i g (hP hi) hi r h
      · refine ih _ _ _ ?_ r h
        intro hlt q hq
        rw [mark_used_getD _ _ _ _ _ (by omega)]
        exact hP hi q hq
    · simp at hr

theorem decode_pad_zero (l : List Nat) (m q : Nat) (hq : l.length ≤ q) :
    (l ++ List.replicate m 0).getD q 0 = 0 := by
  rw [List.getD_eq_getElem?_getD, List.getElem?_append_right hq]
  by_cases h : q - l.length < m
  · rw [List.getElem?_eq_getElem (by simpa using h)]
    simp
  · rw [List.getElem?_eq_none (by simpa using h)]
    rfl

theorem fm_decode_reads_bound (samples : List Nat) (split : Nat) (g : Globals) :
    ∀ r ∈ fm_decode_reads samples split g, r < samples.length + 8220 := by
  unfold fm_decode_reads
  simp only
  refine fm_loop_reads_bound samples.length _ _ 0 g ?_
  intro _ q hq
  exact decode_pad_zero _ _ q (by rw [List.length_map]; exact hq)

/-- Claim C23: for every sample sequence of length `n`, every split and every
header context at the start (the reachable ones among them), every index of the
decode buffer that `fm_decode` reads - in the mark tests at the positions
`i < n` and in every step of `fm_fetch_byte`, its look-ahead included, for up to
1024 + 2 bytes - is smaller than `n + DECODE_PAD = n + 16384`, the size of the
buffer; no read goes beyond index `n + 8219`. -/
theorem fm_decode_in_bounds (samples : List Nat) (split : Nat) (g : Globals) (r : Nat)
    (hr : r ∈ fm_decode_reads samples split g) :
    r < samples.length + DECODE_PAD ∧ r < samples.length + 8220 ∧
    r < (samples.map (fun s => if s < split then 1 else 0) ++
      List.replicate DECODE_PAD 0).length := by
  have h := fm_decode_reads_bound samples split g r hr
  have e : DECODE_PAD = 16384 := rfl
  rw [List.length_append, List.length_map, List.length_replicate, e]
  omega

set_option maxRecDepth 100000 in
/-- Claim C23, at the twelve samples of a data mark with the cleared header
context: the two bytes fetched after the mark are read from the pad, up to
index 27. -/
theorem fm_decode_in_bounds_witness :
    27 ∈ fm_decode_reads [75,75,75,150,150,150,75,150,75,75,75,75] FM_SPLIT Globals_init ∧
    27 < 12 + DECODE_PAD :=
  ⟨by decide,
   (fm_decode_in_bounds [75,75,75,150,150,150,75,150,75,75,75,75] FM_SPLIT Globals_init 27
     (by decide)).1⟩

/-! ## The FM deleted-data mark -/

theorem fm_item_iv_deld_ok (cd : Nat × Nat) (h : fm_item_ok cd) :
    fm_item_iv_deld cd = fm_item_iv cd := by
  unfold fm_item_iv_deld
  rcases h with h | h | h | h
  · rcases cd with ⟨c, d⟩
    simp only at h
    subst h
    simp
  · subst h; simp
  · subst h; simp
  · subst h; simp

theorem flux_from_item_deld (cd : Nat × Nat) (h : fm_item_ok cd ∨ cd = (0xC7, 0xF8))
    (k : Nat) (R : List Bool) :
    flux_from k (fm_cells_byte cd.1 cd.2 ++ R) =
      lag k (fm_item_iv_deld cd) ++ flux_from (carry k (fm_item_iv_deld cd)) R := by
  rcases h with h | h
  · rw [fm_item_iv_deld_ok cd h]
    exact flux_from_item cd h k R
  · subst h; rfl

theorem flux_from_items_deld (items : List (Nat × Nat))
    (h : ∀ cd ∈ items, fm_item_ok cd ∨ cd = (0xC7, 0xF8)) (k : Nat) (R : List Bool) :
    flux_from k (fm_cells items ++ R) =
      lag k (items.flatMap fm_item_iv_deld) ++
        flux_from (carry k (items.flatMap fm_item_iv_deld)) R := by
  induction items generalizing k with
  | nil => simp [fm_cells, lag, carry]
  | cons cd items ih =>
    simp only [fm_cells, List.flatMap_cons, List.append_assoc]
    have := ih (fun x hx => h x (List.mem_cons_of_mem _ hx))
    simp only [fm_cells] at this
    rw [flux_from_item_deld cd (h cd (List.mem_cons_self _ _)), this, lag_append, carry_append,
      List.append_assoc]

theorem fm_stream_eq_deld (init : List (Nat × Nat))
    (h : ∀ cd ∈ init, fm_item_ok cd ∨ cd = (0xC7, 0xF8)) :
    fm_stream (init ++ [(0xFF, 0xFF)]) =
      init.flatMap (fun cd => (fm_item_iv_deld cd).map
        (fun d => if d * TWO_US < FM_SPLIT then 1 else 0)) ++ List.replicate 15 1 := by
  have hok : ∀ cd ∈ init ++ [(0xFF, 0xFF)], fm_item_ok cd ∨ cd = (0xC7, 0xF8) := by
    intro cd hcd
    rw [List.mem_append] at hcd
    rcases hcd with hcd | hcd
    · exact h cd hcd
    · simp only [List.mem_singleton] at hcd
      subst hcd
      exact Or.inl (Or.inl rfl)
  have hf := flux_from_items_deld (init ++ [(0xFF, 0xFF)]) hok 0 []
  rw [List.append_nil] at hf
  have hiv : (init ++ [(0xFF, 0xFF)]).flatMap fm_item_iv_deld =
      (init.flatMap fm_item_iv_deld ++ List.replicate 15 1) ++ [1] := by
    rw [List.flatMap_append]
    simp only [List.flatMap_cons, List.flatMap_nil, List.append_nil, List.append_assoc]
    rfl
  have hc := lag_concat 0 ((init ++ [(0xFF, 0xFF)]).flatMap fm_item_iv_deld)
  rw [hiv] at hc
  have hc2 : lag 0 (init.flatMap fm_item_iv_deld ++ List.replicate 15 1 ++ [1]) ++
      [carry 0 (init.flatMap fm_item_iv_deld ++ List.replicate 15 1 ++ [1])] =
      (0 :: (init.flatMap fm_item_iv_deld ++ List.replicate 15 1)) ++ [1] := by
    rw [hc]; rfl
  have hlag := (List.append_inj' hc2 rfl).1
  have hflux : flux (fm_cells (init ++ [(0xFF, 0xFF)])) =
      init.flatMap fm_item_iv_deld ++ List.replicate 15 1 := by
    unfold flux
    rw [hf, hiv]
    simp only [flux_from, List.append_nil]
    rw [hlag]
    rfl
  unfold fm_stream fm_samples
  rw [hflux, List.map_map, List.map_append, List.map_flatMap]
  congr 1

theorem fm_plain_stream_deld (bs : List Nat) :
    (fm_plain bs).flatMap (fun cd => (fm_item_iv_deld cd).map
        (fun d => if d * TWO_US < FM_SPLIT then 1 else 0)) = fm_enc bs := by
  rw [← fm_plain_stream bs]
  apply List.flatMap_congr
  intro cd hcd
  rw [fm_item_iv_deld_ok cd (fm_plain_ok bs cd hcd)]
  rfl

theorem fm_track_deld_stream (g1 g2 g t s c : Nat) (D : List Nat) :
    fm_stream (fm_track_deld g1 g2 (g + 1) t s c D) =
      List.replicate (16 * g1) 1 ++ (List.replicate 48 0 ++ (FM_indx_mark ++
      (List.replicate (16 * g2) 1 ++ (List.replicate 48 0 ++ (FM_addr_mark ++
      (fm_enc ([t, 0, s, c] ++ crc_bytes [0xFE, t, 0, s, c]) ++
      (List.replicate 176 1 ++ (List.replicate 48 0 ++ (FM_deld_stream ++
      (fm_enc (D ++ crc_bytes (0xF8 :: D)) ++
      (List.replicate (16 * g + 15) 1))))))))))) := by
  have e : fm_track_deld g1 g2 (g + 1) t s c D =
      (fm_plain (List.replicate g1 0xFF ++ List.replicate 6 0x00) ++ [(0xD7, 0xFC)] ++
        fm_plain (List.replicate g2 0xFF ++ List.replicate 6 0x00) ++ [(0xC7, 0xFE)] ++
        fm_plain ([t, 0, s, c] ++ crc_bytes [0xFE, t, 0, s, c] ++
          List.replicate 11 0xFF ++ List.replicate 6 0x00) ++ [(0xC7, 0xF8)] ++
        fm_plain (D ++ crc_bytes (0xF8 :: D) ++ List.replicate g 0xFF)) ++ [(0xFF, 0xFF)] := by
    simp only [fm_track_deld, fm_plain, List.replicate_succ', List.map_append, List.append_assoc,
      List.map_cons, List.map_nil]
  rw [e, fm_stream_eq_deld]
  · simp only [List.flatMap_append, fm_plain_stream_deld, fm_enc_append, fm_enc_ones,
      fm_enc_zeros, List.flatMap_cons, List.flatMap_nil, List.append_nil, List.append_assoc]
    have m1 : (fm_item_iv_deld (0xD7, 0xFC)).map
        (fun d => if d * TWO_US < FM_SPLIT then 1 else 0) = FM_indx_mark := by decide
    have m2 : (fm_item_iv_deld (0xC7, 0xFE)).map
        (fun d => if d * TWO_US < FM_SPLIT then 1 else 0) = FM_addr_mark := by decide
    have m3 : (fm_item_iv_deld (0xC7, 0xF8)).map
        (fun d => if d * TWO_US < FM_SPLIT then 1 else 0) = FM_deld_stream := by decide
    rw [m1, m2, m3, ← List.replicate_add]
  · intro cd hcd
    simp only [List.mem_append, List.mem_singleton] at hcd
    rcases hcd with ((((((h | h) | h) | h) | h) | h) | h)
    · exact Or.inl (fm_plain_ok _ cd h)
    · exact Or.inl (Or.inr (Or.inl h))
    · exact Or.inl (fm_plain_ok _ cd h)
    · exact Or.inl (Or.inr (Or.inr (Or.inl h)))
    · exact Or.inl (fm_plain_ok _ cd h)
    · exact Or.inr h
    · exact Or.inl (fm_plain_ok _ cd h)

theorem mark_match_append (w R pat : List Nat) (len : Nat) (h : len ≤ w.length) :
    mark_match (w ++ R) 0 pat len = mark_match w 0 pat len := by
  unfold mark_match
  rw [Bool.eq_iff_iff, List.all_eq_true, List.all_eq_true]
  have e : ∀ i, i ∈ List.range len →
      ((w ++ R).getD (0 + i) 0 == pat.getD i 0) = (w.getD (0 + i) 0 == pat.getD i 0) := by
    intro i hi
    rw [List.mem_range] at hi
    rw [Nat.zero_add, List.getD_append _ _ _ _ (by omega)]
  exact ⟨fun h i hi => by rw [← e i hi]; exact h i hi,
    fun h i hi => by rw [e i hi]; exact h i hi⟩

theorem fm_quiet_append (w R : List Nat) (hw : 12 ≤ w.length) :
    fm_quiet (w ++ R) = fm_quiet w := by
  unfold fm_quiet
  rw [mark_match_append w R _ 12 hw, mark_match_append w R _ 12 hw,
    mark_match_append w R _ 12 hw, mark_match_append w R _ 11 (by omega)]

theorem fm_quiet_all_succ (n : Nat) (x : Nat) (w : List Nat) :
    fm_quiet_all (n + 1) (x :: w) = (fm_quiet (x :: w) && fm_quiet_all n w) := by
  simp only [fm_quiet_all, List.range_succ_eq_map, List.all_cons, List.all_map, List.drop_zero]
  rfl

theorem fm_mark_quiet (s : List Nat) (g : Globals) (h : fm_quiet s = true) :
    fm_mark s 0 g = (0, 0, g, []) := by
  unfold fm_quiet at h
  simp only [Bool.and_eq_true, Bool.not_eq_true'] at h
  exact fm_mark_none s g h.1.1.1 h.1.1.2 h.1.2 h.2

theorem fm_skip_block (blk next T : List Nat) (hn : 11 ≤ next.length)
    (hq : fm_quiet_all blk.length (blk ++ next) = true) (rem : Nat) (g : Globals) :
    fm_run (blk ++ (next ++ T)) rem g = fm_run (next ++ T) (rem - blk.length) g := by
  induction blk generalizing rem with
  | nil => rfl
  | cons x blk ih =>
    rw [List.length_cons, List.cons_append, fm_quiet_all_succ, Bool.and_eq_true] at hq
    have hq0 : fm_quiet ((x :: blk) ++ (next ++ T)) = true := by
      rw [← List.append_assoc, fm_quiet_append _ _ (by simp; omega)]
      exact hq.1
    rw [fm_run_skip _ _ _ (fm_mark_quiet _ g hq0), List.cons_append, List.drop_succ_cons,
      List.drop_zero, ih hq.2]
    have e : rem - 1 - blk.length = rem - (x :: blk).length := by
      simp only [List.length_cons]; omega
    rw [e]

/-- At a deleted-data mark followed by a data byte whose top bit is 0, no mark
pattern of the source matches: the eleventh entry of `FM_deld_mark` falls on the
first interval of the data byte. -/
theorem fm_mark_deld_low (b : Nat) (hb : b < 128) (bs X : List Nat) (g : Globals) :
    fm_mark (FM_deld_stream ++ (fm_enc (b :: bs) ++ X)) 0 g = (0, 0, g, []) := by
  have h7 : b.testBit 7 = false := by
    rw [Nat.testBit_eq_false_of_lt]
    omega
  have e : fm_enc (b :: bs) = 0 :: ((fm_enc_bits (byte_bits b)).tail ++ fm_enc bs) := by
    simp [fm_enc, fm_enc_bits, byte_bits, h7]
  rw [e]
  apply fm_mark_none
  · exact mark_match_false _ 0 _ _ 4 (by decide) (by simp [FM_deld_stream, FM_indx_mark])
  · exact mark_match_false _ 0 _ _ 7 (by decide) (by simp [FM_deld_stream, FM_addr_mark])
  · exact mark_match_false _ 0 _ _ 8 (by decide) (by simp [FM_deld_stream, FM_data_mark])
  · exact mark_match_false _ 0 _ _ 10 (by decide) (by simp [FM_deld_stream, FM_deld_mark])

set_option maxRecDepth 100000 in
theorem fm_enc_deld_zeros :
    fm_enc (List.replicate 128 0 ++ crc_bytes (0xF8 :: List.replicate 128 0)) =
      List.replicate 11 0 ++ (List.replicate 1013 0 ++
        ([0,0,0,1,1,0,0,1,1,1,1,0,0,1,1,0,0,1,1,0,0] ++ [])) := by
  have e : fm_enc (crc_bytes (0xF8 :: List.replicate 128 0)) =
      [0,0,0,1,1,0,0,1,1,1,1,0,0,1,1,0,0,1,1,0,0] := by decide
  rw [fm_enc_append, fm_enc_zeros, e, List.append_nil, ← List.append_assoc,
    ← List.replicate_add]

theorem drop_mark_only (M X : List Nat) : (M ++ X).drop (M.length + 1) = X.drop 1 := by
  rw [← List.drop_drop, List.drop_left]

theorem fm_decode_deld_zeros_run (g1 g2 g t s : Nat) (ht : t < 77) (hs : s < 33) :
    fm_decode (fm_samples (fm_cells (fm_track_deld g1 g2 (g + 1) t s 0 (List.replicate 128 0))))
        FM_SPLIT Globals_init =
      (⟨t, 0, s, 128, Disk_empty⟩, []) := by
  rw [fm_decode_eq_run]
  have hst := fm_track_deld_stream g1 g2 g t s 0 (List.replicate 128 0)
  unfold fm_stream at hst
  have hn : (fm_samples (fm_cells (fm_track_deld g1 g2 (g + 1) t s 0
        (List.replicate 128 0)))).length =
      ((fm_samples (fm_cells (fm_track_deld g1 g2 (g + 1) t s 0 (List.replicate 128 0)))).map
        (fun s => if s < FM_SPLIT then 1 else 0)).length := by
    rw [List.length_map]
  rw [hn, hst, fm_enc_deld_zeros]
  simp only [List.length_append, List.length_replicate, List.append_assoc, List.length_cons,
    List.length_nil]
  have hi : FM_indx_mark.length = 12 := rfl
  have ha : FM_addr_mark.length = 12 := rfl
  have hds : FM_deld_stream.length = 10 := rfl
  rw [hi, ha, hds]
  generalize hLh : (fm_enc ([t, 0, s, 0] ++ crc_bytes [0xFE, t, 0, s, 0])).length = Lh
  -- leading gap and sync
  rw [fm_run_skip_gap _ _ _ _ _ (by omega)]
  -- index mark
  rw [fm_run_mark _ _ _ _ _ _ (fm_mark_indx _ _) (by omega)]
  rw [show (12 : Nat) + 1 = FM_indx_mark.length + 1 from rfl, drop_mark_only]
  rw [fm_run_drop_gap _ _ _ _ _ (by omega)]
  -- address mark
  rw [fm_run_mark _ _ _ _ _ _ (fm_mark_addr t s 0 ht hs (by decide) _ _) (by omega)]
  rw [drop_past_mark FM_addr_mark _ _ _ (by rw [ha])]
  rw [fm_run_drop_gap _ _ _ _ _ (by omega)]
  -- the deleted-data mark is not recognised
  rw [fm_skip_block FM_deld_stream (List.replicate 11 0) _ (by simp) (by decide)]
  rw [fm_run_skip_zeros, fm_run_skip_zeros]
  -- the CRC bytes and the closing gap
  rw [List.nil_append, show 16 * g + 15 = 11 + (16 * g + 4) by omega, List.replicate_add,
    List.append_assoc]
  rw [fm_skip_block _ (List.replicate 11 1) _ (by simp) (by decide)]
  rw [← List.append_assoc, ← List.replicate_add]
  rw [show List.replicate DECODE_PAD 0 = List.replicate DECODE_PAD 0 ++ [] by simp,
    fm_run_skip_ones _ _ _ _ _ (by decide)]
  rw [hi, hds, hLh]
  simp only [List.length_cons, List.length_nil]
  have hz : 16 * g1 + (48 + (12 + (16 * g2 + (48 + (12 + (Lh + (176 + (48 + (10 + (11 + (1013 +
      (12 + 1 + 1 + 1 + 1 + 1 + 1 + 1 + 1 + 1 + (0 + (11 + (16 * g + 4))))))))))))))) -
      (16 * g1 + 48) - (12 + 1) - (16 * g2 + 48 - 1) - (Lh + 12 + 1) - (176 + 48 - 1) - 10 -
      11 - 1013 - (0 + 1 + 1 + 1 + 1 + 1 + 1 + 1 + 1 + 1 + 1 + 1 + 1 + 1 + 1 + 1 + 1 + 1 + 1 +
      1 + 1 + 1) - (11 + (16 * g + 4)) = 0 := by omega
  rw [hz]
  rfl

/-- Claim C21, at the FM track image of track 5, sector 3 whose data field carries
the deleted-data mark (data 0xF8, clock 0xC7) and 128 bytes 0x00 with their
CRC-16: at the position of the mark, with the header context `(5, 0, 3, 128)`,
no mark is recognised, and `fm_decode` over the whole track ends with the header
context still `(5, 0, 3, 128)`, nothing printed and the disk image empty: the
sector is not committed. -/
theorem fm_decode_deld_missing :
    fm_mark (FM_deld_stream ++
        (fm_enc (List.replicate 128 0 ++ crc_bytes (0xF8 :: List.replicate 128 0)) ++
          List.replicate 431 1)) 0 ⟨5, 0, 3, 128, Disk_empty⟩ =
      (0, 0, ⟨5, 0, 3, 128, Disk_empty⟩, []) ∧
    fm_decode (fm_samples (fm_cells (fm_track_deld 40 26 27 5 3 0 (List.replicate 128 0))))
        FM_SPLIT Globals_init =
      (⟨5, 0, 3, 128, Disk_empty⟩, []) ∧
    (fm_decode (fm_samples (fm_cells (fm_track_deld 40 26 27 5 3 0 (List.replicate 128 0))))
        FM_SPLIT Globals_init).1.disk 5 3 = ⟨0, none⟩ := by
  have h := fm_decode_deld_zeros_run 40 26 26 5 3 (by decide) (by decide)
  rw [show (26 : Nat) + 1 = 27 from rfl] at h
  have e : List.replicate 128 0 ++ crc_bytes (0xF8 :: List.replicate 128 0) =
      0 :: (List.replicate 127 0 ++ crc_bytes (0xF8 :: List.replicate 128 0)) := rfl
  refine ⟨?_, h, ?_⟩
  · rw [e]
    exact fm_mark_deld_low 0 (by decide) _ _ _
  · rw [h]
    rfl

/-! ## The invalid MFM pair -/

theorem rll_valid_drop (l : List Nat) (k : Nat) (h : rll_valid l) : rll_valid (l.drop k) := by
  intro q
  rw [getD_drop, getD_drop]
  exact h (k + q)

theorem rll_valid_zero (R : List Nat) (h : rll_valid R) : rll_valid (0 :: R) := by
  intro q
  cases q with
  | zero => left; rfl
  | succ q => exact h q

theorem rll_valid_one (R : List Nat) (h : rll_valid R) : rll_valid (1 :: 0 :: R) := by
  intro q
  cases q with
  | zero => right; exact ⟨rfl, rfl⟩
  | succ q => exact rll_valid_zero R h q

theorem rll_valid_pad (n : Nat) : rll_valid (List.replicate n 0) := by
  intro q
  left
  rw [List.getD_eq_getElem?_getD]
  by_cases hq : q < n
  · rw [List.getElem?_eq_getElem (by simpa using hq)]
    simp
  · rw [List.getElem?_eq_none (by simpa using hq)]
    rfl

theorem rll_valid_expand (lo hi s : Nat) (R : List Nat) (h : rll_valid R) :
    rll_valid (mfm_expand lo hi s ++ R) := by
  unfold mfm_expand
  split
  · exact rll_valid_one _ (rll_valid_zero _ (rll_valid_zero _ h))
  · split
    · exact rll_valid_one _ (rll_valid_zero _ h)
    · exact rll_valid_one _ h

theorem rll_valid_decode (lo hi : Nat) (samples : List Nat) (R : List Nat) (h : rll_valid R) :
    rll_valid (samples.flatMap (mfm_expand lo hi) ++ R) := by
  induction samples with
  | nil => exact h
  | cons s ss ih =>
    rw [List.flatMap_cons, List.append_assoc]
    exact rll_valid_expand lo hi s _ ih

theorem mfm_fetch_bit_valid (l : List Nat) (p : Nat) (h : rll_valid l) :
    (mfm_fetch_bit l p).2 = [] := by
  unfold mfm_fetch_bit
  simp only [Nat.shiftLeft_eq, Nat.pow_one, Nat.pow_zero, Nat.mul_one]
  rcases h p with h0 | ⟨h1, h2⟩
  · rcases h (p + 1) with h3 | ⟨h3, _⟩
    · rw [h0, h3]; rfl
    · rw [h0, h3]; rfl
  · rw [h1, h2]; rfl

theorem mfm_fetch_loop_valid (l : List Nat) (k byte p : Nat) (h : rll_valid l) :
    (mfm_fetch_loop l k byte p).2.2 = [] := by
  induction k generalizing byte p with
  | zero => rfl
  | succ k ih => simp only [mfm_fetch_loop, mfm_fetch_bit_valid l p h, ih, List.append_nil]

theorem mfm_fetch_bytes_valid (l : List Nat) (p count : Nat) (h : rll_valid l) :
    (mfm_fetch_bytes l p count).2.2 = [] := by
  induction count generalizing p with
  | zero => rfl
  | succ k ih =>
    simp only [mfm_fetch_bytes, mfm_fetch_byte, mfm_fetch_loop_valid l 8 0 p h, ih,
      List.append_nil]

theorem disk_add_msgs (disk : Disk) (track side sector size : Nat) (data : Option (List Nat)) :
    Msg.invalid_mfm_bit ∉ (disk_add disk track side sector size data).2 := by
  unfold disk_add
  split
  · simp
  · cases data with
    | none => simp
    | some d =>
      simp only
      intro hm
      rcases List.mem_append.1 hm with h | h
      · split at h <;> simp at h
      · split at h <;> simp at h

theorem mfm_mark_valid (l : List Nat) (g : Globals) (h : rll_valid l) :
    Msg.invalid_mfm_bit ∉ (mfm_mark l 0 g).2.2.2 := by
  have hf : ∀ p count, (mfm_fetch_bytes l p count).2.2 = [] :=
    fun p count => mfm_fetch_bytes_valid l p count h
  have hva : (mfm_valid_addr l 0 g).2.2 = [] := by
    rw [mfm_valid_addr_eq]
    split <;> exact hf _ _
  have hvd : (mfm_valid_data l 0 g.Last_size).2.2 = [] := by
    unfold mfm_valid_data
    split
    · rfl
    · simp only
      split <;> exact hf _ _
  have haddr : (mfm_addr l 0 g).2.2 = [] := by
    unfold mfm_addr
    simp only
    split
    · exact hva
    · exact hva
  have hdata : Msg.invalid_mfm_bit ∉ (mfm_data l 0 g).2.2 := by
    unfold mfm_data
    simp only
    split
    · simp only [hvd, List.nil_append]
      exact disk_add_msgs _ _ _ _ _ _
    · rw [hvd]
      simp
  have hdeld : Msg.invalid_mfm_bit ∉ (mfm_deld l 0 g).2.2 := hdata
  unfold mfm_mark
  simp only [hf, List.nil_append]
  split
  · simp
  · split
    · split
      · rw [haddr]; simp
      · rw [haddr]; simp
    · split
      · split
        · exact hdata
        · exact hdata
      · split
        · split
          · exact hdeld
          · exact hdeld
        · simp

theorem mfm_scan_valid (fuel : Nat) (l : List Nat) (rem : Nat) (g : Globals)
    (h : rll_valid l) : Msg.invalid_mfm_bit ∉ (mfm_scan fuel l rem g).2 := by
  induction fuel generalizing l rem g with
  | zero => simp [mfm_scan]
  | succ fuel ih =>
    unfold mfm_scan
    split
    · simp only
      intro hm
      rcases List.mem_append.1 hm with h1 | h1
      · exact mfm_mark_valid l g h h1
      · exact ih _ _ _ (rll_valid_drop l _ h) h1
    · simp

/-- As long as every read behind the zero pad returns 0 (`mfm_decode`): the
expanded RLL stream followed by its zero pad never has two adjacent 1 entries,
the scan of `mfm_decode` is the scan that only ever looks at the buffer from the
current index on, which `mark_used` has not written, and the line "Invalid MFM
bit" is not printed. -/
theorem mfm_decode_valid_pad (samples : List Nat) (lo hi : Nat) (g : Globals) :
    (∀ k, ¬ ((samples.flatMap (mfm_expand lo hi) ++ List.replicate DECODE_PAD 0).getD k 0 = 1 ∧
      (samples.flatMap (mfm_expand lo hi) ++ List.replicate DECODE_PAD 0).getD (k + 1) 0 = 1)) ∧
    mfm_decode samples lo hi g =
      mfm_run (samples.flatMap (mfm_expand lo hi) ++ List.replicate DECODE_PAD 0)
        (samples.flatMap (mfm_expand lo hi)).length g ∧
    Msg.invalid_mfm_bit ∉ (mfm_decode samples lo hi g).2 := by
  have hv := rll_valid_decode lo hi samples _ (rll_valid_pad DECODE_PAD)
  refine ⟨?_, mfm_decode_eq_run samples lo hi g, ?_⟩
  · rintro k ⟨h1, h2⟩
    rcases hv k with h | ⟨_, h⟩
    · rw [h1] at h; exact absurd h (by decide)
    · rw [h2] at h; exact absurd h (by decide)
  · rw [mfm_decode_eq_run]
    exact mfm_scan_valid _ _ _ _ hv

theorem mfm_decode_mem_nil (samples : List Nat) (lo hi : Nat) (g : Globals) :
    mfm_decode_mem samples lo hi [] g = mfm_decode samples lo hi g := by
  unfold mfm_decode_mem mfm_decode
  simp only [List.append_nil]

theorem mfm_run_step_log (s : List Nat) (rem : Nat) (g : Globals) (h : 0 < rem) :
    (mfm_run s rem g).2 =
      (mfm_mark s 0 g).2.2.2 ++
        (mfm_run (s.drop (mfm_mark s 0 g).1) (rem - (mfm_mark s 0 g).1)
          (mfm_mark s 0 g).2.2.1).2 := by
  cases rem with
  | zero => omega
  | succ r =>
    have hp := mfm_mark_pos s g
    simp only [mfm_run, mfm_scan]
    rw [if_pos (by omega), mfm_scan_fuel _ r _ _ (by omega)]

theorem mfm_run_log_step (s : List Nat) (rem : Nat) (g : Globals) (m : Msg)
    (h : m ∈ (mfm_run (s.drop (mfm_mark s 0 g).1) (rem - (mfm_mark s 0 g).1)
      (mfm_mark s 0 g).2.2.1).2) : m ∈ (mfm_run s rem g).2 := by
  cases rem with
  | zero =>
    rw [Nat.zero_sub] at h
    exact absurd h (by simp [mfm_run_zero])
  | succ r =>
    rw [mfm_run_step_log s (r + 1) g (by omega)]
    exact List.mem_append_right _ h

theorem mfm_run_log_skip (s : List Nat) (rem : Nat) (g : Globals) (hq : mfm_quiet s = true)
    (m : Msg) (h : m ∈ (mfm_run (s.drop 1) (rem - 1) g).2) : m ∈ (mfm_run s rem g).2 := by
  have hm := mfm_mark_quiet s g hq
  apply mfm_run_log_step
  rw [hm.1, hm.2]
  exact h

theorem mfm_log_skip_block (blk next T : List Nat) (hn : 31 ≤ next.length)
    (hq : mfm_quiet_all blk.length (blk ++ next) = true) (rem : Nat) (g : Globals) (m : Msg)
    (h : m ∈ (mfm_run (next ++ T) (rem - blk.length) g).2) :
    m ∈ (mfm_run (blk ++ (next ++ T)) rem g).2 := by
  induction blk generalizing rem with
  | nil => exact h
  | cons x blk ih =>
    rw [List.length_cons, List.cons_append, mfm_quiet_all_succ, Bool.and_eq_true] at hq
    have hq0 : mfm_quiet ((x :: blk) ++ (next ++ T)) = true := by
      rw [← List.append_assoc, mfm_quiet_append _ _ (by simp; omega)]
      exact hq.1
    apply mfm_run_log_skip _ _ _ hq0
    rw [List.cons_append, List.drop_succ_cons, List.drop_zero]
    apply ih hq.2
    have e : rem - 1 - blk.length = rem - (x :: blk).length := by
      simp only [List.length_cons]; omega
    rw [e]
    exact h

theorem mfm_fetch_loop_log (buf : List Nat) (k byte p j : Nat) (hj : j < k) (m : Msg)
    (h : m ∈ (mfm_fetch_bit buf (p + 2 * j)).2) : m ∈ (mfm_fetch_loop buf k byte p).2.2 := by
  induction k generalizing byte p j with
  | zero => omega
  | succ k ih =>
    simp only [mfm_fetch_loop, List.mem_append]
    cases j with
    | zero => left; simpa using h
    | succ j =>
      right
      apply ih _ _ j (by omega)
      rw [show p + 2 + 2 * j = p + 2 * (j + 1) by omega]
      exact h

theorem mfm_fetch_bytes_log (buf : List Nat) (p k c : Nat) (m : Msg)
    (h : m ∈ (mfm_fetch_bytes buf (p + 16 * k) c).2.2) :
    m ∈ (mfm_fetch_bytes buf p (k + c)).2.2 := by
  induction k generalizing p with
  | zero => simpa using h
  | succ k ih =>
    rw [show k + 1 + c = (k + c) + 1 by omega]
    simp only [mfm_fetch_bytes, List.mem_append]
    right
    apply ih
    rw [mfm_fetch_byte_pos, show p + 16 + 16 * k = p + 16 * (k + 1) by omega]
    exact h

theorem mfm_fetch_bytes_log_pair (buf : List Nat) (p k j : Nat) (hj : j < 8)
    (h1 : buf.getD (p + 16 * k + 2 * j) 0 = 1) (h2 : buf.getD (p + 16 * k + 2 * j + 1) 0 = 1)
    (c : Nat) : Msg.invalid_mfm_bit ∈ (mfm_fetch_bytes buf p (k + (c + 1))).2.2 := by
  apply mfm_fetch_bytes_log
  simp only [mfm_fetch_bytes, mfm_fetch_byte, List.mem_append]
  left
  apply mfm_fetch_loop_log buf 8 0 _ j hj
  unfold mfm_fetch_bit
  rw [h1, h2]
  simp

theorem mfm_data_log (buf : List Nat) (i : Nat) (g : Globals) (m : Msg)
    (hs : g.Last_size ≤ MAX_SSIZE)
    (h : m ∈ (mfm_fetch_bytes buf i (4 + g.Last_size + 2)).2.2) :
    m ∈ (mfm_data buf i g).2.2 := by
  have hv : (mfm_valid_data buf i g.Last_size).2.2 =
      (mfm_fetch_bytes buf i (4 + g.Last_size + 2)).2.2 := by
    unfold mfm_valid_data
    rw [if_neg (by omega)]
    simp only
    split <;> rfl
  unfold mfm_data
  simp only
  split
  · rw [hv]
    exact List.mem_append_left _ h
  · rw [hv]
    exact h

theorem mfm_mark_data_log (p : Bool) (X : List Nat) (g : Globals) (m : Msg)
    (hs : g.Last_size ≤ MAX_SSIZE)
    (h : m ∈ (mfm_fetch_bytes (cell_vals (mfm_cells p
        ([MfmItem.sync, MfmItem.sync, MfmItem.sync, MfmItem.plain 0xFB] ++ [])) ++ X) 0
        (4 + g.Last_size + 2)).2.2) :
    m ∈ (mfm_mark (cell_vals (mfm_cells p
        ([MfmItem.sync, MfmItem.sync, MfmItem.sync, MfmItem.plain 0xFB] ++ [])) ++ X) 0
        g).2.2.2 := by
  have hk := mfm_fetch_bytes_prefix
    [MfmItem.sync, MfmItem.sync, MfmItem.sync, MfmItem.plain 0xFB] []
    (by
      intro it hit
      simp only [List.mem_cons, List.mem_singleton, List.not_mem_nil, or_false] at hit
      rcases hit with rfl | rfl | rfl | rfl
      · trivial
      · trivial
      · trivial
      · show (0xFB : Nat) < 256
        decide) p X
  have hd := mfm_data_log _ 0 g m hs h
  have e4 : [MfmItem.sync, MfmItem.sync, MfmItem.sync, MfmItem.plain 0xFB].length = 4 := rfl
  rw [e4] at hk
  unfold mfm_mark
  simp only [hk]
  have m1 : mark_match (List.map MfmItem.byte
      [MfmItem.sync, MfmItem.sync, MfmItem.sync, MfmItem.plain 0xFB]) 0 MFM_indx_mark 4
      = false := by decide
  have m2 : mark_match (List.map MfmItem.byte
      [MfmItem.sync, MfmItem.sync, MfmItem.sync, MfmItem.plain 0xFB]) 0 MFM_addr_mark 4
      = false := by decide
  have m3 : mark_match (List.map MfmItem.byte
      [MfmItem.sync, MfmItem.sync, MfmItem.sync, MfmItem.plain 0xFB]) 0 MFM_data_mark 4
      = true := by decide
  rw [m1, m2, m3]
  simp only [Bool.false_eq_true, if_false, if_true, List.nil_append]
  split
  · exact hd
  · exact hd

set_option maxRecDepth 1000000 in
theorem mfm_short_track_vals :
    cell_vals (mfm_cells false mfm_short_track) =
      (c00 ++ (cell_vals (mfm_cells false (mfm_addr_items 5 3 3)) ++
        (cell_vals (mfm_cells (mfm_last false (mfm_addr_items 5 3 3))
            ([MfmItem.sync, MfmItem.sync, MfmItem.sync, MfmItem.plain 0xFB] ++ [])) ++
          [0,0,0,1,0,0,1,0,0,1,0,1,0]))) ++ [1, 0, 0] := by
  decide

set_option maxRecDepth 1000000 in
theorem mfm_short_track_rll :
    (mfm_samples (mfm_cells false mfm_short_track)).flatMap
        (mfm_expand MFM_SPLIT_LO MFM_SPLIT_HI) =
      c00 ++ (cell_vals (mfm_cells false (mfm_addr_items 5 3 3)) ++
        (cell_vals (mfm_cells (mfm_last false (mfm_addr_items 5 3 3))
            ([MfmItem.sync, MfmItem.sync, MfmItem.sync, MfmItem.plain 0xFB] ++ [])) ++
          [0,0,0,1,0,0,1,0,0,1,0,1,0])) :=
  mfm_rll_eq_vals (mfm_cells false mfm_short_track) _
    (cell_vals (mfm_cells false mfm_short_track)).tail (by decide) mfm_short_track_vals
    (by decide)

theorem mfm_decode_mem_eq_run (samples : List Nat) (lo hi : Nat) (junk : List Nat)
    (g : Globals) :
    mfm_decode_mem samples lo hi junk g =
      mfm_run (samples.flatMap (mfm_expand lo hi) ++ (List.replicate DECODE_PAD 0 ++ junk))
        (samples.flatMap (mfm_expand lo hi)).length g := by
  unfold mfm_decode_mem mfm_run
  simp only []
  rw [mfm_loop_eq_scan, List.drop_zero, Nat.sub_zero]

set_option maxRecDepth 1000000 in
theorem mfm_short_track_log :
    Msg.invalid_mfm_bit ∈
      (mfm_decode_mem (mfm_samples (mfm_cells false mfm_short_track)) MFM_SPLIT_LO MFM_SPLIT_HI
        (List.replicate 19 1) Globals_init).2 := by
  rw [mfm_decode_mem_eq_run, mfm_short_track_rll]
  have hA : (cell_vals (mfm_cells false (mfm_addr_items 5 3 3))).length = 160 := by
    simp [cell_vals, mfm_cells_length, mfm_addr_items, mfm_plain, crc_bytes]
  have hD : (cell_vals (mfm_cells (mfm_last false (mfm_addr_items 5 3 3))
      ([MfmItem.sync, MfmItem.sync, MfmItem.sync, MfmItem.plain 0xFB] ++ []))).length = 64 := by
    simp [cell_vals, mfm_cells_length]
  have hc : c00.length = 16 := rfl
  simp only [List.length_append, hA, hD, hc, List.length_cons, List.length_nil,
    List.append_assoc]
  -- the leading byte
  rw [← List.take_append_drop 32 (cell_vals (mfm_cells false (mfm_addr_items 5 3 3))),
    List.append_assoc]
  apply mfm_log_skip_block c00 _ _ (by decide) (by decide)
  rw [← List.append_assoc, List.take_append_drop]
  -- the address mark
  apply mfm_run_log_step
  rw [mfm_mark_addr false 5 3 3 (by decide) (by decide) (by decide)]
  simp only
  rw [← hA, List.drop_left]
  -- the data mark
  rw [mfm_run_step_log _ _ _ (by rw [hA, hc]; decide)]
  apply List.mem_append_left
  apply mfm_mark_data_log
  · decide
  · have hP : (List.replicate DECODE_PAD 0).length = 16384 := by
      rw [List.length_replicate]; rfl
    have hget : ∀ k, 16461 ≤ k → k < 16480 →
        (cell_vals (mfm_cells (mfm_last false (mfm_addr_items 5 3 3))
          ([MfmItem.sync, MfmItem.sync, MfmItem.sync, MfmItem.plain 0xFB] ++ [])) ++
          ([0,0,0,1,0,0,1,0,0,1,0,1,0] ++
            (List.replicate DECODE_PAD 0 ++ List.replicate 19 1))).getD k 0 = 1 := by
      intro k h1 h2
      rw [List.getD_append_right _ _ _ _ (by rw [hD]; omega), hD,
        List.getD_append_right _ _ _ _ (by simp only [List.length_cons, List.length_nil]; omega),
        List.getD_append_right _ _ _ _ (by
          rw [hP]; simp only [List.length_cons, List.length_nil]; omega), hP]
      rw [List.getD_eq_getElem?_getD, List.getElem?_eq_getElem (by
        simp only [List.length_replicate, List.length_cons, List.length_nil]; omega)]
      simp only [Option.getD_some, List.getElem_replicate]
    show Msg.invalid_mfm_bit ∈ (mfm_fetch_bytes _ 0 (1028 + (1 + 1))).2.2
    exact mfm_fetch_bytes_log_pair _ 0 1028 7 (by decide) (hget _ (by decide) (by decide))
      (hget _ (by decide) (by decide)) 1

/-- Claim C26, at a capture of 98 samples that ends 13 half-cells after an MFM
data mark, the address field before it announcing 1024 bytes: the RLL stream
has 253 entries and the mark stands at index 176, so the fetch of the
`4 + 1024 + 2` bytes of the data field reads the indices 176 to 16655, while the
stream and its zero pad end at index 16636.  When the 19 bytes behind the pad
are 1, `mfm_fetch_bit` sees the pair 11 and "Invalid MFM bit" is printed; when
they are 0 it is not. -/
theorem mfm_decode_invalid_pair :
    (mfm_samples (mfm_cells false mfm_short_track)).length = 98 ∧
    ((mfm_samples (mfm_cells false mfm_short_track)).flatMap
      (mfm_expand MFM_SPLIT_LO MFM_SPLIT_HI)).length = 253 ∧
    Msg.invalid_mfm_bit ∈
      (mfm_decode_mem (mfm_samples (mfm_cells false mfm_short_track)) MFM_SPLIT_LO MFM_SPLIT_HI
        (List.replicate 19 1) Globals_init).2 ∧
    Msg.invalid_mfm_bit ∉
      (mfm_decode_mem (mfm_samples (mfm_cells false mfm_short_track)) MFM_SPLIT_LO MFM_SPLIT_HI
        [] Globals_init).2 := by
  refine ⟨by set_option maxRecDepth 1000000 in decide, ?_, mfm_short_track_log, ?_⟩
  · rw [mfm_short_track_rll]
    set_option maxRecDepth 1000000 in decide
  · rw [mfm_decode_mem_nil]
    exact (mfm_decode_valid_pad _ _ _ _).2.2

/-! ## The same capture processed twice -/

theorem mfm_fetch_bytes_add (buf : List Nat) (p a b : Nat) :
    mfm_fetch_bytes buf p (a + b) =
      ((mfm_fetch_bytes buf p a).1 ++ (mfm_fetch_bytes buf (p + 16 * a) b).1,
        (mfm_fetch_bytes buf (p + 16 * a) b).2.1,
        (mfm_fetch_bytes buf p a).2.2 ++ (mfm_fetch_bytes buf (p + 16 * a) b).2.2) := by
  induction a generalizing p with
  | zero => simp [mfm_fetch_bytes]
  | succ a ih =>
    rw [show a + 1 + b = (a + b) + 1 by omega]
    simp only [mfm_fetch_bytes, mfm_fetch_byte_pos, ih (p + 16), List.cons_append,
      List.append_assoc]
    rw [show p + 16 + 16 * a = p + 16 * (a + 1) by omega]

theorem mfm_fetch_bytes_nil (p k : Nat) :
    mfm_fetch_bytes [] p k = (List.replicate k 0, p + 16 * k, []) := by
  induction k generalizing p with
  | zero => rfl
  | succ k ih =>
    have e : mfm_fetch_byte [] p = (0, p + 16, []) := by
      simp [mfm_fetch_byte, mfm_fetch_loop, mfm_fetch_bit]
    simp only [mfm_fetch_bytes, e, ih, List.replicate_succ, List.nil_append]
    rw [show p + 16 + 16 * k = p + 16 * (k + 1) by omega]

theorem mfm_fetch_bytes_zero (buf : List Nat) (p k : Nat)
    (h : ∀ i, p ≤ i → i < p + 16 * k → buf.getD i 0 = 0) :
    mfm_fetch_bytes buf p k = (List.replicate k 0, p + 16 * k, []) := by
  rw [mfm_fetch_bytes_congr buf [] p k (fun i h1 h2 => by rw [h i h1 h2]; rfl),
    mfm_fetch_bytes_nil]

theorem replicate_swap (a b x : Nat) (J : List Nat) :
    List.replicate a x ++ (List.replicate b x ++ J) =
      List.replicate b x ++ (List.replicate a x ++ J) := by
  rw [← List.append_assoc, ← List.replicate_add, Nat.add_comm, List.replicate_add,
    List.append_assoc]

theorem mfm_fetch_zero_field (p : Bool) (J : List Nat) :
    mfm_fetch_bytes (cell_vals (mfm_cells p
        ([MfmItem.sync, MfmItem.sync, MfmItem.sync, MfmItem.plain 0xFB] ++ [])) ++
        ([0, 0, 0] ++ (List.replicate DECODE_PAD 0 ++ J))) 0 (4 + 1024 + 2) =
      ([0xA1, 0xA1, 0xA1, 0xFB] ++ List.replicate 1024 0 ++
          (mfm_fetch_bytes ([0, 0, 0] ++ J) 0 2).1,
        16480, (mfm_fetch_bytes ([0, 0, 0] ++ J) 0 2).2.2) := by
  have hk := mfm_fetch_bytes_prefix
    [MfmItem.sync, MfmItem.sync, MfmItem.sync, MfmItem.plain 0xFB] []
    (by
      intro it hit
      simp only [List.mem_cons, List.mem_singleton, List.not_mem_nil, or_false] at hit
      rcases hit with rfl | rfl | rfl | rfl
      · trivial
      · trivial
      · trivial
      · show (0xFB : Nat) < 256
        decide) p ([0, 0, 0] ++ (List.replicate DECODE_PAD 0 ++ J))
  have e4 : [MfmItem.sync, MfmItem.sync, MfmItem.sync, MfmItem.plain 0xFB].length = 4 := rfl
  rw [e4] at hk
  have hM : (cell_vals (mfm_cells p
      ([MfmItem.sync, MfmItem.sync, MfmItem.sync, MfmItem.plain 0xFB] ++ []))).length = 64 := by
    simp [cell_vals, mfm_cells_length]
  have hP : DECODE_PAD = 16384 := rfl
  generalize hMd : cell_vals (mfm_cells p
      ([MfmItem.sync, MfmItem.sync, MfmItem.sync, MfmItem.plain 0xFB] ++ [])) = M at hk hM ⊢
  have hz : ∀ i, 0 + 16 * 4 ≤ i → i < 0 + 16 * 4 + 16 * 1024 →
      (M ++ ([0, 0, 0] ++ (List.replicate DECODE_PAD 0 ++ J))).getD i 0 = 0 := by
    intro i h1 h2
    rw [List.getD_append_right _ _ _ _ (by omega), hM]
    by_cases h3 : i - 64 < 3
    · rw [List.getD_append _ _ _ _ (by simpa using h3)]
      have : i - 64 = 0 ∨ i - 64 = 1 ∨ i - 64 = 2 := by omega
      rcases this with e | e | e <;> rw [e] <;> rfl
    · rw [List.getD_append_right _ _ _ _ (by simp only [List.length_cons, List.length_nil]; omega),
        List.getD_append _ _ _ _ (by
          simp only [List.length_cons, List.length_nil, List.length_replicate, hP]; omega),
        List.getD_eq_getElem?_getD, List.getElem?_eq_getElem (by
          simp only [List.length_cons, List.length_nil, List.length_replicate, hP]; omega)]
      simp only [Option.getD_some, List.getElem_replicate]
  have hd : (M ++ ([0, 0, 0] ++ (List.replicate DECODE_PAD 0 ++ J))).drop 16448 =
      [0, 0, 0] ++ J := by
    have e1 : [0, 0, 0] ++ (List.replicate DECODE_PAD 0 ++ J) =
        List.replicate 16384 0 ++ ([0, 0, 0] ++ J) := by
      rw [hP]
      exact replicate_swap 3 16384 0 J
    rw [e1, ← List.append_assoc]
    have e2 : (M ++ List.replicate 16384 0).length = 16448 := by
      rw [List.length_append, hM, List.length_replicate]
    rw [← e2, List.drop_left]
  rw [show 4 + 1024 + 2 = 4 + (1024 + 2) from rfl, mfm_fetch_bytes_add, hk,
    mfm_fetch_bytes_add, mfm_fetch_bytes_zero _ _ _ hz]
  have h2 := mfm_fetch_bytes_drop (M ++ ([0, 0, 0] ++ (List.replicate DECODE_PAD 0 ++ J)))
    16448 0 2
  rw [hd] at h2
  rw [show 0 + 16 * 4 + 16 * 1024 = 16448 + 0 from rfl, h2]
  have hpos : (mfm_fetch_bytes ([0, 0, 0] ++ J) 0 2).2.1 = 32 := by
    simp only [mfm_fetch_bytes, mfm_fetch_byte_pos]
  rw [hpos]
  simp only [List.nil_append, List.append_assoc]
  rfl

theorem foldl_replicate_iterate (f : Nat → Nat → Nat) (x : Nat) (n a : Nat) :
    (List.replicate n x).foldl f a = (fun c => f c x)^[n] a := by
  induction n generalizing a with
  | zero => rfl
  | succ n ih =>
    rw [List.replicate_succ, List.foldl_cons, ih, Function.iterate_succ_apply]

set_option maxRecDepth 100000 in
theorem crc16_zero_run : (fun c => crc16_step c 0)^[1024] 58005 = 10018 := by
  have h1 : (fun c => crc16_step c 0)^[128] 58005 = 30654 := by decide
  have h2 : (fun c => crc16_step c 0)^[128] 30654 = 57634 := by decide
  have h3 : (fun c => crc16_step c 0)^[128] 57634 = 30019 := by decide
  have h4 : (fun c => crc16_step c 0)^[128] 30019 = 55918 := by decide
  have h5 : (fun c => crc16_step c 0)^[128] 55918 = 50151 := by decide
  have h6 : (fun c => crc16_step c 0)^[128] 50151 = 27832 := by decide
  have h7 : (fun c => crc16_step c 0)^[128] 27832 = 40049 := by decide
  have h8 : (fun c => crc16_step c 0)^[128] 40049 = 10018 := by decide
  rw [show (1024 : Nat) = 128 + (128 + (128 + (128 + (128 + (128 + (128 + 128)))))) from rfl,
    Function.iterate_add_apply, Function.iterate_add_apply, Function.iterate_add_apply,
    Function.iterate_add_apply, Function.iterate_add_apply, Function.iterate_add_apply,
    Function.iterate_add_apply, h1, h2, h3, h4, h5, h6, h7, h8]

theorem crc_bytes_zero_sector :
    crc_bytes ([0xA1, 0xA1, 0xA1, 0xFB] ++ List.replicate 1024 0) = [0x27, 0x22] := by
  have e : crc16 ([0xA1, 0xA1, 0xA1, 0xFB] ++ List.replicate 1024 0)
      ([0xA1, 0xA1, 0xA1, 0xFB] ++ List.replicate 1024 0).length = 10018 := by
    unfold crc16
    rw [List.take_length, List.foldl_append, foldl_replicate_iterate]
    have e0 : List.foldl crc16_step 0xFFFF [0xA1, 0xA1, 0xA1, 0xFB] = 58005 := by decide
    rw [e0]
    exact crc16_zero_run
  unfold crc_bytes
  rw [e]
  rfl


theorem crc16_zero_sector_bad :
    crc16 ([0xA1, 0xA1, 0xA1, 0xFB] ++ List.replicate 1024 0 ++ [0, 0]) (4 + 1024 + 2) ≠ 0 := by
  have e : crc16 ([0xA1, 0xA1, 0xA1, 0xFB] ++ List.replicate 1024 0 ++ [0, 0]) (4 + 1024 + 2)
      = 39761 := by
    unfold crc16
    rw [List.take_of_length_le (by
        simp only [List.length_append, List.length_replicate, List.length_cons,
          List.length_nil]; omega),
      List.foldl_append, List.foldl_append, foldl_replicate_iterate]
    have e0 : List.foldl crc16_step 0xFFFF [0xA1, 0xA1, 0xA1, 0xFB] = 58005 := by decide
    rw [e0, crc16_zero_run]
    decide
  rw [e]
  decide

theorem mfm_valid_zero_field (p : Bool) (J : List Nat)
    (hJ : mfm_fetch_bytes ([0, 0, 0] ++ J) 0 2 = ([0x27, 0x22], 32, [])) :
    mfm_valid_data (cell_vals (mfm_cells p
        ([MfmItem.sync, MfmItem.sync, MfmItem.sync, MfmItem.plain 0xFB] ++ [])) ++
        ([0, 0, 0] ++ (List.replicate DECODE_PAD 0 ++ J))) 0 1024 =
      (16480, List.replicate 1024 0, []) := by
  have hcrc : crc16 ([0xA1, 0xA1, 0xA1, 0xFB] ++ List.replicate 1024 0 ++ [0x27, 0x22])
      (4 + 1024 + 2) = 0 := by
    rw [← crc_bytes_zero_sector]
    exact crc16_frame _ _ (by
      simp only [List.length_append, List.length_replicate, List.length_cons,
        List.length_nil])
  have e1 : List.drop 4 ([0xA1, 0xA1, 0xA1, 0xFB] ++ (List.replicate 1024 0 ++ [0x27, 0x22])) =
      List.replicate 1024 0 ++ [0x27, 0x22] := rfl
  unfold mfm_valid_data
  rw [if_neg (by decide), mfm_fetch_zero_field, hJ]
  simp only [hcrc, ne_eq, not_true_eq_false, if_false, Nat.sub_zero]
  rw [List.append_assoc, e1, List.take_left' (List.length_replicate _ _)]

theorem mfm_valid_zero_field_bad (p : Bool) :
    mfm_valid_data (cell_vals (mfm_cells p
        ([MfmItem.sync, MfmItem.sync, MfmItem.sync, MfmItem.plain 0xFB] ++ [])) ++
        ([0, 0, 0] ++ (List.replicate DECODE_PAD 0 ++ []))) 0 1024 = (0, [], []) := by
  have hJ : mfm_fetch_bytes ([0, 0, 0] ++ []) 0 2 = ([0, 0], 32, []) := by decide
  unfold mfm_valid_data
  rw [if_neg (by decide), mfm_fetch_zero_field, hJ]
  simp only [crc16_zero_sector_bad, ne_eq, not_false_eq_true, if_true]

theorem mfm_mark_zero_field (p : Bool) (J : List Nat) (g : Globals) (hg : g.Last_size = 1024)
    (hJ : mfm_fetch_bytes ([0, 0, 0] ++ J) 0 2 = ([0x27, 0x22], 32, [])) :
    mfm_mark (cell_vals (mfm_cells p
        ([MfmItem.sync, MfmItem.sync, MfmItem.sync, MfmItem.plain 0xFB] ++ [])) ++
        ([0, 0, 0] ++ (List.replicate DECODE_PAD 0 ++ J))) 0 g =
      (16480, (16480, 68),
        sector_none { g with disk :=
          (disk_add g.disk g.Last_track g.Last_side g.Last_sector 1024
            (some (List.replicate 1024 0))).1 },
        (disk_add g.disk g.Last_track g.Last_side g.Last_sector 1024
          (some (List.replicate 1024 0))).2) := by
  have h4 := mfm_fetch_bytes_prefix
    [MfmItem.sync, MfmItem.sync, MfmItem.sync, MfmItem.plain 0xFB] []
    (by
      intro it hit
      simp only [List.mem_cons, List.mem_singleton, List.not_mem_nil, or_false] at hit
      rcases hit with rfl | rfl | rfl | rfl
      · trivial
      · trivial
      · trivial
      · show (0xFB : Nat) < 256
        decide) p ([0, 0, 0] ++ (List.replicate DECODE_PAD 0 ++ J))
  have m1 : mark_match [0xA1, 0xA1, 0xA1, 0xFB] 0 MFM_indx_mark 4 = false := by decide
  have m2 : mark_match [0xA1, 0xA1, 0xA1, 0xFB] 0 MFM_addr_mark 4 = false := by decide
  have m3 : mark_match [0xA1, 0xA1, 0xA1, 0xFB] 0 MFM_data_mark 4 = true := by decide
  simp only [mfm_mark, mfm_data, hg, mfm_valid_zero_field p J hJ]
  simp only [List.length_cons, List.length_nil, List.map_cons, List.map_nil, MfmItem.byte] at h4
  rw [h4]
  have hne : ¬ ((16480 : Nat) = 0) := by decide
  simp only [m1, m2, m3, Bool.false_eq_true, if_false, if_true, ne_eq, List.nil_append, hne,
    not_false_eq_true, not_true_eq_false]

theorem mfm_mark_zero_field_bad (p : Bool) (g : Globals) (hg : g.Last_size = 1024) :
    mfm_mark (cell_vals (mfm_cells p
        ([MfmItem.sync, MfmItem.sync, MfmItem.sync, MfmItem.plain 0xFB] ++ [])) ++
        ([0, 0, 0] ++ (List.replicate DECODE_PAD 0 ++ []))) 0 g = (1, (0, 68), g, []) := by
  have h4 := mfm_fetch_bytes_prefix
    [MfmItem.sync, MfmItem.sync, MfmItem.sync, MfmItem.plain 0xFB] []
    (by
      intro it hit
      simp only [List.mem_cons, List.mem_singleton, List.not_mem_nil, or_false] at hit
      rcases hit with rfl | rfl | rfl | rfl
      · trivial
      · trivial
      · trivial
      · show (0xFB : Nat) < 256
        decide) p ([0, 0, 0] ++ (List.replicate DECODE_PAD 0 ++ []))
  have m1 : mark_match [0xA1, 0xA1, 0xA1, 0xFB] 0 MFM_indx_mark 4 = false := by decide
  have m2 : mark_match [0xA1, 0xA1, 0xA1, 0xFB] 0 MFM_addr_mark 4 = false := by decide
  have m3 : mark_match [0xA1, 0xA1, 0xA1, 0xFB] 0 MFM_data_mark 4 = true := by decide
  simp only [mfm_mark, mfm_data, hg, mfm_valid_zero_field_bad p]
  simp only [List.length_cons, List.length_nil, List.map_cons, List.map_nil, MfmItem.byte] at h4
  rw [h4]
  have hne : ¬ ((16480 : Nat) = 0) := by decide
  simp only [m1, m2, m3, Bool.false_eq_true, if_false, if_true, ne_eq, List.nil_append, hne,
    not_false_eq_true, not_true_eq_false]

set_option maxRecDepth 1000000 in
theorem mfm_cut_capture_split :
    mfm_samples (mfm_cells false mfm_short_track) = mfm_cut_capture ++ [112, 112, 75, 75] := by
  decide

theorem mfm_cut_capture_rll :
    mfm_cut_capture.flatMap (mfm_expand MFM_SPLIT_LO MFM_SPLIT_HI) =
      c00 ++ (cell_vals (mfm_cells false (mfm_addr_items 5 3 3)) ++
        (cell_vals (mfm_cells (mfm_last false (mfm_addr_items 5 3 3))
            ([MfmItem.sync, MfmItem.sync, MfmItem.sync, MfmItem.plain 0xFB] ++ [])) ++
          [0, 0, 0])) := by
  have h := mfm_short_track_rll
  rw [mfm_cut_capture_split, List.flatMap_append] at h
  have e : [112, 112, 75, 75].flatMap (mfm_expand MFM_SPLIT_LO MFM_SPLIT_HI) =
      [1, 0, 0, 1, 0, 0, 1, 0, 1, 0] := by decide
  rw [e] at h
  have e2 : c00 ++ (cell_vals (mfm_cells false (mfm_addr_items 5 3 3)) ++
        (cell_vals (mfm_cells (mfm_last false (mfm_addr_items 5 3 3))
            ([MfmItem.sync, MfmItem.sync, MfmItem.sync, MfmItem.plain 0xFB] ++ [])) ++
          [0,0,0,1,0,0,1,0,0,1,0,1,0])) =
      (c00 ++ (cell_vals (mfm_cells false (mfm_addr_items 5 3 3)) ++
        (cell_vals (mfm_cells (mfm_last false (mfm_addr_items 5 3 3))
            ([MfmItem.sync, MfmItem.sync, MfmItem.sync, MfmItem.plain 0xFB] ++ [])) ++
          [0, 0, 0]))) ++ [1, 0, 0, 1, 0, 0, 1, 0, 1, 0] := by
    simp only [List.append_assoc, List.cons_append, List.nil_append]
  rw [e2] at h
  exact List.append_cancel_right h

set_option maxRecDepth 1000000 in
theorem mfm_cut_capture_format :
    mfm_cut_capture.length = 94 ∧
    determine_format mfm_cut_capture mfm_cut_capture.length = TT_MFM := by
  decide

theorem mfm_cut_run_store (J : List Nat)
    (hJ : mfm_fetch_bytes ([0, 0, 0] ++ J) 0 2 = ([0x27, 0x22], 32, [])) (g : Globals) :
    (mfm_decode_mem mfm_cut_capture MFM_SPLIT_LO MFM_SPLIT_HI J g).1 =
      sector_none { g with disk :=
        (disk_add g.disk 5 0 3 1024 (some (List.replicate 1024 0))).1 } := by
  rw [mfm_decode_mem_eq_run, mfm_cut_capture_rll]
  have hA : (cell_vals (mfm_cells false (mfm_addr_items 5 3 3))).length = 160 :=
    mfm_addr_vals_length _ _ _ _
  have hD : (cell_vals (mfm_cells (mfm_last false (mfm_addr_items 5 3 3))
      ([MfmItem.sync, MfmItem.sync, MfmItem.sync, MfmItem.plain 0xFB] ++ []))).length = 64 := by
    simp [cell_vals, mfm_cells_length]
  have hc : c00.length = 16 := rfl
  simp only [List.length_append, hA, hD, hc, List.length_cons, List.length_nil,
    List.append_assoc]
  -- the leading byte
  rw [← List.take_append_drop 32 (cell_vals (mfm_cells false (mfm_addr_items 5 3 3))),
    List.append_assoc]
  rw [mfm_skip_block c00 _ _ (by decide) (by decide)]
  rw [← List.append_assoc, List.take_append_drop]
  -- the address mark
  rw [mfm_run_mark _ _ _ _ _ _ _
    (mfm_mark_addr false 5 3 3 (by decide) (by decide) (by decide) _ _) (by rw [hc]; decide)]
  rw [← hA, List.drop_left]
  -- the data mark
  rw [mfm_run_mark _ _ _ _ _ _ _ (mfm_mark_zero_field _ J _ rfl hJ) (by rw [hA, hc]; decide)]
  rw [hA, hc, show 16 + (160 + (64 + (0 + 1 + 1 + 1))) - 16 - 160 - 16480 = 0 from rfl,
    mfm_run_zero]
  simp only [sector_none]

set_option maxRecDepth 1000000 in
theorem mfm_data_mark_vals :
    cell_vals (mfm_cells (mfm_last false (mfm_addr_items 5 3 3))
      ([MfmItem.sync, MfmItem.sync, MfmItem.sync, MfmItem.plain 0xFB] ++ [])) =
    0 :: (cSync.tail ++ (cSync ++ (cSync ++ [0,1,0,1,0,1,0,1,0,1,0,0,0,1,0,1]))) := by
  decide

theorem drop_one_append (a b : List Nat) (x : Nat) (h : a.head? = some x) :
    List.drop 1 (a ++ b) = a.tail ++ b := by
  cases a with
  | nil => simp at h
  | cons y a => rfl

theorem mfm_fetch_bytes_window (w R : List Nat) (k : Nat) (h : 16 * k ≤ w.length) :
    mfm_fetch_bytes (w ++ R) 0 k = mfm_fetch_bytes w 0 k :=
  mfm_fetch_bytes_congr _ _ 0 k (fun i _ h2 => List.getD_append _ _ _ _ (by omega))

theorem mfm_mark_no_match (s : List Nat) (g : Globals)
    (h1 : mark_match (mfm_fetch_bytes s 0 4).1 0 MFM_indx_mark 4 = false)
    (h2 : mark_match (mfm_fetch_bytes s 0 4).1 0 MFM_addr_mark 4 = false)
    (h3 : mark_match (mfm_fetch_bytes s 0 4).1 0 MFM_data_mark 4 = false)
    (h4 : mark_match (mfm_fetch_bytes s 0 4).1 0 MFM_deld_mark 4 = false) :
    mfm_mark s 0 g = (1, (0, 0), g, (mfm_fetch_bytes s 0 4).2.2) := by
  simp only [mfm_mark, h1, h2, h3, h4, Bool.false_eq_true, if_false]

set_option maxRecDepth 1000000 in
theorem mfm_cut_run_none (g : Globals) :
    (mfm_decode_mem mfm_cut_capture MFM_SPLIT_LO MFM_SPLIT_HI [] g).1 =
      { g with Last_track := 5, Last_side := 0, Last_sector := 3, Last_size := 1024 } := by
  rw [mfm_decode_mem_eq_run, mfm_cut_capture_rll]
  have hA : (cell_vals (mfm_cells false (mfm_addr_items 5 3 3))).length = 160 :=
    mfm_addr_vals_length _ _ _ _
  have hD : (cell_vals (mfm_cells (mfm_last false (mfm_addr_items 5 3 3))
      ([MfmItem.sync, MfmItem.sync, MfmItem.sync, MfmItem.plain 0xFB] ++ []))).length = 64 := by
    simp [cell_vals, mfm_cells_length]
  have hc : c00.length = 16 := rfl
  simp only [List.length_append, hA, hD, hc, List.length_cons, List.length_nil,
    List.append_assoc]
  -- the leading byte
  rw [← List.take_append_drop 32 (cell_vals (mfm_cells false (mfm_addr_items 5 3 3))),
    List.append_assoc]
  rw [mfm_skip_block c00 _ _ (by decide) (by decide)]
  rw [← List.append_assoc, List.take_append_drop]
  -- the address mark
  rw [mfm_run_mark _ _ _ _ _ _ _
    (mfm_mark_addr false 5 3 3 (by decide) (by decide) (by decide) _ _) (by rw [hc]; decide)]
  rw [← hA, List.drop_left]
  -- the data mark: the CRC over the fetched bytes is not zero
  rw [mfm_run_mark _ _ _ _ _ _ _ (mfm_mark_zero_field_bad _ _ rfl) (by rw [hA, hc]; decide)]
  rw [hA, hc, show 16 + (160 + (64 + (0 + 1 + 1 + 1))) - 16 - 160 - 1 = 66 from rfl]
  -- the rest of the first sync byte starts no mark
  rw [mfm_data_mark_vals, List.cons_append, List.drop_succ_cons, List.drop_zero,
    show DECODE_PAD = 31 + 16353 from rfl, List.replicate_add, List.append_nil]
  have e1 : cSync.tail ++ (cSync ++ (cSync ++ [0,1,0,1,0,1,0,1,0,1,0,0,0,1,0,1])) ++
      ([0, 0, 0] ++ (List.replicate 31 0 ++ List.replicate 16353 0)) =
      cSync.tail ++ ((cSync ++ cSync) ++ ([0,1,0,1,0,1,0,1,0,1,0,0,0,1,0,1] ++
        ([0, 0, 0] ++ (List.replicate 31 0 ++ List.replicate 16353 0)))) := by
    simp only [List.append_assoc]
  rw [e1, mfm_skip_block _ (cSync ++ cSync) _ (by decide) (by decide),
    show 66 - cSync.tail.length = 51 from rfl]
  -- at the second sync byte the four bytes A1 A1 FB 00 are no mark
  have e2 : (cSync ++ cSync) ++ ([0,1,0,1,0,1,0,1,0,1,0,0,0,1,0,1] ++
        ([0, 0, 0] ++ (List.replicate 31 0 ++ List.replicate 16353 0))) =
      (cSync ++ (cSync ++ ([0,1,0,1,0,1,0,1,0,1,0,0,0,1,0,1] ++
        ([0, 0, 0] ++ List.replicate 31 0)))) ++ List.replicate 16353 0 := by
    simp only [List.append_assoc]
  have hf : mfm_fetch_bytes ((cSync ++ cSync) ++ ([0,1,0,1,0,1,0,1,0,1,0,0,0,1,0,1] ++
        ([0, 0, 0] ++ (List.replicate 31 0 ++ List.replicate 16353 0)))) 0 4 =
      ([0xA1, 0xA1, 0xFB, 0x00], 64, []) := by
    rw [e2, mfm_fetch_bytes_window _ _ 4 (by decide)]
    decide
  rw [mfm_run_mark _ _ _ _ _ _ _ (mfm_mark_no_match _ _ (by rw [hf]; decide)
    (by rw [hf]; decide) (by rw [hf]; decide) (by rw [hf]; decide)) (by decide)]
  -- the rest of the mark and the three entries after it start no mark
  have e3 : List.drop 1 ((cSync ++ cSync) ++ ([0,1,0,1,0,1,0,1,0,1,0,0,0,1,0,1] ++
        ([0, 0, 0] ++ (List.replicate 31 0 ++ List.replicate 16353 0)))) =
      (cSync.tail ++ (cSync ++ ([0,1,0,1,0,1,0,1,0,1,0,0,0,1,0,1] ++ [0, 0, 0]))) ++
        (List.replicate 31 0 ++ List.replicate 16353 0) := by
    rw [List.append_assoc, drop_one_append cSync _ 0 (by decide)]
    simp only [List.append_assoc]
  rw [e3, mfm_skip_block _ (List.replicate 31 0) _ (by simp) (by decide)]
  have e4 : 51 - 1 - (cSync.tail ++ (cSync ++ ([0,1,0,1,0,1,0,1,0,1,0,0,0,1,0,1] ++
      [0, 0, 0]))).length = 0 := by decide
  rw [e4, mfm_run_zero]
  rfl

theorem process_cut_capture (J : List Nat) (g : Globals) :
    process mfm_cut_capture J g =
      mfm_decode_mem mfm_cut_capture MFM_SPLIT_LO MFM_SPLIT_HI J (sector_none g) := by
  have hl := mfm_cut_capture_format.1
  have hf := mfm_cut_capture_format.2
  have ht : mfm_cut_capture.take MAX_SAMPLES = mfm_cut_capture :=
    List.take_of_length_le (by rw [hl]; decide)
  have h0 : ¬ (mfm_cut_capture.length = 0) := by rw [hl]; decide
  have hm : ¬ (TT_MFM = TT_FM) := by decide
  unfold process
  simp only [ht]
  rw [if_neg h0, hf, if_neg hm, if_pos rfl]

set_option maxRecDepth 100000 in
theorem mfm_cut_junk_fetch :
    mfm_fetch_bytes ([0, 0, 0] ++ mfm_cut_junk) 0 2 = ([0x27, 0x22], 32, []) := by
  decide

/-- Claim C11, at the capture `mfm_cut_capture` of 94 samples that ends three
half-cells after the data mark of a 1024-byte sector, processed twice from the
empty image.  In the first pass the bytes behind the zero pad of `mfm_decode`
are 0: the data field fails its CRC and the image stays empty.  In the second
pass, on the same samples, the 27 bytes behind the pad are `mfm_cut_junk`: the
two CRC bytes are fetched from them, the data field validates and 1024 bytes
0x00 are stored as sector (5, 3).  The image after two passes is not the image
after one. -/
theorem process_twice_differs :
    mfm_cut_capture.length = 94 ∧
    (∀ t s, (process mfm_cut_capture [] Globals_init).1.disk t s = ⟨0, none⟩) ∧
    (process mfm_cut_capture mfm_cut_junk
        (process mfm_cut_capture [] Globals_init).1).1.disk 5 3 =
      ⟨1024, some (List.replicate 1024 0)⟩ ∧
    (process mfm_cut_capture mfm_cut_junk
        (process mfm_cut_capture [] Globals_init).1).1.disk ≠
      (process mfm_cut_capture [] Globals_init).1.disk := by
  have h1 : (process mfm_cut_capture [] Globals_init).1 = ⟨5, 0, 3, 1024, Disk_empty⟩ := by
    rw [process_cut_capture, mfm_cut_run_none]
    rfl
  have h2 : (process mfm_cut_capture mfm_cut_junk
      (process mfm_cut_capture [] Globals_init).1).1.disk 5 3 =
      ⟨1024, some (List.replicate 1024 0)⟩ := by
    rw [h1, process_cut_capture, mfm_cut_run_store _ mfm_cut_junk_fetch]
    simp only [sector_none]
    rw [disk_add_first Disk_empty 5 3 1024 _ (by decide) (by decide)
      (Or.inr (Or.inr (Or.inr rfl))) (List.length_replicate _ _) rfl]
    exact Disk_set_same Disk_empty 5 3 ⟨1024, some (List.replicate 1024 0)⟩
  refine ⟨mfm_cut_capture_format.1, fun t s => by rw [h1]; rfl, h2, fun h => ?_⟩
  have h3 := congrArg sector_t.size h2
  rw [h, h1] at h3
  exact absurd h3 (by decide)

/-! ## A failed data field keeps the header context -/

theorem fm_track_stale_stream (D : List Nat) :
    fm_stream (fm_track_stale D) =
      List.replicate (16 * 40) 1 ++ (List.replicate 48 0 ++ (FM_indx_mark ++
      (List.replicate (16 * 26) 1 ++ (List.replicate 48 0 ++ (FM_addr_mark ++
      (fm_enc ([5, 0, 3, 0] ++ crc_bytes [0xFE, 5, 0, 3, 0]) ++
      (List.replicate 176 1 ++ (List.replicate 48 0 ++ (FM_data_mark ++
      (List.replicate (8 * 128) 0 ++ (List.replicate (8 * 2) 0 ++
      (List.replicate (16 * 27) 1 ++ (List.replicate 48 0 ++ (FM_data_mark ++
      (fm_enc (D ++ crc_bytes (0xFB :: D)) ++
      (List.replicate (16 * 26 + 15) 1)))))))))))))))) := by
  have e : fm_track_stale D =
      (fm_plain (List.replicate 40 0xFF ++ List.replicate 6 0x00) ++ [(0xD7, 0xFC)] ++
        fm_plain (List.replicate 26 0xFF ++ List.replicate 6 0x00) ++ [(0xC7, 0xFE)] ++
        fm_plain ([5, 0, 3, 0] ++ crc_bytes [0xFE, 5, 0, 3, 0] ++
          List.replicate 11 0xFF ++ List.replicate 6 0x00) ++ [(0xC7, 0xFB)] ++
        fm_plain (List.replicate 128 0x00 ++ List.replicate 2 0x00 ++
          List.replicate 27 0xFF ++ List.replicate 6 0x00) ++ [(0xC7, 0xFB)] ++
        fm_plain (D ++ crc_bytes (0xFB :: D) ++ List.replicate 26 0xFF)) ++ [(0xFF, 0xFF)] := by
    simp only [fm_track_stale, fm_plain, List.replicate_succ' 26, List.map_append,
      List.append_assoc, List.map_cons, List.map_nil]
  rw [e, fm_stream_eq]
  · simp only [List.flatMap_append, fm_plain_stream, fm_enc_append, fm_enc_ones, fm_enc_zeros,
      List.flatMap_cons, List.flatMap_nil, List.append_nil, List.append_assoc]
    have m1 : fm_item_stream (0xD7, 0xFC) = FM_indx_mark := by decide
    have m2 : fm_item_stream (0xC7, 0xFE) = FM_addr_mark := by decide
    have m3 : fm_item_stream (0xC7, 0xFB) = FM_data_mark := by decide
    rw [m1, m2, m3, ← List.replicate_add]
  · intro cd hcd
    simp only [List.mem_append, List.mem_singleton] at hcd
    rcases hcd with ((((((((h | h) | h) | h) | h) | h) | h) | h) | h)
    · exact fm_plain_ok _ cd h
    · exact Or.inr (Or.inl h)
    · exact fm_plain_ok _ cd h
    · exact Or.inr (Or.inr (Or.inl h))
    · exact fm_plain_ok _ cd h
    · exact Or.inr (Or.inr (Or.inr h))
    · exact fm_plain_ok _ cd h
    · exact Or.inr (Or.inr (Or.inr h))
    · exact fm_plain_ok _ cd h

set_option maxRecDepth 100000 in
theorem crc16_zero_field_bad :
    crc16 (0xFB :: (List.replicate 128 0 ++ List.replicate 2 0)) (1 + 128 + 2) ≠ 0 := by
  decide

theorem fm_mark_data_bad (X : List Nat) (g : Globals) (hg : g.Last_size = 128) :
    fm_mark (FM_data_mark ++ (List.replicate (8 * 128) 0 ++
      (List.replicate (8 * 2) 0 ++ X))) 0 g = (0, 68, g, []) := by
  have hb : ∀ b ∈ List.replicate 128 0 ++ List.replicate 2 0, b < 256 := by
    intro b hb
    rw [List.mem_append] at hb
    rcases hb with hb | hb
    · rw [List.eq_of_mem_replicate hb]; decide
    · rw [List.eq_of_mem_replicate hb]; decide
  have hf := fm_fetch_bytes_enc _ hb FM_data_mark X
  have hl : (List.replicate 128 0 ++ List.replicate 2 0).length = 128 + 2 := by
    rw [List.length_append, List.length_replicate, List.length_replicate]
  have hl2 : FM_data_mark.length = 12 := rfl
  rw [hl, hl2, fm_enc_append, fm_enc_zeros, fm_enc_zeros, List.append_assoc] at hf
  have hvd : fm_valid_data (FM_data_mark ++ (List.replicate (8 * 128) 0 ++
      (List.replicate (8 * 2) 0 ++ X))) 12 128 = (0, []) := by
    unfold fm_valid_data
    rw [if_neg (by decide), hf]
    exact if_pos crc16_zero_field_bad
  generalize List.replicate (8 * 128) 0 ++ (List.replicate (8 * 2) 0 ++ X) = Y at hvd ⊢
  have h1 : mark_match (FM_data_mark ++ Y) 0 FM_indx_mark 12 = false :=
    mark_match_false _ 0 _ _ 4 (by decide) (by simp [FM_indx_mark, FM_data_mark])
  have h2 : mark_match (FM_data_mark ++ Y) 0 FM_addr_mark 12 = false :=
    mark_match_false _ 0 _ _ 7 (by decide) (by simp [FM_addr_mark, FM_data_mark])
  simp only [fm_mark, h1, h2, mark_match_self FM_data_mark _ 12 (by decide), fm_data,
    Nat.zero_add, hg, hvd, ne_eq, not_true_eq_false, if_true, Bool.false_eq_true,
    if_false]

theorem fm_decode_stale_run (D : List Nat) (hlen : D.length = 128) (hD : ∀ b ∈ D, b < 256) :
    fm_decode (fm_samples (fm_cells (fm_track_stale D))) FM_SPLIT Globals_init =
      (⟨NTRACKS, NSIDES, NSECTORS, 0, Disk_set Disk_empty 5 3 ⟨128, some D⟩⟩, []) := by
  rw [fm_decode_eq_run]
  have hst := fm_track_stale_stream D
  unfold fm_stream at hst
  have hn : (fm_samples (fm_cells (fm_track_stale D))).length =
      ((fm_samples (fm_cells (fm_track_stale D))).map
        (fun s => if s < FM_SPLIT then 1 else 0)).length := by
    rw [List.length_map]
  rw [hn, hst]
  simp only [List.length_append, List.length_replicate, List.append_assoc]
  have hi : FM_indx_mark.length = 12 := rfl
  have ha : FM_addr_mark.length = 12 := rfl
  have hd : FM_data_mark.length = 12 := rfl
  rw [hi, ha, hd]
  generalize hLh : (fm_enc ([5, 0, 3, 0] ++ crc_bytes [0xFE, 5, 0, 3, 0])).length = Lh
  generalize hLd : (fm_enc (D ++ crc_bytes (0xFB :: D))).length = Ld
  -- leading gap and sync
  rw [fm_run_skip_gap _ _ _ _ _ (by omega)]
  -- index mark
  rw [fm_run_mark _ _ _ _ _ _ (fm_mark_indx _ _) (by omega)]
  rw [show (12 : Nat) + 1 = FM_indx_mark.length + 1 from rfl, drop_mark_only]
  rw [fm_run_drop_gap _ _ _ _ _ (by omega)]
  -- address mark
  rw [fm_run_mark _ _ _ _ _ _ (fm_mark_addr 5 3 0 (by decide) (by decide) (by decide) _ _)
    (by omega)]
  rw [drop_past_mark FM_addr_mark _ _ _ (by rw [ha])]
  rw [fm_run_drop_gap _ _ _ _ _ (by omega)]
  -- first data mark: the CRC is not zero, the header context stays
  rw [fm_run_mark _ _ _ _ _ _ (fm_mark_data_bad _ _ rfl) (by omega)]
  rw [drop_one_append FM_data_mark _ 1 (by decide), show 8 * 128 = 11 + 1013 from rfl,
    List.replicate_add, List.append_assoc]
  rw [fm_skip_block FM_data_mark.tail (List.replicate 11 0) _ (by simp) (by decide),
    show FM_data_mark.tail.length = 11 from rfl]
  rw [fm_run_skip_zeros, fm_run_skip_zeros, fm_run_skip_zeros]
  rw [fm_run_skip_gap _ _ _ _ _ (by omega)]
  -- second data mark: committed under the header of sector 3
  have hdata : fm_mark (FM_data_mark ++ (fm_enc (D ++ crc_bytes (0xFB :: D)) ++
      (List.replicate (16 * 26 + 15) 1 ++ List.replicate DECODE_PAD 0))) 0
      { Last_track := 5, Last_side := 0, Last_sector := 3, Last_size := 128 <<< 0,
        disk := (sector_none Globals_init).disk } =
      (Ld + 12, 68,
        ⟨NTRACKS, NSIDES, NSECTORS, 0, Disk_set Disk_empty 5 3 ⟨128, some D⟩⟩, []) := by
    rw [fm_mark_data D hD (by omega) _ _ (by rw [hlen]; rfl), hLd]
    simp only [sector_none, Globals_init]
    rw [disk_add_first Disk_empty 5 3 (128 <<< 0) D (by decide) (by decide) (Or.inl rfl)
      (by rw [hlen]; rfl) rfl]
    rfl
  rw [fm_run_mark _ _ _ _ _ _ hdata (by omega)]
  rw [drop_past_mark FM_data_mark _ _ _ (by rw [hd, hLd])]
  rw [show 16 * 26 + 15 = (16 * 26 + 14) + 1 by omega, List.replicate_succ, List.cons_append,
    List.drop_succ_cons, List.drop_zero]
  rw [show List.replicate DECODE_PAD 0 = List.replicate DECODE_PAD 0 ++ [] by simp,
    fm_run_skip_ones _ _ _ _ _ (by decide)]
  rw [hi, hLh]
  have hz : 16 * 40 + (48 + (12 + (16 * 26 + (48 + (12 + (Lh + (176 + (48 + (12 +
      (11 + 1013 + (8 * 2 + (16 * 27 + (48 + (12 + (Ld + (16 * 26 + 14 + 1)))))))))))))))) -
      (16 * 40 + 48) - (12 + 1) - (16 * 26 + 48 - 1) - (Lh + 12 + 1) - (176 + 48 - 1) -
      (0 + 1) - 11 - 11 - 1013 - 8 * 2 - (16 * 27 + 48) - (Ld + 12 + 1) - (16 * 26 + 14) = 0 := by
    omega
  rw [hz]
  rfl

set_option maxRecDepth 1000000 in
/-- Claim C16, at the header context `(5, 0, 3, 128)` and a stream of zeros, on
which every validation fails: each of `fm_data`, `fm_deld`, `mfm_data` and
`mfm_deld` returns 0 and leaves the context `(5, 0, 3, 128)`, where `fm_addr`
and `mfm_addr` return 0 and leave the sentinel `(77, 1, 33, 0)`.  On the FM
track `fm_track_stale`, where the data field of sector 3 has a wrong CRC and the
next data field, 128 bytes 0xE5, has lost its address field, `fm_decode` stores
these 128 bytes as sector (5, 3) and prints nothing. -/
theorem data_failure_stale_header :
    fm_data [] 0 ⟨5, 0, 3, 128, Disk_empty⟩ = (0, ⟨5, 0, 3, 128, Disk_empty⟩, []) ∧
    fm_deld [] 0 ⟨5, 0, 3, 128, Disk_empty⟩ = (0, ⟨5, 0, 3, 128, Disk_empty⟩, []) ∧
    mfm_data [] 0 ⟨5, 0, 3, 128, Disk_empty⟩ = (0, ⟨5, 0, 3, 128, Disk_empty⟩, []) ∧
    mfm_deld [] 0 ⟨5, 0, 3, 128, Disk_empty⟩ = (0, ⟨5, 0, 3, 128, Disk_empty⟩, []) ∧
    fm_addr [] 0 ⟨5, 0, 3, 128, Disk_empty⟩ = (0, ⟨77, 1, 33, 0, Disk_empty⟩) ∧
    mfm_addr [] 0 ⟨5, 0, 3, 128, Disk_empty⟩ = (0, ⟨77, 1, 33, 0, Disk_empty⟩, []) ∧
    fm_decode (fm_samples (fm_cells (fm_track_stale (List.replicate 128 0xE5)))) FM_SPLIT
        Globals_init =
      (⟨77, 1, 33, 0, Disk_set Disk_empty 5 3 ⟨128, some (List.replicate 128 0xE5)⟩⟩, []) := by
  have hv : mfm_valid_data [] 0 128 = (0, [], []) := by decide
  refine ⟨?_, ?_, ?_, ?_, ?_, ?_, ?_⟩
  · exact fm_data_fail [] 0 _ (by decide)
  · exact fm_deld_fail [] 0 _ (by decide)
  · rw [mfm_data_fail [] 0 _ (by rw [hv]), hv]
  · rw [mfm_deld_fail [] 0 _ (by rw [hv]), hv]
  · have h : fm_valid_addr [] 0 ⟨5, 0, 3, 128, Disk_empty⟩ = (0, ⟨5, 0, 3, 128, Disk_empty⟩) := by
      rw [fm_valid_addr_eq]
      exact if_neg (by decide)
    unfold fm_addr
    rw [h]
    rfl
  · have h : mfm_valid_addr [] 0 ⟨5, 0, 3, 128, Disk_empty⟩ =
        (0, ⟨5, 0, 3, 128, Disk_empty⟩, []) := by
      rw [mfm_valid_addr_eq]
      have e : (mfm_fetch_bytes [] 0 10).2.2 = [] := by decide
      rw [if_neg (by decide), e]
    unfold mfm_addr
    rw [h]
    rfl
  · exact fm_decode_stale_run _ (List.length_replicate _ _) (replicate_lt 128 0xE5 (by decide))

end Floppy8
